import Mathlib

/-!
# EmbedCV: a shallow embedding of the feature-extraction and segmentation core

Buffers are modelled as maps from an element offset (relative to the `data`
pointer) to the stored sample; a C pointer into a buffer is the offset it
points at.  Counted loops (`UNROLL_LOOP`, `NORMAL_LOOP`) run their body a fixed
number of times.  `size_t` is taken to be 64 bits wide and `int16_t` stores wrap
to sixteen bits.
-/

namespace EmbedCV

/-! ## Memory and loops -/

/-- The value `2^64`: `size_t` arithmetic is arithmetic modulo this number. -/
def SIZE_MOD : Nat := 18446744073709551616

/-- A `size_t` addition. -/
def uadd (a b : Nat) : Nat := (a + b) % SIZE_MOD

/-- A `size_t` subtraction (wraps below zero). -/
def usub (a b : Nat) : Nat := (a + SIZE_MOD - b % SIZE_MOD) % SIZE_MOD

/-- A `size_t` multiplication. -/
def umul (a b : Nat) : Nat := (a * b) % SIZE_MOD

/-- The write `p[a] = v` on a buffer. -/
def store {α : Type} (m : Nat → α) (a : Nat) (v : α) : Nat → α :=
  fun k => if k = a then v else m k

/-- The write `*(p) = v` through a pointer whose offset was computed by a
subtraction and may lie before the start of the buffer: such a write does not
land in the buffer. -/
def storeAt {α : Type} (m : Nat → α) (a : Int) (v : α) : Nat → α :=
  fun k => if (k : Int) = a then v else m k

/-- Modelled from the spec: the macros `UNROLL_LOOP(count, body)` and
`NORMAL_LOOP(count, body)` of the absent header `embedcv.h`; both run `body`
`count` times in sequence ("one pass ... for every sample"). -/
def loopN {σ : Type} : Nat → (σ → σ) → σ → σ
  | 0, _, s => s
  | n + 1, body, s => loopN n body (body s)

/-- Modelled from the spec: the macro `UINTDIFF(a, b)` of the absent header
`embedcv.h`, the absolute difference of two unsigned values. -/
def UINTDIFF (a b : Nat) : Nat := if a > b then a - b else b - a

/-! ## Images -/

/-- An `Image8_t`: dimensions and the row-major samples. -/
structure Image8_t where
  width : Nat
  height : Nat
  data : Nat → Nat

/-- Every sample of the image fits in eight bits. -/
def Image8_t.wf (img : Image8_t) : Prop := ∀ k, img.data k < 256

/-! ## Histograms (`histogram.c`) -/

/-- A `Histogram_t`. -/
structure Histogram_t where
  numberBins : Nat
  numberCounts : Nat
  bins : Nat → Nat
  sumBins : Nat → Nat
  meanBins : Nat → Nat

/-- State of the tally loop of `ImageHistogram`: the bins and `ptrImg`. -/
structure TallyState where
  bins : Nat → Nat
  ptrImg : Nat

/-- The statement `ptrBins[ *ptrImg++ ]++`. -/
def tallyStep (data : Nat → Nat) (s : TallyState) : TallyState :=
  { bins := store s.bins (data s.ptrImg) (uadd (s.bins (data s.ptrImg)) 1),
    ptrImg := s.ptrImg + 1 }

/-- State of the cumulative loop of `ImageHistogram`. -/
structure CumState where
  sumBins : Nat → Nat
  meanBins : Nat → Nat
  accumSum : Nat
  accumMean : Nat
  i : Nat

/-- One iteration of `for (i = 0; i < numBins; ++i)` in `ImageHistogram`. -/
def cumStep (bins : Nat → Nat) (s : CumState) : CumState :=
  let tmp := bins s.i
  let accumSum := uadd s.accumSum tmp
  let accumMean := uadd s.accumMean (umul s.i tmp)
  { sumBins := store s.sumBins s.i accumSum,
    meanBins := store s.meanBins s.i accumMean,
    accumSum := accumSum,
    accumMean := accumMean,
    i := s.i + 1 }

/-- The function `ImageHistogram`: tally every pixel, then rebuild the
cumulative arrays over `numberBins` bins. -/
def ImageHistogram (outHistogram : Histogram_t) (inImg : Image8_t) : Histogram_t :=
  let numPixels := umul inImg.width inImg.height
  let t := loopN numPixels (tallyStep inImg.data) { bins := outHistogram.bins, ptrImg := 0 }
  let c := loopN outHistogram.numberBins (cumStep t.bins)
    { sumBins := outHistogram.sumBins, meanBins := outHistogram.meanBins,
      accumSum := 0, accumMean := 0, i := 0 }
  { numberBins := outHistogram.numberBins,
    numberCounts := numPixels,
    bins := t.bins,
    sumBins := c.sumBins,
    meanBins := c.meanBins }

/-- The binary search loop of `HistogramMedian` on offsets into `sumBins`; the
loop test `(upperBound - lowerBound) & ~0x1` clears bit 0 of the distance.  The
first argument bounds the number of iterations; `none` means it was used up. -/
def HistogramMedianLoop (sumBins : Nat → Nat) (halfCounts : Nat) :
    Nat → Nat → Nat → Nat → Option Nat
  | 0, _, _, _ => none
  | fuel + 1, lowerBound, upperBound, ptrSumBins =>
    if (upperBound - lowerBound) / 2 * 2 ≠ 0 then
      if sumBins ptrSumBins < halfCounts then
        HistogramMedianLoop sumBins halfCounts fuel ptrSumBins upperBound
          (ptrSumBins + (upperBound - ptrSumBins) / 2)
      else if sumBins ptrSumBins > halfCounts then
        HistogramMedianLoop sumBins halfCounts fuel lowerBound ptrSumBins
          (ptrSumBins - (ptrSumBins - lowerBound) / 2)
      else some ptrSumBins
    else some ptrSumBins

/-- The function `HistogramMedian`. -/
def HistogramMedian (inHistogram : Histogram_t) : Option Nat :=
  HistogramMedianLoop inHistogram.sumBins (inHistogram.numberCounts / 2)
    (inHistogram.numberBins + 1) 0 inHistogram.numberBins (inHistogram.numberBins / 2)

/-- A histogram with `n` bins, all arrays zero. -/
def zeroHistogram (n : Nat) : Histogram_t :=
  { numberBins := n, numberCounts := 0, bins := fun _ => 0,
    sumBins := fun _ => 0, meanBins := fun _ => 0 }

/-- The image of the given size whose samples all equal `k`. -/
def constImage (w h k : Nat) : Image8_t :=
  { width := w, height := h, data := fun _ => k }

/-- The inclusive running count `bins[0] + ... + bins[i]`. -/
def cumSum (bins : Nat → Nat) : Nat → Nat
  | 0 => bins 0
  | i + 1 => cumSum bins i + bins (i + 1)

/-- The inclusive running moment `0*bins[0] + ... + i*bins[i]`. -/
def cumMean (bins : Nat → Nat) : Nat → Nat
  | 0 => 0 * bins 0
  | i + 1 => cumMean bins i + (i + 1) * bins (i + 1)

/-- The derived arrays and the total agree with the bins. -/
def Histogram_t.consistent (h : Histogram_t) : Prop :=
  h.numberCounts = cumSum h.bins (h.numberBins - 1) ∧
  ∀ i, i < h.numberBins →
    h.sumBins i = cumSum h.bins i ∧ h.meanBins i = cumMean h.bins i

/-- The index computed by the search loop of `OtsuThreshold`.  The first
argument is the distance `endSumBins - ptrSumBins`; `ptrMeanBins` advances only
on a bin that is not skipped.  The division of the score is the total division
of `Nat`, which yields 0 where the C division by `p*(numCounts - p) = 0` traps:
this function gives the returned index on the runs without a trap and says
nothing about whether the run traps.  `OtsuLoopChecked` is the loop with the
trap; the two agree whenever the checked one returns
(`OtsuLoopChecked_value`). -/
def OtsuLoop (sumBins meanBins : Nat → Nat) (numCounts mean : Nat) :
    Nat → Nat → Nat → Nat → Nat
  | 0, ptrSumBins, _, _ => ptrSumBins
  | remaining + 1, ptrSumBins, ptrMeanBins, last =>
    let p := sumBins ptrSumBins
    if p = 0 ∨ p = numCounts then
      OtsuLoop sumBins meanBins numCounts mean remaining (ptrSumBins + 1) ptrMeanBins last
    else
      let a := UINTDIFF (meanBins ptrMeanBins) (umul mean p)
      let curr := umul a a / umul p (usub numCounts p)
      if curr < last then ptrSumBins + 1
      else
        OtsuLoop sumBins meanBins numCounts mean remaining (ptrSumBins + 1)
          (ptrMeanBins + 1) curr

/-- The index computed by `OtsuThreshold`, with total divisions: the division
`ptrMeanBins[numBins-1] / numCounts` yields 0 for `numCounts = 0`, where the C
code traps.  `OtsuThresholdChecked` is the function with both traps; the two
agree whenever the checked one returns (`OtsuThresholdChecked_value`). -/
def OtsuThreshold (inHistogram : Histogram_t) : Nat :=
  OtsuLoop inHistogram.sumBins inHistogram.meanBins inHistogram.numberCounts
    (inHistogram.meanBins (inHistogram.numberBins - 1) / inHistogram.numberCounts)
    inHistogram.numberBins 0 0 0

/-- The 256-bin histogram with `n` counts in each of the bins `a` and `b`, its
derived arrays computed from the bins. -/
def twoSpike (a b n : Nat) : Histogram_t :=
  let bins : Nat → Nat := fun i => if i = a ∨ i = b then n else 0
  { numberBins := 256, numberCounts := cumSum bins 255, bins := bins,
    sumBins := cumSum bins, meanBins := cumMean bins }

/-! ## Segmentation maps (`histogram.c`, `utility.c`) -/

/-- State of the fill loop of `SegmentMap`: the map and `ptrMap`. -/
structure FillState where
  map : Nat → Nat
  ptrMap : Nat

/-- The statement `*ptrMap++ = value`. -/
def fillStep (value : Nat) (s : FillState) : FillState :=
  { map := store s.map s.ptrMap value, ptrMap := s.ptrMap + 1 }

/-- The lower end `lowerBound` computed by `SegmentMap`. -/
def segLower (center threshold : Nat) : Nat :=
  if threshold > center then 0 else center - threshold

/-- The end offset `upperBound` computed by `SegmentMap`. -/
def segUpper (center threshold : Nat) : Nat :=
  if uadd threshold center > 256 then 256 else uadd threshold center

/-- The function `SegmentMap`: `while (ptrMap != endMap) *ptrMap++ = value`
from `outMap + lowerBound` up to `outMap + upperBound`; the loop runs
`upperBound - lowerBound` times (see `segLower_le_segUpper`). -/
def SegmentMap (outMap : Nat → Nat) (center threshold value : Nat) : Nat → Nat :=
  (loopN (segUpper center threshold - segLower center threshold) (fillStep value)
    { map := outMap, ptrMap := segLower center threshold }).map

/-- Modelled from the spec: the union `PackedCbCr_t` of the absent header
`embedcv.h`, "two channels packed into one 16-bit word"; `data[0]` is taken to
be the low byte of the word. -/
def packedData0 (v : Nat) : Nat := v % 256

/-- Modelled from the spec: `data[1]` of `PackedCbCr_t`, the high byte of the
16-bit word. -/
def packedData1 (v : Nat) : Nat := v / 256 % 256

/-- The function `CbCrSSD`. -/
def CbCrSSD (v1 v2 : Nat) : Nat :=
  let diff1 := UINTDIFF (packedData0 v1) (packedData0 v2)
  let diff2 := UINTDIFF (packedData1 v1) (packedData1 v2)
  diff1 * diff1 + diff2 * diff2

/-- State of the loop of `SegmentMapCbCr`: the map and the counter `i`. -/
structure DiskState where
  map : Nat → Nat
  i : Nat

/-- The body of `for (i = 1; i != 0; ++i)` in `SegmentMapCbCr`. -/
def diskStep (cbMap crMap : Nat → Nat) (center thresholdSq value : Nat)
    (s : DiskState) : DiskState :=
  let iCb := packedData0 s.i
  let iCr := packedData1 s.i
  { map := if cbMap iCb ≠ 0 ∧ crMap iCr ≠ 0 ∧ CbCrSSD center s.i ≤ thresholdSq
           then store s.map s.i value else s.map,
    i := s.i + 1 }

/-- The function `SegmentMapCbCr`.  The local arrays `cbMap` and `crMap` are
not initialised by the source; `cbInit` and `crInit` are their contents on
entry.  The 16-bit counter runs from 1 to 65535. -/
def SegmentMapCbCr (cbInit crInit : Nat → Nat) (outMap : Nat → Nat)
    (center threshold value : Nat) : Nat → Nat :=
  let cbMap := SegmentMap cbInit (packedData0 center) threshold 1
  let crMap := SegmentMap crInit (packedData1 center) threshold 1
  let thresholdSq := umul threshold threshold
  let map0 := if cbMap 0 ≠ 0 ∧ crMap 0 ≠ 0 ∧ CbCrSSD center 0 ≤ thresholdSq
              then store outMap 0 value else outMap
  (loopN 65535 (diskStep cbMap crMap center thresholdSq value) { map := map0, i := 1 }).map

/-! ## Sobel edges (`operate.c`) -/

/-- Conversion of an `int` result to `int16_t` on storing it. -/
def wrap16 (x : Int) : Int := (x + 32768) % 65536 - 32768

/-- The statement `*p += v` on an `int16_t` buffer (`v` negative for `-=`). -/
def addAt (m : Nat → Int) (p : Nat) (v : Int) : Nat → Int :=
  fun k => if k = p then wrap16 (m p + v) else m k

/-- The output buffers and the thirteen pointers of `SobelEdges`. -/
structure SobelState where
  outDataX : Nat → Int
  outDataY : Nat → Int
  ptrIn : Nat
  ptrUpLeftX : Nat
  ptrUpLeftY : Nat
  ptrUpY : Nat
  ptrUpRightX : Nat
  ptrUpRightY : Nat
  ptrLeftX : Nat
  ptrRightX : Nat
  ptrDownLeftX : Nat
  ptrDownLeftY : Nat
  ptrDownY : Nat
  ptrDownRightX : Nat
  ptrDownRightY : Nat

/-- The body of the inner loop of `SobelEdges`.  `twiceValue` is a `uint8_t`;
the four X corner pointers are not advanced here. -/
def sobelInner (data : Nat → Nat) (s : SobelState) : SobelState :=
  let value : Nat := data s.ptrIn
  let twiceValue : Nat := (value * 2) % 256
  let x1 := addAt s.outDataX s.ptrUpLeftX (value : Int)
  let x2 := addAt x1 s.ptrUpRightX (-(value : Int))
  let x3 := addAt x2 s.ptrDownLeftX (value : Int)
  let x4 := addAt x3 s.ptrDownRightX (-(value : Int))
  let x5 := addAt x4 s.ptrLeftX (twiceValue : Int)
  let x6 := addAt x5 s.ptrRightX (-(twiceValue : Int))
  let y1 := addAt s.outDataY s.ptrUpLeftY (value : Int)
  let y2 := addAt y1 s.ptrUpRightY (value : Int)
  let y3 := addAt y2 s.ptrDownLeftY (-(value : Int))
  let y4 := addAt y3 s.ptrDownRightY (-(value : Int))
  let y5 := addAt y4 s.ptrUpY (twiceValue : Int)
  let y6 := addAt y5 s.ptrDownY (-(twiceValue : Int))
  { outDataX := x6,
    outDataY := y6,
    ptrIn := s.ptrIn + 1,
    ptrUpLeftX := s.ptrUpLeftX,
    ptrUpLeftY := s.ptrUpLeftY + 1,
    ptrUpY := s.ptrUpY + 1,
    ptrUpRightX := s.ptrUpRightX,
    ptrUpRightY := s.ptrUpRightY + 1,
    ptrLeftX := s.ptrLeftX + 1,
    ptrRightX := s.ptrRightX + 1,
    ptrDownLeftX := s.ptrDownLeftX,
    ptrDownLeftY := s.ptrDownLeftY + 1,
    ptrDownY := s.ptrDownY + 1,
    ptrDownRightX := s.ptrDownRightX,
    ptrDownRightY := s.ptrDownRightY + 1 }

/-- The body of the outer loop of `SobelEdges`: the inner loop over
`width - 2` samples, then every pointer moves on by two. -/
def sobelRow (data : Nat → Nat) (width : Nat) (s : SobelState) : SobelState :=
  let t := loopN (width - 2) (sobelInner data) s
  { outDataX := t.outDataX,
    outDataY := t.outDataY,
    ptrIn := t.ptrIn + 2,
    ptrUpLeftX := t.ptrUpLeftX + 2,
    ptrUpLeftY := t.ptrUpLeftY + 2,
    ptrUpY := t.ptrUpY + 2,
    ptrUpRightX := t.ptrUpRightX + 2,
    ptrUpRightY := t.ptrUpRightY + 2,
    ptrLeftX := t.ptrLeftX + 2,
    ptrRightX := t.ptrRightX + 2,
    ptrDownLeftX := t.ptrDownLeftX + 2,
    ptrDownLeftY := t.ptrDownLeftY + 2,
    ptrDownY := t.ptrDownY + 2,
    ptrDownRightX := t.ptrDownRightX + 2,
    ptrDownRightY := t.ptrDownRightY + 2 }

/-- The state of `SobelEdges` before its loops: both outputs cleared by
`memset`, the pointers at their initial offsets. -/
def sobelInit (width : Nat) : SobelState :=
  let twiceWidth := width * 2
  { outDataX := fun _ => 0,
    outDataY := fun _ => 0,
    ptrIn := width + 1,
    ptrUpLeftX := 0,
    ptrUpLeftY := 0,
    ptrUpY := 1,
    ptrUpRightX := 2,
    ptrUpRightY := 2,
    ptrLeftX := width,
    ptrRightX := width + 2,
    ptrDownLeftX := twiceWidth,
    ptrDownLeftY := twiceWidth,
    ptrDownY := twiceWidth + 1,
    ptrDownRightX := twiceWidth + 2,
    ptrDownRightY := twiceWidth + 2 }

/-- The function `SobelEdges` (for `width >= 2` and `height >= 2`, where the
loop counts `width - 2` and `height - 2` do not wrap); the result is the final
state, whose `outDataX` and `outDataY` are the two edge images. -/
def SobelEdges (inImg : Image8_t) : SobelState :=
  loopN (inImg.height - 2) (sobelRow inImg.data inImg.width) (sobelInit inImg.width)

/-- The sample of a row-major buffer of the given width at row `r`, column `c`. -/
def pix (data : Nat → Nat) (width r c : Nat) : Int := (data (r * width + c) : Int)

/-- The 3x3 kernel `[-1 0 +1; -2 0 +2; -1 0 +1]` applied directly at `(i, j)`. -/
def sobelDirectX (data : Nat → Nat) (width i j : Nat) : Int :=
  pix data width (i - 1) (j + 1) + 2 * pix data width i (j + 1) + pix data width (i + 1) (j + 1)
    - pix data width (i - 1) (j - 1) - 2 * pix data width i (j - 1)
    - pix data width (i + 1) (j - 1)

/-- The 3x3 kernel `[-1 -2 -1; 0 0 0; +1 +2 +1]` applied directly at `(i, j)`. -/
def sobelDirectY (data : Nat → Nat) (width i j : Nat) : Int :=
  pix data width (i + 1) (j - 1) + 2 * pix data width (i + 1) j + pix data width (i + 1) (j + 1)
    - pix data width (i - 1) (j - 1) - 2 * pix data width (i - 1) j
    - pix data width (i - 1) (j + 1)

/-- Offset `q` is one of the samples read by `SobelEdges`: it lies in a row
`1 .. height-2` and a column `1 .. width-2`. -/
def scanned (width height q : Nat) : Prop :=
  1 ≤ q / width ∧ q / width + 2 ≤ height ∧ 1 ≤ q % width ∧ q % width + 2 ≤ width

instance (width height q : Nat) : Decidable (scanned width height q) := by
  unfold scanned; infer_instance

/-- The input with every sample of its outermost ring replaced by zero. -/
def ringZeroed (width height : Nat) (data : Nat → Nat) : Nat → Nat :=
  fun q => if scanned width height q then data q else 0

/-- The weight-one contribution of input offset `q`: its sample. -/
def sampleOf (data : Nat → Nat) (q : Nat) : Int := (data q : Int)

/-- The weight-two contribution of input offset `q` as the source computes it:
the sample doubled in a `uint8_t`. -/
def twiceOf (data : Nat → Nat) (q : Nat) : Int := ((data q * 2 % 256 : Nat) : Int)

/-- The contribution `c q` of input offset `q`, counted once the scan pointer
has passed `q` (that is, `q < p`) and only if `q` is a sample the scan reads. -/
def contrib (c : Nat → Int) (width height p q : Nat) : Int :=
  if scanned width height q ∧ q < p then c q else 0

/-- The sum of what the samples read before the scan pointer reached `p` have
added to cell `k` of the Y edge image. -/
def sobelYUpTo (data : Nat → Nat) (width height p k : Nat) : Int :=
  contrib (sampleOf data) width height p (k + width + 1)
    + contrib (twiceOf data) width height p (k + width)
    + contrib (sampleOf data) width height p (k + width - 1)
    - contrib (sampleOf data) width height p (k + 1 - width)
    - contrib (twiceOf data) width height p (k - width)
    - contrib (sampleOf data) width height p (k - width - 1)

/-- The loop invariant of `SobelEdges` for the Y edge image when the input
pointer is at offset `p`. -/
def SobelYInv (data : Nat → Nat) (width height : Nat) (s : SobelState) (p : Nat) : Prop :=
  s.ptrIn = p ∧ s.ptrUpLeftY + width + 1 = p ∧ s.ptrUpY + width = p ∧
  s.ptrUpRightY + width = p + 1 ∧ s.ptrDownLeftY + 1 = p + width ∧
  s.ptrDownY = p + width ∧ s.ptrDownRightY = p + width + 1 ∧
  ∀ k, s.outDataY k = wrap16 (sobelYUpTo data width height p k)

/-- The scatter form of the Y edge value at offset `k`: the contributions of
the six input offsets whose Sobel weights reach `k`, the weight-two ones as the
source doubles them. -/
def sobelYScatter (data : Nat → Nat) (width k : Nat) : Int :=
  sampleOf data (k + width + 1) + twiceOf data (k + width) + sampleOf data (k + width - 1)
    - sampleOf data (k + 1 - width) - twiceOf data (k - width) - sampleOf data (k - width - 1)

/-- The 4x4 image whose only non-zero sample is a 1 at row 2, column 2. -/
def sobelTestImage : Image8_t :=
  { width := 4, height := 4, data := fun k => if k = 10 then 1 else 0 }

/-- The 3x3 image whose only non-zero sample is a 1 in its top-left corner. -/
def sobelCornerImage : Image8_t :=
  { width := 3, height := 3, data := fun k => if k = 0 then 1 else 0 }

/-- The 3x3 image whose only non-zero sample is a 1 at its centre. -/
def sobelCentreImage : Image8_t :=
  { width := 3, height := 3, data := fun k => if k = 4 then 1 else 0 }

/-- The 5x5 image with samples `(7 * k + 3) % 100` at offset `k`. -/
def sobelRampImage : Image8_t :=
  { width := 5, height := 5, data := fun k => (7 * k + 3) % 100 }

/-- The 5x5 image that is zero except for a 9 at its centre. -/
def sobelDotImage : Image8_t :=
  { width := 5, height := 5, data := fun k => if k = 12 then 9 else 0 }

/-! ## Integral image (`intimage.c`) -/

/-- The output buffer, the pointers and the row accumulator of `IntegralImage`. -/
structure IntegralState where
  out : Nat → Nat
  ptrIn : Nat
  ptrOut : Nat
  ptrLast : Nat
  accum : Nat

/-- The body of the first-row loop: `accum += *ptrIn++; *ptrOut++ = accum`. -/
def integralFirstStep (data : Nat → Nat) (s : IntegralState) : IntegralState :=
  let accum := uadd s.accum (data s.ptrIn)
  { out := store s.out s.ptrOut accum,
    ptrIn := s.ptrIn + 1,
    ptrOut := s.ptrOut + 1,
    ptrLast := s.ptrLast,
    accum := accum }

/-- The body of the inner loop of the subsequent rows:
`accum += *ptrIn++; *ptrOut++ = accum + *ptrLast++`. -/
def integralStep (data : Nat → Nat) (s : IntegralState) : IntegralState :=
  let accum := uadd s.accum (data s.ptrIn)
  { out := store s.out s.ptrOut (uadd accum (s.out s.ptrLast)),
    ptrIn := s.ptrIn + 1,
    ptrOut := s.ptrOut + 1,
    ptrLast := s.ptrLast + 1,
    accum := accum }

/-- The body of the loop over the subsequent rows: `ptrLast = ptrOut - width`,
`accum = 0`, then the inner loop over `width` samples. -/
def integralRow (data : Nat → Nat) (width : Nat) (s : IntegralState) : IntegralState :=
  loopN width (integralStep data)
    { out := s.out, ptrIn := s.ptrIn, ptrOut := s.ptrOut,
      ptrLast := s.ptrOut - width, accum := 0 }

/-- The function `IntegralImage` (for `height >= 1`, where `height - 1` does
not wrap); `outData` is the content of the output buffer on entry and the result
is its content on return. -/
def IntegralImage (outData : Nat → Nat) (inImg : Image8_t) : Nat → Nat :=
  (loopN (inImg.height - 1) (integralRow inImg.data inImg.width)
    (loopN inImg.width (integralFirstStep inImg.data)
      { out := outData, ptrIn := 0, ptrOut := 0, ptrLast := 0, accum := 0 })).out

/-- The sum of the first `n` samples of row `r`: columns `0 .. n-1`. -/
def rowSum (data : Nat → Nat) (width r : Nat) : Nat → Nat
  | 0 => 0
  | n + 1 => rowSum data width r n + data (r * width + n)

/-- The sum of the samples in rows `0 .. r` and columns `0 .. c`, both ends
included. -/
def rectSum (data : Nat → Nat) (width : Nat) : Nat → Nat → Nat
  | 0, c => rowSum data width 0 (c + 1)
  | r + 1, c => rectSum data width r c + rowSum data width (r + 1) (c + 1)

/-- The 3x2 image with samples `(10 * k + 1) % 64` at offset `k`. -/
def integralTestImage : Image8_t :=
  { width := 3, height := 2, data := fun k => (10 * k + 1) % 64 }

/-- The invariant of the inner loop of `IntegralImage` in row `i >= 1` after
`t` samples of the row. -/
def IntegralInv (data : Nat → Nat) (w i t : Nat) (s : IntegralState) : Prop :=
  s.ptrIn = i * w + t ∧ s.ptrOut = i * w + t ∧
  ∀ r c, c < w → (r < i ∨ (r = i ∧ c < t)) → s.out (r * w + c) = rectSum data w r c % SIZE_MOD

/-! ## Morphology with the 3x3 square (`operate.c`) -/

/-- The image buffer, the row of bit registers `accum` and the four pointers of
`RegionErode33` and `RegionDilate33`. -/
structure MorphState where
  img : Nat → Nat
  accum : Nat → Nat
  ptrImg : Nat
  ptrAccum0 : Nat
  ptrAccum1 : Nat
  ptrAccum2 : Nat

/-- The statements `*ptrAccum <<= 1; *ptrAccum |= (pixel != 0)` on a `uint8_t`
register. -/
def shiftIn (a v : Nat) : Nat := ((a <<< 1) % 256) ||| (if v ≠ 0 then 1 else 0)

/-- The operator `~` on a `uint8_t` promoted to a 32-bit `int`, as a bit pattern. -/
def bitNot (a : Nat) : Nat := 4294967295 - a

/-- The test of `RegionErode33`: `*ptrAccum1 & 0x2 && (~(*ptrAccum1) & 0x7 ||
~(*ptrAccum0) & 0x7 || ~(*ptrAccum2) & 0x7)`. -/
def erode33Fires (a0 a1 a2 : Nat) : Bool :=
  decide (a1 &&& 2 ≠ 0 ∧
    (bitNot a1 &&& 7 ≠ 0 ∨ bitNot a0 &&& 7 ≠ 0 ∨ bitNot a2 &&& 7 ≠ 0))

/-- The test of `RegionDilate33`: `~(*ptrAccum1) & 0x2 && (*ptrAccum1 & 0x7 ||
*ptrAccum0 & 0x7 || *ptrAccum2 & 0x7)`. -/
def dilate33Fires (a0 a1 a2 : Nat) : Bool :=
  decide (bitNot a1 &&& 2 ≠ 0 ∧ (a1 &&& 7 ≠ 0 ∨ a0 &&& 7 ≠ 0 ∨ a2 &&& 7 ≠ 0))

/-- The body of the inner loop of `RegionErode33`. -/
def erode33Step (offset mark : Nat) (s : MorphState) : MorphState :=
  let accum := store s.accum s.ptrAccum2 (shiftIn (s.accum s.ptrAccum2) (s.img s.ptrImg))
  { img := if erode33Fires (accum s.ptrAccum0) (accum s.ptrAccum1) (accum s.ptrAccum2)
           then storeAt s.img ((s.ptrImg : Int) - (offset : Int)) mark else s.img,
    accum := accum,
    ptrImg := s.ptrImg + 1,
    ptrAccum0 := s.ptrAccum0 + 1,
    ptrAccum1 := s.ptrAccum1 + 1,
    ptrAccum2 := s.ptrAccum2 + 1 }

/-- The start of a row in both functions: the pointers into `accum` are reset
and columns 0 and 1 are shifted into their registers. -/
def morphRowStart (s : MorphState) : MorphState :=
  let accum0 := store s.accum 0 (shiftIn (s.accum 0) (s.img s.ptrImg))
  let accum1 := store accum0 1 (shiftIn (accum0 1) (s.img (s.ptrImg + 1)))
  { img := s.img, accum := accum1, ptrImg := s.ptrImg + 2,
    ptrAccum0 := 0, ptrAccum1 := 1, ptrAccum2 := 2 }

/-- The body of the main loop of `RegionErode33`: one row. -/
def erode33Row (width mark : Nat) (s : MorphState) : MorphState :=
  loopN (width - 2) (erode33Step (width + 1) mark) (morphRowStart s)

/-- The state on entry: the image, `accum` cleared by `memset`, `ptrImg` at the
first pixel. -/
def morphInit (data : Nat → Nat) : MorphState :=
  { img := data, accum := fun _ => 0, ptrImg := 0,
    ptrAccum0 := 0, ptrAccum1 := 0, ptrAccum2 := 0 }

/-- The function `RegionErode33` (for `width >= 2`, where `width - 2` does not
wrap); the result is the image after the in-place operation. -/
def RegionErode33 (inoutImg : Image8_t) (mark : Nat) : Image8_t :=
  { width := inoutImg.width, height := inoutImg.height,
    data := (loopN inoutImg.height (erode33Row inoutImg.width mark)
      (morphInit inoutImg.data)).img }

/-- The body of the inner loop of the main loop of `RegionDilate33`. -/
def dilate33Step (offset mark : Nat) (s : MorphState) : MorphState :=
  let accum := store s.accum s.ptrAccum2 (shiftIn (s.accum s.ptrAccum2) (s.img s.ptrImg))
  { img := if dilate33Fires (accum s.ptrAccum0) (accum s.ptrAccum1) (accum s.ptrAccum2)
           then storeAt s.img ((s.ptrImg : Int) - (offset : Int)) mark else s.img,
    accum := accum,
    ptrImg := s.ptrImg + 1,
    ptrAccum0 := s.ptrAccum0 + 1,
    ptrAccum1 := s.ptrAccum1 + 1,
    ptrAccum2 := s.ptrAccum2 + 1 }

/-- The body of the inner loop of the first row of `RegionDilate33`, with its
bounds check `(ptrImg - offset) >= inoutImg->data`. -/
def dilate33FirstStep (offset mark : Nat) (s : MorphState) : MorphState :=
  let accum := store s.accum s.ptrAccum2 (shiftIn (s.accum s.ptrAccum2) (s.img s.ptrImg))
  { img := if dilate33Fires (accum s.ptrAccum0) (accum s.ptrAccum1) (accum s.ptrAccum2)
           then (if (s.ptrImg : Int) - (offset : Int) ≥ 0
                 then storeAt s.img ((s.ptrImg : Int) - (offset : Int)) mark else s.img)
           else s.img,
    accum := accum,
    ptrImg := s.ptrImg + 1,
    ptrAccum0 := s.ptrAccum0 + 1,
    ptrAccum1 := s.ptrAccum1 + 1,
    ptrAccum2 := s.ptrAccum2 + 1 }

/-- The body of the main loop of `RegionDilate33`: one row. -/
def dilate33Row (width mark : Nat) (s : MorphState) : MorphState :=
  loopN (width - 2) (dilate33Step (width + 1) mark) (morphRowStart s)

/-- The first row of `RegionDilate33`, handled before the main loop. -/
def dilate33FirstRow (width mark : Nat) (s : MorphState) : MorphState :=
  loopN (width - 2) (dilate33FirstStep (width + 1) mark) (morphRowStart s)

/-- The function `RegionDilate33` (for `width >= 2` and `height >= 1`, where
`width - 2` and `height - 1` do not wrap); the result is the image after the
in-place operation. -/
def RegionDilate33 (inoutImg : Image8_t) (mark : Nat) : Image8_t :=
  { width := inoutImg.width, height := inoutImg.height,
    data := (loopN (inoutImg.height - 1) (dilate33Row inoutImg.width mark)
      (dilate33FirstRow inoutImg.width mark (morphInit inoutImg.data))).img }

/-- The 3x2 image whose only non-zero sample is at row 1, column 1. -/
def openTestImage : Image8_t :=
  { width := 3, height := 2, data := fun k => if k = 4 then 255 else 0 }

/-- The 3x3 image whose only non-zero sample is at its centre. -/
def closeTestImage : Image8_t :=
  { width := 3, height := 3, data := fun k => if k = 4 then 255 else 0 }

/-- The inner-loop body common to `RegionErode33` and `RegionDilate33`, with
the test of the register triple left as the parameter `fires`. -/
def region33Step (fires : Nat → Nat → Nat → Bool) (offset mark : Nat)
    (s : MorphState) : MorphState :=
  let accum := store s.accum s.ptrAccum2 (shiftIn (s.accum s.ptrAccum2) (s.img s.ptrImg))
  { img := if fires (accum s.ptrAccum0) (accum s.ptrAccum1) (accum s.ptrAccum2)
           then storeAt s.img ((s.ptrImg : Int) - (offset : Int)) mark else s.img,
    accum := accum,
    ptrImg := s.ptrImg + 1,
    ptrAccum0 := s.ptrAccum0 + 1,
    ptrAccum1 := s.ptrAccum1 + 1,
    ptrAccum2 := s.ptrAccum2 + 1 }

/-- One row of the common form. -/
def region33Row (fires : Nat → Nat → Nat → Bool) (width mark : Nat)
    (s : MorphState) : MorphState :=
  loopN (width - 2) (region33Step fires (width + 1) mark) (morphRowStart s)

/-- The register of column `j` after the first `n` rows of `data` have been
shifted into it. -/
def colReg (data : Nat → Nat) (width : Nat) : Nat → Nat → Nat
  | 0, _ => 0
  | n + 1, j => shiftIn (colReg data width n j) (data (n * width + j))

/-- The image held in the buffer when `ptrImg` is at offset `p`: the pixel at
offset `q` has been marked if its column is not the first or last, the scan has
passed offset `q + width + 1`, and the test fired on the registers of the three
columns around `q` after the row below `q` was shifted in. -/
def morphOut (fires : Nat → Nat → Nat → Bool) (data : Nat → Nat) (width mark p q : Nat) :
    Nat :=
  if 1 ≤ q % width ∧ q % width + 2 ≤ width ∧ q + width + 1 < p ∧
      fires (colReg data width (q / width + 2) (q % width - 1))
        (colReg data width (q / width + 2) (q % width))
        (colReg data width (q / width + 2) (q % width + 1)) = true
  then mark else data q

/-- The loop invariant inside row `r` when the scan is at column `c`. -/
def MorphInv (fires : Nat → Nat → Nat → Bool) (data : Nat → Nat) (width mark r c : Nat)
    (s : MorphState) : Prop :=
  s.ptrImg = r * width + c ∧ s.ptrAccum0 + 2 = c ∧ s.ptrAccum1 + 1 = c ∧ s.ptrAccum2 = c ∧
  (∀ j, j < width →
    s.accum j = if j < c then colReg data width (r + 1) j else colReg data width r j) ∧
  ∀ q, s.img q = morphOut fires data width mark (r * width + c) q

/-- The loop invariant between rows, before row `r`. -/
def MorphRowInv (fires : Nat → Nat → Nat → Bool) (data : Nat → Nat) (width mark r : Nat)
    (s : MorphState) : Prop :=
  s.ptrImg = r * width ∧ (∀ j, j < width → s.accum j = colReg data width r j) ∧
  ∀ q, s.img q = morphOut fires data width mark (r * width) q

/-- The binarised sample: 1 when the pixel is "on" (non-zero), else 0. -/
def onBit (v : Nat) : Nat := if v ≠ 0 then 1 else 0

/-- The pixel at offset `k` and the pixels directly above and below it are all
non-zero (there is a row above `k`). -/
def colFull (data : Nat → Nat) (width k : Nat) : Prop :=
  width ≤ k ∧ data (k - width) ≠ 0 ∧ data k ≠ 0 ∧ data (k + width) ≠ 0

instance (data : Nat → Nat) (width k : Nat) : Decidable (colFull data width k) := by
  unfold colFull; infer_instance

/-- The pixel at offset `k`, the pixel above it (if there is a row above) or
the pixel below it is non-zero. -/
def colAny (data : Nat → Nat) (width k : Nat) : Prop :=
  (width ≤ k ∧ data (k - width) ≠ 0) ∨ data k ≠ 0 ∨ data (k + width) ≠ 0

instance (data : Nat → Nat) (width k : Nat) : Decidable (colAny data width k) := by
  unfold colAny; infer_instance

/-- Offset `q` of a `width` x `height` image is one that the 3x3 operations can
write: not in the first or last column and not in the last row. -/
def inRegion (width height q : Nat) : Prop :=
  1 ≤ q % width ∧ q % width + 2 ≤ width ∧ q + width + 1 < height * width

instance (width height q : Nat) : Decidable (inRegion width height q) := by
  unfold inRegion; infer_instance

/-- The 5x5 image whose 3x3 centre block (rows 1..3, columns 1..3) is 255 and
whose other samples are 0. -/
def blockImage : Image8_t :=
  { width := 5, height := 5,
    data := fun k => if 6 ≤ k ∧ k ≤ 18 ∧ 1 ≤ k % 5 ∧ k % 5 ≤ 3 then 255 else 0 }

/-- The 7x5 image whose only non-zero sample is at row 1, column 3. -/
def dotImage75 : Image8_t :=
  { width := 7, height := 5, data := fun k => if k = 10 then 255 else 0 }

/-! ## Box features on the integral image (`intimage.c`) -/

/-- The four-corner expression of the box features, as in
`*ptrInUpperLeft + *ptrInCenterRight - (*ptrInUpperRight + *ptrInCenterLeft)`,
in `size_t` arithmetic. -/
def boxCorners (upperLeft lowerRight upperRight lowerLeft : Nat) : Nat :=
  usub (uadd upperLeft lowerRight) (uadd upperRight lowerLeft)

/-- The 2x2 image with samples 1, 2, 3, 4. -/
def smallImage : Image8_t :=
  { width := 2, height := 2, data := fun k => k % 4 + 1 }

/-- A 4-bin histogram with zero bins whose derived arrays hold 7 everywhere. -/
def staleHistogram : Histogram_t :=
  { numberBins := 4, numberCounts := 9, bins := fun _ => 0,
    sumBins := fun _ => 7, meanBins := fun _ => 7 }

/-! ## Fixed-point square root (`utility.c`) -/

/-- The table `lut` of `UintSqrt`: the square roots of 0 to 1023. -/
def sqrtLut : List Nat :=
  [
    0, 1, 1, 1, 2, 2, 2, 2, 2, 3, 3, 3, 3, 3, 3, 3, 4, 4, 4, 4, 4, 4, 4, 4, 4, 5, 5, 5, 5, 5, 5, 5,
    5, 5, 5, 5, 6, 6, 6, 6, 6, 6, 6, 6, 6, 6, 6, 6, 6, 7, 7, 7, 7, 7, 7, 7, 7, 7, 7, 7, 7, 7, 7, 7,
    8, 8, 8, 8, 8, 8, 8, 8, 8, 8, 8, 8, 8, 8, 8, 8, 8, 9, 9, 9, 9, 9, 9, 9, 9, 9, 9, 9, 9, 9, 9, 9,
    9, 9, 9, 9, 10, 10, 10, 10, 10, 10, 10, 10, 10, 10, 10, 10, 10, 10, 10, 10, 10, 10, 10, 10, 10, 11, 11, 11, 11, 11, 11, 11,
    11, 11, 11, 11, 11, 11, 11, 11, 11, 11, 11, 11, 11, 11, 11, 11, 12, 12, 12, 12, 12, 12, 12, 12, 12, 12, 12, 12, 12, 12, 12, 12,
    12, 12, 12, 12, 12, 12, 12, 12, 12, 13, 13, 13, 13, 13, 13, 13, 13, 13, 13, 13, 13, 13, 13, 13, 13, 13, 13, 13, 13, 13, 13, 13,
    13, 13, 13, 13, 14, 14, 14, 14, 14, 14, 14, 14, 14, 14, 14, 14, 14, 14, 14, 14, 14, 14, 14, 14, 14, 14, 14, 14, 14, 14, 14, 14,
    14, 15, 15, 15, 15, 15, 15, 15, 15, 15, 15, 15, 15, 15, 15, 15, 15, 15, 15, 15, 15, 15, 15, 15, 15, 15, 15, 15, 15, 15, 15, 15,
    16, 16, 16, 16, 16, 16, 16, 16, 16, 16, 16, 16, 16, 16, 16, 16, 16, 16, 16, 16, 16, 16, 16, 16, 16, 16, 16, 16, 16, 16, 16, 16,
    16, 17, 17, 17, 17, 17, 17, 17, 17, 17, 17, 17, 17, 17, 17, 17, 17, 17, 17, 17, 17, 17, 17, 17, 17, 17, 17, 17, 17, 17, 17, 17,
    17, 17, 17, 17, 18, 18, 18, 18, 18, 18, 18, 18, 18, 18, 18, 18, 18, 18, 18, 18, 18, 18, 18, 18, 18, 18, 18, 18, 18, 18, 18, 18,
    18, 18, 18, 18, 18, 18, 18, 18, 18, 19, 19, 19, 19, 19, 19, 19, 19, 19, 19, 19, 19, 19, 19, 19, 19, 19, 19, 19, 19, 19, 19, 19,
    19, 19, 19, 19, 19, 19, 19, 19, 19, 19, 19, 19, 19, 19, 19, 19, 20, 20, 20, 20, 20, 20, 20, 20, 20, 20, 20, 20, 20, 20, 20, 20,
    20, 20, 20, 20, 20, 20, 20, 20, 20, 20, 20, 20, 20, 20, 20, 20, 20, 20, 20, 20, 20, 20, 20, 20, 20, 21, 21, 21, 21, 21, 21, 21,
    21, 21, 21, 21, 21, 21, 21, 21, 21, 21, 21, 21, 21, 21, 21, 21, 21, 21, 21, 21, 21, 21, 21, 21, 21, 21, 21, 21, 21, 21, 21, 21,
    21, 21, 21, 21, 22, 22, 22, 22, 22, 22, 22, 22, 22, 22, 22, 22, 22, 22, 22, 22, 22, 22, 22, 22, 22, 22, 22, 22, 22, 22, 22, 22,
    22, 22, 22, 22, 22, 22, 22, 22, 22, 22, 22, 22, 22, 22, 22, 22, 22, 23, 23, 23, 23, 23, 23, 23, 23, 23, 23, 23, 23, 23, 23, 23,
    23, 23, 23, 23, 23, 23, 23, 23, 23, 23, 23, 23, 23, 23, 23, 23, 23, 23, 23, 23, 23, 23, 23, 23, 23, 23, 23, 23, 23, 23, 23, 23,
    24, 24, 24, 24, 24, 24, 24, 24, 24, 24, 24, 24, 24, 24, 24, 24, 24, 24, 24, 24, 24, 24, 24, 24, 24, 24, 24, 24, 24, 24, 24, 24,
    24, 24, 24, 24, 24, 24, 24, 24, 24, 24, 24, 24, 24, 24, 24, 24, 24, 25, 25, 25, 25, 25, 25, 25, 25, 25, 25, 25, 25, 25, 25, 25,
    25, 25, 25, 25, 25, 25, 25, 25, 25, 25, 25, 25, 25, 25, 25, 25, 25, 25, 25, 25, 25, 25, 25, 25, 25, 25, 25, 25, 25, 25, 25, 25,
    25, 25, 25, 25, 26, 26, 26, 26, 26, 26, 26, 26, 26, 26, 26, 26, 26, 26, 26, 26, 26, 26, 26, 26, 26, 26, 26, 26, 26, 26, 26, 26,
    26, 26, 26, 26, 26, 26, 26, 26, 26, 26, 26, 26, 26, 26, 26, 26, 26, 26, 26, 26, 26, 26, 26, 26, 26, 27, 27, 27, 27, 27, 27, 27,
    27, 27, 27, 27, 27, 27, 27, 27, 27, 27, 27, 27, 27, 27, 27, 27, 27, 27, 27, 27, 27, 27, 27, 27, 27, 27, 27, 27, 27, 27, 27, 27,
    27, 27, 27, 27, 27, 27, 27, 27, 27, 27, 27, 27, 27, 27, 27, 27, 28, 28, 28, 28, 28, 28, 28, 28, 28, 28, 28, 28, 28, 28, 28, 28,
    28, 28, 28, 28, 28, 28, 28, 28, 28, 28, 28, 28, 28, 28, 28, 28, 28, 28, 28, 28, 28, 28, 28, 28, 28, 28, 28, 28, 28, 28, 28, 28,
    28, 28, 28, 28, 28, 28, 28, 28, 28, 29, 29, 29, 29, 29, 29, 29, 29, 29, 29, 29, 29, 29, 29, 29, 29, 29, 29, 29, 29, 29, 29, 29,
    29, 29, 29, 29, 29, 29, 29, 29, 29, 29, 29, 29, 29, 29, 29, 29, 29, 29, 29, 29, 29, 29, 29, 29, 29, 29, 29, 29, 29, 29, 29, 29,
    29, 29, 29, 29, 30, 30, 30, 30, 30, 30, 30, 30, 30, 30, 30, 30, 30, 30, 30, 30, 30, 30, 30, 30, 30, 30, 30, 30, 30, 30, 30, 30,
    30, 30, 30, 30, 30, 30, 30, 30, 30, 30, 30, 30, 30, 30, 30, 30, 30, 30, 30, 30, 30, 30, 30, 30, 30, 30, 30, 30, 30, 30, 30, 30,
    30, 31, 31, 31, 31, 31, 31, 31, 31, 31, 31, 31, 31, 31, 31, 31, 31, 31, 31, 31, 31, 31, 31, 31, 31, 31, 31, 31, 31, 31, 31, 31,
    31, 31, 31, 31, 31, 31, 31, 31, 31, 31, 31, 31, 31, 31, 31, 31, 31, 31, 31, 31, 31, 31, 31, 31, 31, 31, 31, 31, 31, 31, 31, 31
  ]

/-- The `do ... while` loop of `UintSqrt`, entered with the current guess.  The
first argument bounds the number of iterations; `none` means it was used up. -/
def UintSqrtLoop (value : Nat) : Nat → Nat → Option Nat
  | 0, _ => none
  | fuel + 1, current =>
    let last := current
    let next := uadd last (value / last) / 2
    if last ≠ next ∧ UINTDIFF last next ≠ 1 then UintSqrtLoop value fuel next
    else some next

/-- The function `UintSqrt`: table lookup below 1024, otherwise Newton's method
from the initial guess `value >> 1`. -/
def UintSqrt (value : Nat) : Option Nat :=
  if value < 1024 then some (sqrtLut.getD value 0)
  else UintSqrtLoop value value (value / 2)

/-- Check that the entries of a table, taken as the values at `v`, `v + 1`,
..., are the floor square roots of these numbers. -/
def sqrtLutCheck : Nat → List Nat → Bool
  | _, [] => true
  | v, s :: rest => decide (s * s ≤ v ∧ v < (s + 1) * (s + 1)) && sqrtLutCheck (v + 1) rest

/-! ## Approximate arctangent (`utility.c`) -/

/-- Conversion of an `int` result to `size_t`. -/
def toSize (v : Int) : Nat := (v % 18446744073709551616).toNat

/-- The statement `v = -v` on an `int16_t` variable: the negation is computed in
`int` and stored back into sixteen bits. -/
def neg16 (v : Int) : Int := wrap16 (-v)

/-- The function `ApproxAtan2` on two `int16_t` arguments.  `v << 4` is `v * 16`
in `int`; `/` and `%` are the C operators, which truncate toward zero. -/
def ApproxAtan2 (dy dx : Int) : Nat :=
  if dx > 0 then
    if dy > 0 then
      if dy ≤ dx then toSize (Int.tdiv (dy * 16) dx)
      else toSize (32 - Int.tdiv (dx * 16) dy)
    else if dy < 0 then
      let dy := neg16 dy
      if dy ≤ dx then toSize (Int.tmod (128 - Int.tdiv (dy * 16) dx) 128)
      else toSize (96 + Int.tdiv (dx * 16) dy)
    else 0
  else if dx < 0 then
    let dx := neg16 dx
    if dy > 0 then
      if dy ≤ dx then toSize (64 - Int.tdiv (dy * 16) dx)
      else toSize (32 + Int.tdiv (dx * 16) dy)
    else if dy < 0 then
      let dy := neg16 dy
      if dy ≤ dx then toSize (64 + Int.tdiv (dy * 16) dx)
      else toSize (96 - Int.tdiv (dx * 16) dy)
    else 64
  else
    if dy > 0 then 32
    else if dy < 0 then 96
    else 0

/-! ## Trigonometric tables (`utility.c`) and the Hough transform (`hough.c`) -/

/-- The table `lut` of `UintSin`: `65536 * sin` at the 128 angle bins. -/
def sinLut : List Int :=
  [
    0, 3215, 6423, 9616, 12785, 15923, 19024, 22078,
    25079, 28020, 30893, 33692, 36409, 39039, 41575, 44011,
    46340, 48558, 50660, 52639, 54491, 56212, 57797, 59243,
    60547, 61705, 62714, 63571, 64276, 64826, 65220, 65457,
    65536, 65457, 65220, 64826, 64276, 63571, 62714, 61705,
    60547, 59243, 57797, 56212, 54491, 52639, 50660, 48558,
    46340, 44011, 41575, 39039, 36409, 33692, 30893, 28020,
    25079, 22078, 19024, 15923, 12785, 9616, 6423, 3215,
    0, -3215, -6423, -9616, -12785, -15923, -19024, -22078,
    -25079, -28020, -30893, -33692, -36409, -39039, -41575, -44011,
    -46340, -48558, -50660, -52639, -54491, -56212, -57797, -59243,
    -60547, -61705, -62714, -63571, -64276, -64826, -65220, -65457,
    -65536, -65457, -65220, -64826, -64276, -63571, -62714, -61705,
    -60547, -59243, -57797, -56212, -54491, -52639, -50660, -48558,
    -46340, -44011, -41575, -39039, -36409, -33692, -30893, -28020,
    -25079, -22078, -19024, -15923, -12785, -9616, -6423, -3215
  ]

/-- The table `lut` of `UintCos`: `65536 * cos` at the 128 angle bins. -/
def cosLut : List Int :=
  [
    65536, 65457, 65220, 64826, 64276, 63571, 62714, 61705,
    60547, 59243, 57797, 56212, 54491, 52639, 50660, 48558,
    46340, 44011, 41575, 39039, 36409, 33692, 30893, 28020,
    25079, 22078, 19024, 15923, 12785, 9616, 6423, 3215,
    0, -3215, -6423, -9616, -12785, -15923, -19024, -22078,
    -25079, -28020, -30893, -33692, -36409, -39039, -41575, -44011,
    -46340, -48558, -50660, -52639, -54491, -56212, -57797, -59243,
    -60547, -61705, -62714, -63571, -64276, -64826, -65220, -65457,
    -65536, -65457, -65220, -64826, -64276, -63571, -62714, -61705,
    -60547, -59243, -57797, -56212, -54491, -52639, -50660, -48558,
    -46340, -44011, -41575, -39039, -36409, -33692, -30893, -28020,
    -25079, -22078, -19024, -15923, -12785, -9616, -6423, -3215,
    0, 3215, 6423, 9616, 12785, 15923, 19024, 22078,
    25079, 28020, 30893, 33692, 36409, 39039, 41575, 44011,
    46340, 48558, 50660, 52639, 54491, 56212, 57797, 59243,
    60547, 61705, 62714, 63571, 64276, 64826, 65220, 65457
  ]

/-- The function `UintSin`: `lut[theta % 128]`. -/
def UintSin (theta : Nat) : Int := sinLut.getD (theta % 128) 0

/-- The function `UintCos`: `lut[theta % 128]`. -/
def UintCos (theta : Nat) : Int := cosLut.getD (theta % 128) 0

/-- Reduction of an `int` result to thirty-two bits. -/
def wrap32 (x : Int) : Int := (x + 2147483648) % 4294967296 - 2147483648

/-- The function `HoughRadius`: `(x * UintCos(theta) + y * UintSin(theta)) >> 16`
computed in 32-bit `int`, the shift rounding toward minus infinity, returned as
an `int16_t`. -/
def HoughRadius (x y : Int) (theta : Nat) : Int :=
  wrap16 (wrap32 (x * UintCos theta + y * UintSin theta) / 65536)

/-- The accumulator buffer and the angle `theta` of `HoughVoteLine`. -/
structure HoughState where
  acc : Nat → Nat
  theta : Nat

/-- The body of the loop of `HoughVoteLine`: the radius for the current angle,
the comparison `r < radiusLimit` made in `size_t`, the increment of cell
`(r << 7) + theta`, and the step to the next angle. -/
def houghVoteStep (x y : Int) (radiusLimit : Nat) (s : HoughState) : HoughState :=
  let r0 := HoughRadius x y s.theta
  let r := if r0 > 0 then wrap16 (r0 / 4) else r0
  let index := uadd (toSize (r * 128)) s.theta
  { acc := if toSize r < radiusLimit then store s.acc index (uadd (s.acc index) 1)
           else s.acc,
    theta := uadd s.theta 1 % 128 }

/-- The function `HoughVoteLine` on an accumulator of the given height; the
result is the final state, whose `acc` is the accumulator after the call. -/
def HoughVoteLine (acc : Nat → Nat) (height : Nat) (x y dy dx : Int)
    (neighborhood : Nat) : HoughState :=
  loopN (uadd (neighborhood * 4 % SIZE_MOD) 1) (houghVoteStep x y height)
    { acc := acc, theta := usub (ApproxAtan2 dy dx) neighborhood % 128 }

/-- The angle bin examined in loop step `k` (counted from 0) of
`HoughVoteLine`. -/
def houghThetaAt (acc : Nat → Nat) (height : Nat) (x y dy dx : Int)
    (neighborhood k : Nat) : Nat :=
  (loopN k (houghVoteStep x y height)
    { acc := acc, theta := usub (ApproxAtan2 dy dx) neighborhood % 128 }).theta

/-- A loop step at angle bin `theta` votes for cell `idx`: the radius is not
negative, its bin `radius >> 2` lies below the accumulator height, and `idx` is
the cell of that radius bin and angle bin. -/
def houghHit (x y : Int) (height theta idx : Nat) : Prop :=
  0 ≤ HoughRadius x y theta ∧ (HoughRadius x y theta / 4).toNat < height ∧
  idx = (HoughRadius x y theta / 4).toNat * 128 + theta

instance (x y : Int) (height theta idx : Nat) : Decidable (houghHit x y height theta idx) := by
  unfold houghHit; infer_instance

/-- The number of the first `k` loop steps, starting at angle bin `theta0`,
that vote for cell `idx`. -/
def houghHitCount (x y : Int) (height theta0 idx : Nat) : Nat → Nat
  | 0 => 0
  | k + 1 => houghHitCount x y height theta0 idx k
      + (if houghHit x y height ((theta0 + k) % 128) idx then 1 else 0)

/-- An `Image32_t`: dimensions and the row-major `size_t` samples. -/
structure Image32_t where
  width : Nat
  height : Nat
  data : Nat → Nat

/-- The output buffer, the output pointer, the six input pointers and the
running maximum of `IntegralFeatureUpDown`. -/
structure UpDownState where
  out : Nat → Nat
  ptrOut : Nat
  ptrInUpperLeft : Nat
  ptrInCenterLeft : Nat
  ptrInLowerLeft : Nat
  ptrInUpperRight : Nat
  ptrInCenterRight : Nat
  ptrInLowerRight : Nat
  diffMax : Nat

/-- The body of the inner loop of `IntegralFeatureUpDown`. -/
def upDownStep (inData : Nat → Nat) (colStep : Nat) (s : UpDownState) : UpDownState :=
  let upperBoxSum := boxCorners (inData s.ptrInUpperLeft) (inData s.ptrInCenterRight)
    (inData s.ptrInUpperRight) (inData s.ptrInCenterLeft)
  let lowerBoxSum := boxCorners (inData s.ptrInCenterLeft) (inData s.ptrInLowerRight)
    (inData s.ptrInCenterRight) (inData s.ptrInLowerLeft)
  let diffValue := UINTDIFF upperBoxSum lowerBoxSum
  { out := store s.out s.ptrOut diffValue,
    ptrOut := s.ptrOut + 1,
    ptrInUpperLeft := s.ptrInUpperLeft + colStep,
    ptrInCenterLeft := s.ptrInCenterLeft + colStep,
    ptrInLowerLeft := s.ptrInLowerLeft + colStep,
    ptrInUpperRight := s.ptrInUpperRight + colStep,
    ptrInCenterRight := s.ptrInCenterRight + colStep,
    ptrInLowerRight := s.ptrInLowerRight + colStep,
    diffMax := if diffValue > s.diffMax then diffValue else s.diffMax }

/-- The body of the outer loop of `IntegralFeatureUpDown`: the inner loop over
`numColSteps` positions, then every input pointer moves on by `rowOffset`. -/
def upDownRow (inData : Nat → Nat) (colStep numColSteps rowOffset : Nat)
    (s : UpDownState) : UpDownState :=
  let t := loopN numColSteps (upDownStep inData colStep) s
  { out := t.out,
    ptrOut := t.ptrOut,
    ptrInUpperLeft := t.ptrInUpperLeft + rowOffset,
    ptrInCenterLeft := t.ptrInCenterLeft + rowOffset,
    ptrInLowerLeft := t.ptrInLowerLeft + rowOffset,
    ptrInUpperRight := t.ptrInUpperRight + rowOffset,
    ptrInCenterRight := t.ptrInCenterRight + rowOffset,
    ptrInLowerRight := t.ptrInLowerRight + rowOffset,
    diffMax := t.diffMax }

/-- The function `IntegralFeatureUpDown`; `outData` is the content of the
output buffer on entry.  The result is the final state: `out` is the output
buffer, `ptrOut` the number of values written and `diffMax` the value stored in
`*outMaxValue`. -/
def IntegralFeatureUpDown (outData : Nat → Nat) (inImg : Image32_t)
    (boxWidth boxHeight colStep rowStep : Nat) : UpDownState :=
  let numColSteps := usub inImg.width boxWidth / colStep
  let rowOffset := usub (umul inImg.width rowStep) (umul numColSteps colStep)
  loopN (usub inImg.height (boxHeight * 2 % SIZE_MOD) / rowStep)
    (upDownRow inImg.data colStep numColSteps rowOffset)
    { out := outData,
      ptrOut := 0,
      ptrInUpperLeft := 0,
      ptrInCenterLeft := umul boxHeight inImg.width,
      ptrInLowerLeft := umul boxHeight inImg.width * 2 % SIZE_MOD,
      ptrInUpperRight := 0 + boxWidth,
      ptrInCenterRight := umul boxHeight inImg.width + boxWidth,
      ptrInLowerRight := umul boxHeight inImg.width * 2 % SIZE_MOD + boxWidth,
      diffMax := 0 }

/-- The integral image of an 8-bit image as an `Image32_t`. -/
def integralOf (outData : Nat → Nat) (img : Image8_t) : Image32_t :=
  { width := img.width, height := img.height, data := IntegralImage outData img }

/-- The sum of `n` samples of row `r` from column `c0` on. -/
def rowSeg (data : Nat → Nat) (width r c0 : Nat) : Nat → Nat
  | 0 => 0
  | n + 1 => rowSeg data width r c0 n + data (r * width + (c0 + n))

/-- The sum of the samples in the `boxHeight` rows from row `r0` on and the
`boxWidth` columns from column `c0` on. -/
def boxSum (data : Nat → Nat) (width r0 c0 boxWidth : Nat) : Nat → Nat
  | 0 => 0
  | boxHeight + 1 =>
    boxSum data width r0 c0 boxWidth boxHeight + rowSeg data width (r0 + boxHeight) c0 boxWidth

/-- The up/down feature value at output position `(i, j)`: the absolute
difference of the sum `U` over rows `i*rs+1 .. i*rs+bh` and the sum `L` over rows
`i*rs+bh+1 .. i*rs+2*bh`, both over columns `j*cs+1 .. j*cs+bw`. -/
def upDownValue (data : Nat → Nat) (width boxWidth boxHeight colStep rowStep i j : Nat) :
    Nat :=
  Int.natAbs
    ((boxSum data width (i * rowStep + 1) (j * colStep + 1) boxWidth boxHeight : Int)
      - (boxSum data width (i * rowStep + boxHeight + 1) (j * colStep + 1) boxWidth
          boxHeight : Int))

/-- The 5x6 image with samples `(k * k + 3) % 50` at offset `k`. -/
def featureTestImage : Image8_t :=
  { width := 5, height := 6, data := fun k => (k * k + 3) % 50 }

/-- The loop invariant of `IntegralFeatureUpDown` in output row `i` after `j`
values of the row: pointer positions, the untouched tail of the output, the
values written so far and the running maximum. -/
def UpDownInv (outData data : Nat → Nat) (w bw bh cs rs cols i j : Nat)
    (s : UpDownState) : Prop :=
  s.ptrOut = i * cols + j ∧ s.ptrInUpperLeft = i * rs * w + j * cs ∧
  s.ptrInCenterLeft = s.ptrInUpperLeft + bh * w ∧
  s.ptrInLowerLeft = s.ptrInUpperLeft + bh * w + bh * w ∧
  s.ptrInUpperRight = s.ptrInUpperLeft + bw ∧
  s.ptrInCenterRight = s.ptrInUpperLeft + bh * w + bw ∧
  s.ptrInLowerRight = s.ptrInUpperLeft + bh * w + bh * w + bw ∧
  (∀ k, s.ptrOut ≤ k → s.out k = outData k) ∧
  (∀ i' j', j' < cols → (i' < i ∨ (i' = i ∧ j' < j)) →
    s.out (i' * cols + j') = upDownValue data w bw bh cs rs i' j') ∧
  (∀ i' j', j' < cols → (i' < i ∨ (i' = i ∧ j' < j)) →
    upDownValue data w bw bh cs rs i' j' ≤ s.diffMax) ∧
  (s.diffMax = 0 ∨ ∃ i' j', j' < cols ∧ (i' < i ∨ (i' = i ∧ j' < j)) ∧
    upDownValue data w bw bh cs rs i' j' = s.diffMax)

/-! ## A small blob for the opening (`operate.c`) -/

/-- The 64x64 image that is zero except for a blob of three non-zero pixels at
(row 10, column 10), (row 10, column 11) and (row 11, column 10). -/
def blobImage : Image8_t :=
  { width := 64, height := 64,
    data := fun k => if k = 650 ∨ k = 651 ∨ k = 714 then 255 else 0 }

/-! ## Pixel counts and `EqualizeImage` (`histogram.c`) -/

/-- The number of offsets `k < n` whose sample `data k` equals `v`. -/
def countEq (data : Nat → Nat) (v : Nat) : Nat → Nat
  | 0 => 0
  | n + 1 => countEq data v n + (if data n = v then 1 else 0)

/-- State of the rescaling loop of `EqualizeImage`: the local array `sumBins`
and the two pointers walking the histogram's `sumBins` and the local array. -/
structure RescaleState where
  sumBins : Nat → Nat
  ptrHistSumBins : Nat
  ptrSumBins : Nat

/-- The statement `*ptrSumBins++ = ((*ptrHistSumBins++ << 8) - 1) / numCounts`
in `size_t` arithmetic. -/
def rescaleStep (histSumBins : Nat → Nat) (numCounts : Nat) (s : RescaleState) :
    RescaleState :=
  { sumBins := store s.sumBins s.ptrSumBins
      (usub (histSumBins s.ptrHistSumBins * 256 % SIZE_MOD) 1 / numCounts),
    ptrHistSumBins := s.ptrHistSumBins + 1,
    ptrSumBins := s.ptrSumBins + 1 }

/-- State of the remapping loop of `EqualizeImage`: the image and `ptrImg`. -/
structure RemapState where
  img : Nat → Nat
  ptrImg : Nat

/-- The statements `*ptrImg = sumBins[ *ptrImg ]; ptrImg++`; the store narrows
the `size_t` entry to a `uint8_t`. -/
def remapStep (sumBins : Nat → Nat) (s : RemapState) : RemapState :=
  { img := store s.img s.ptrImg (sumBins (s.img s.ptrImg) % 256),
    ptrImg := s.ptrImg + 1 }

/-- The function `EqualizeImage`.  The local array `sumBins` is not initialised
by the source; `localInit` is its content on entry.  The result is `none` when
the rescaling loop divides by a zero `numberCounts`. -/
def EqualizeImage (localInit : Nat → Nat) (outImg : Image8_t) (inHistogram : Histogram_t) :
    Option Image8_t :=
  if inHistogram.numberBins ≠ 0 ∧ inHistogram.numberCounts = 0 then none
  else
    let sumBins := (loopN inHistogram.numberBins
      (rescaleStep inHistogram.sumBins inHistogram.numberCounts)
      { sumBins := localInit, ptrHistSumBins := 0, ptrSumBins := 0 }).sumBins
    let numPixels := umul outImg.width outImg.height
    some { width := outImg.width, height := outImg.height,
           data := (loopN numPixels (remapStep sumBins)
             { img := outImg.data, ptrImg := 0 }).img }

/-- The 16x16 image in which every value from 0 to 255 occurs exactly once. -/
def rampImage : Image8_t :=
  { width := 16, height := 16, data := fun k => k % 256 }

/-! ## `OtsuThreshold`: checked divisions and recorded scores (`histogram.c`) -/

/-- The search loop of `OtsuThreshold` with its division checked: the result is
`none` when the divisor `p * (numCounts - p)` is zero on a bin that is not
skipped.  The arguments are those of `OtsuLoop`. -/
def OtsuLoopChecked (sumBins meanBins : Nat → Nat) (numCounts mean : Nat) :
    Nat → Nat → Nat → Nat → Option Nat
  | 0, ptrSumBins, _, _ => some ptrSumBins
  | remaining + 1, ptrSumBins, ptrMeanBins, last =>
    let p := sumBins ptrSumBins
    if p = 0 ∨ p = numCounts then
      OtsuLoopChecked sumBins meanBins numCounts mean remaining (ptrSumBins + 1) ptrMeanBins last
    else
      let a := UINTDIFF (meanBins ptrMeanBins) (umul mean p)
      if umul p (usub numCounts p) = 0 then none
      else
        let curr := umul a a / umul p (usub numCounts p)
        if curr < last then some (ptrSumBins + 1)
        else
          OtsuLoopChecked sumBins meanBins numCounts mean remaining (ptrSumBins + 1)
            (ptrMeanBins + 1) curr

/-- The function `OtsuThreshold` with both of its divisions checked: `none`
when `numberCounts` is zero (the divisor of `mean`) or a score's divisor is
zero. -/
def OtsuThresholdChecked (inHistogram : Histogram_t) : Option Nat :=
  if inHistogram.numberCounts = 0 then none
  else
    OtsuLoopChecked inHistogram.sumBins inHistogram.meanBins inHistogram.numberCounts
      (inHistogram.meanBins (inHistogram.numberBins - 1) / inHistogram.numberCounts)
      inHistogram.numberBins 0 0 0

/-- The search loop of `OtsuThreshold`, recording for every bin that is not
skipped the offsets of `ptrSumBins` and `ptrMeanBins` at which it reads and the
score `curr` it computes.  The arguments are those of `OtsuLoop`. -/
def OtsuLoopScores (sumBins meanBins : Nat → Nat) (numCounts mean : Nat) :
    Nat → Nat → Nat → Nat → List (Nat × Nat × Nat)
  | 0, _, _, _ => []
  | remaining + 1, ptrSumBins, ptrMeanBins, last =>
    let p := sumBins ptrSumBins
    if p = 0 ∨ p = numCounts then
      OtsuLoopScores sumBins meanBins numCounts mean remaining (ptrSumBins + 1) ptrMeanBins last
    else
      let a := UINTDIFF (meanBins ptrMeanBins) (umul mean p)
      let curr := umul a a / umul p (usub numCounts p)
      (ptrSumBins, ptrMeanBins, curr) ::
        (if curr < last then []
         else
          OtsuLoopScores sumBins meanBins numCounts mean remaining (ptrSumBins + 1)
            (ptrMeanBins + 1) curr)

/-- The scores computed by one call of `OtsuThreshold`, in order. -/
def OtsuScores (inHistogram : Histogram_t) : List (Nat × Nat × Nat) :=
  OtsuLoopScores inHistogram.sumBins inHistogram.meanBins inHistogram.numberCounts
    (inHistogram.meanBins (inHistogram.numberBins - 1) / inHistogram.numberCounts)
    inHistogram.numberBins 0 0 0

/-- The histogram with `n` bins whose total and derived arrays are computed
from the given bins. -/
def histogramOf (n : Nat) (bins : Nat → Nat) : Histogram_t :=
  { numberBins := n, numberCounts := cumSum bins (n - 1), bins := bins,
    sumBins := cumSum bins, meanBins := cumMean bins }

/-- The bin `t` is one that the loop of `OtsuThreshold` skips: its cumulative
count is zero or the total. -/
def otsuSkips (h : Histogram_t) (t : Nat) : Prop :=
  h.sumBins t = 0 ∨ h.sumBins t = h.numberCounts

instance (h : Histogram_t) (t : Nat) : Decidable (otsuSkips h t) := by
  unfold otsuSkips; infer_instance

/-- The number of skipped bins before bin `t`. -/
def otsuSkipped (h : Histogram_t) : Nat → Nat
  | 0 => 0
  | t + 1 => otsuSkipped h t + (if otsuSkips h t then 1 else 0)

/-- The score formula of `OtsuThreshold` for the cumulative count of bin `t`
and the entry `meanBins[m]`. -/
def otsuScore (h : Histogram_t) (t m : Nat) : Nat :=
  let p := h.sumBins t
  let mean := h.meanBins (h.numberBins - 1) / h.numberCounts
  let a := UINTDIFF (h.meanBins m) (umul mean p)
  umul a a / umul p (usub h.numberCounts p)

/-- The score the loop computes on reaching a bin `t` that is not skipped:
`ptrMeanBins` has advanced once for every earlier bin that was not skipped. -/
def otsuCurr (h : Histogram_t) (t : Nat) : Nat := otsuScore h t (t - otsuSkipped h t)

/-- The value of `last` on reaching bin `t` when no earlier bin made the loop
stop: the score of the previous bin that was not skipped, or 0. -/
def otsuLast (h : Histogram_t) : Nat → Nat
  | 0 => 0
  | t + 1 => if otsuSkips h t then otsuLast h t else otsuCurr h t

/-- The consistent 6-bin histogram with bins 5, 3, 1, 1, 3, 5. -/
def sixBinHistogram : Histogram_t :=
  histogramOf 6 (fun i => [5, 3, 1, 1, 3, 5].getD i 0)

/-- The consistent 2-bin histogram with `2^32` counts in each bin. -/
def hugeHistogram : Histogram_t :=
  histogramOf 2 (fun i => if i < 2 then 4294967296 else 0)

/-! ## The diagonal box feature (`intimage.c`) -/

/-- The output buffer, the output pointer, the nine input pointers and the
running maximum of `IntegralFeatureDiagonal`. -/
structure DiagonalState where
  out : Nat → Nat
  ptrOut : Nat
  ptrIn00 : Nat
  ptrIn01 : Nat
  ptrIn02 : Nat
  ptrIn10 : Nat
  ptrIn11 : Nat
  ptrIn12 : Nat
  ptrIn20 : Nat
  ptrIn21 : Nat
  ptrIn22 : Nat
  diffMax : Nat

/-- The expression `*ptrIn00 + *ptrIn22 - *ptrIn02 - *ptrIn20` in `size_t`
arithmetic. -/
def diagonalTotal (in00 in22 in02 in20 : Nat) : Nat :=
  usub (usub (uadd in00 in22) in02) in20

/-- The expression `*ptrIn01 + *ptrIn10 + *ptrIn12 + *ptrIn21 - *ptrIn02 -
*ptrIn20 - (*ptrIn11 << 1)` in `size_t` arithmetic. -/
def diagonalWhite (in01 in10 in12 in21 in02 in20 in11 : Nat) : Nat :=
  usub (usub (usub (uadd (uadd (uadd in01 in10) in12) in21) in02) in20)
    (in11 * 2 % SIZE_MOD)

/-- The body of the inner loop of `IntegralFeatureDiagonal`. -/
def diagonalStep (inData : Nat → Nat) (colStep : Nat) (s : DiagonalState) : DiagonalState :=
  let totalBoxSum := diagonalTotal (inData s.ptrIn00) (inData s.ptrIn22) (inData s.ptrIn02)
    (inData s.ptrIn20)
  let whiteBoxSum := diagonalWhite (inData s.ptrIn01) (inData s.ptrIn10) (inData s.ptrIn12)
    (inData s.ptrIn21) (inData s.ptrIn02) (inData s.ptrIn20) (inData s.ptrIn11)
  let diffValue := UINTDIFF whiteBoxSum (usub totalBoxSum whiteBoxSum)
  { out := store s.out s.ptrOut diffValue,
    ptrOut := s.ptrOut + 1,
    ptrIn00 := s.ptrIn00 + colStep,
    ptrIn01 := s.ptrIn01 + colStep,
    ptrIn02 := s.ptrIn02 + colStep,
    ptrIn10 := s.ptrIn10 + colStep,
    ptrIn11 := s.ptrIn11 + colStep,
    ptrIn12 := s.ptrIn12 + colStep,
    ptrIn20 := s.ptrIn20 + colStep,
    ptrIn21 := s.ptrIn21 + colStep,
    ptrIn22 := s.ptrIn22 + colStep,
    diffMax := if diffValue > s.diffMax then diffValue else s.diffMax }

/-- The body of the outer loop of `IntegralFeatureDiagonal`: the inner loop
over `numColSteps` positions, then every input pointer moves on by `rowOffset`. -/
def diagonalRow (inData : Nat → Nat) (colStep numColSteps rowOffset : Nat)
    (s : DiagonalState) : DiagonalState :=
  let t := loopN numColSteps (diagonalStep inData colStep) s
  { out := t.out,
    ptrOut := t.ptrOut,
    ptrIn00 := t.ptrIn00 + rowOffset,
    ptrIn01 := t.ptrIn01 + rowOffset,
    ptrIn02 := t.ptrIn02 + rowOffset,
    ptrIn10 := t.ptrIn10 + rowOffset,
    ptrIn11 := t.ptrIn11 + rowOffset,
    ptrIn12 := t.ptrIn12 + rowOffset,
    ptrIn20 := t.ptrIn20 + rowOffset,
    ptrIn21 := t.ptrIn21 + rowOffset,
    ptrIn22 := t.ptrIn22 + rowOffset,
    diffMax := t.diffMax }

/-- The function `IntegralFeatureDiagonal`; `outData` is the content of the
output buffer on entry.  The result is the final state: `out` is the output
buffer, `ptrOut` the number of values written and `diffMax` the value stored in
`*outMaxValue`. -/
def IntegralFeatureDiagonal (outData : Nat → Nat) (inImg : Image32_t)
    (boxWidth boxHeight colStep rowStep : Nat) : DiagonalState :=
  let numColSteps := usub inImg.width (boxWidth * 2 % SIZE_MOD) / colStep
  let rowOffset := usub (umul inImg.width rowStep) (umul numColSteps colStep)
  loopN (usub inImg.height (boxHeight * 2 % SIZE_MOD) / rowStep)
    (diagonalRow inImg.data colStep numColSteps rowOffset)
    { out := outData,
      ptrOut := 0,
      ptrIn00 := 0,
      ptrIn01 := 0 + boxWidth,
      ptrIn02 := 0 + boxWidth + boxWidth,
      ptrIn10 := 0 + umul boxHeight inImg.width,
      ptrIn11 := 0 + umul boxHeight inImg.width + boxWidth,
      ptrIn12 := 0 + umul boxHeight inImg.width + boxWidth + boxWidth,
      ptrIn20 := 0 + umul boxHeight inImg.width + umul boxHeight inImg.width,
      ptrIn21 := 0 + umul boxHeight inImg.width + umul boxHeight inImg.width + boxWidth,
      ptrIn22 := 0 + umul boxHeight inImg.width + umul boxHeight inImg.width + boxWidth
        + boxWidth,
      diffMax := 0 }

/-- The diagonal feature value at output position `(i, j)`:
`|(TR + BL) - (TL + BR)|` for the sums of the image over the four
`boxWidth x boxHeight` quadrants of the window of rows `i*rs+1 .. i*rs+2*bh` and
columns `j*cs+1 .. j*cs+2*bw`. -/
def diagonalValue (data : Nat → Nat) (width boxWidth boxHeight colStep rowStep i j : Nat) :
    Nat :=
  Int.natAbs
    (((boxSum data width (i * rowStep + 1) (j * colStep + boxWidth + 1) boxWidth
          boxHeight : Int)
        + (boxSum data width (i * rowStep + boxHeight + 1) (j * colStep + 1) boxWidth
          boxHeight : Int))
      - ((boxSum data width (i * rowStep + 1) (j * colStep + 1) boxWidth boxHeight : Int)
        + (boxSum data width (i * rowStep + boxHeight + 1) (j * colStep + boxWidth + 1)
          boxWidth boxHeight : Int)))

/-- The loop invariant of `IntegralFeatureDiagonal` in output row `i` after `j`
values of the row: pointer positions and the values written so far. -/
def DiagonalInv (data : Nat → Nat) (w bw bh cs rs cols i j : Nat)
    (s : DiagonalState) : Prop :=
  s.ptrOut = i * cols + j ∧ s.ptrIn00 = i * rs * w + j * cs ∧
  s.ptrIn01 = s.ptrIn00 + bw ∧
  s.ptrIn02 = s.ptrIn00 + bw + bw ∧
  s.ptrIn10 = s.ptrIn00 + bh * w ∧
  s.ptrIn11 = s.ptrIn00 + bh * w + bw ∧
  s.ptrIn12 = s.ptrIn00 + bh * w + bw + bw ∧
  s.ptrIn20 = s.ptrIn00 + bh * w + bh * w ∧
  s.ptrIn21 = s.ptrIn00 + bh * w + bh * w + bw ∧
  s.ptrIn22 = s.ptrIn00 + bh * w + bh * w + bw + bw ∧
  (∀ i' j', j' < cols → (i' < i ∨ (i' = i ∧ j' < j)) →
    s.out (i' * cols + j') = diagonalValue data w bw bh cs rs i' j')

/-! ## The naive 3x3 erosion -/

/-- Some pixel of the 3x3 window centred at `(r, c)` is zero (for `r >= 1`,
`c >= 1`). -/
def windowHasZero (data : Nat → Nat) (width r c : Nat) : Prop :=
  ∃ dr, dr < 3 ∧ ∃ dc, dc < 3 ∧ data ((r - 1 + dr) * width + (c - 1 + dc)) = 0

instance (data : Nat → Nat) (width r c : Nat) : Decidable (windowHasZero data width r c) := by
  unfold windowHasZero; infer_instance

/-- The erosion of the pixel `(r, c)` by the 3x3 square as the window
definition gives it, read off the original image: the mark if the pixel is
non-zero and some pixel of its window is zero, the pixel itself otherwise. -/
def naiveErode33 (img : Image8_t) (mark r c : Nat) : Nat :=
  if img.data (r * img.width + c) ≠ 0 ∧ windowHasZero img.data img.width r c then mark
  else img.data (r * img.width + c)

/-! ## Dilation with the 3x1 element (`operate.c`) -/

/-- The image buffer, the scan pointer and the bit register of `RegionDilate31`. -/
structure Dilate31State where
  img : Nat → Nat
  ptrImg : Nat
  accum : Nat

/-- The test of `RegionDilate31`: `~accum & 0x2 && accum & 0x7`. -/
def dilate31Fires (accum : Nat) : Bool :=
  decide (bitNot accum &&& 2 ≠ 0 ∧ accum &&& 7 ≠ 0)

/-- The head of a row in `RegionDilate31`: `accum = (*ptrImg != 0)`, the test,
the write to `*(ptrImg - 1)` guarded by `(ptrImg - 1) >= inoutImg->data`, then
`ptrImg++`. -/
def dilate31Head (mark : Nat) (s : Dilate31State) : Dilate31State :=
  let accum := if s.img s.ptrImg ≠ 0 then 1 else 0
  { img := if dilate31Fires accum
           then (if (s.ptrImg : Int) - 1 ≥ 0
                 then storeAt s.img ((s.ptrImg : Int) - 1) mark else s.img)
           else s.img,
    ptrImg := s.ptrImg + 1,
    accum := accum }

/-- The body of the inner loop of `RegionDilate31`. -/
def dilate31Step (mark : Nat) (s : Dilate31State) : Dilate31State :=
  let accum := shiftIn s.accum (s.img s.ptrImg)
  { img := if dilate31Fires accum then storeAt s.img ((s.ptrImg : Int) - 1) mark else s.img,
    ptrImg := s.ptrImg + 1,
    accum := accum }

/-- The body of the outer loop of `RegionDilate31`: the head of the row, then
`widthMinus1` further pixels. -/
def dilate31Row (widthMinus1 mark : Nat) (s : Dilate31State) : Dilate31State :=
  loopN widthMinus1 (dilate31Step mark) (dilate31Head mark s)

/-- The function `RegionDilate31`; the result is the image after the in-place
operation.  The register `accum` is assigned at the head of every row before it
is read. -/
def RegionDilate31 (inoutImg : Image8_t) (mark : Nat) : Image8_t :=
  { width := inoutImg.width, height := inoutImg.height,
    data := (loopN inoutImg.height (dilate31Row (usub inoutImg.width 1) mark)
      { img := inoutImg.data, ptrImg := 0, accum := 0 }).img }

/-- The 3x2 image whose only non-zero sample is at row 1, column 0. -/
def rowHeadImage : Image8_t :=
  { width := 3, height := 2, data := fun k => if k = 3 then 255 else 0 }

/-! ## Histogram statistics (`histogram.c`) -/

/-- State of the loop of `HistogramStats`. -/
structure StatsState where
  ptrBins : Nat
  minValue : Nat
  maxValue : Nat
  minIdx : Nat
  maxIdx : Nat
  varianceAccum : Nat
  i : Nat

/-- One iteration of `for (i = 1; i < numBins; ++i)` in `HistogramStats`. -/
def statsStep (bins : Nat → Nat) (s : StatsState) : StatsState :=
  let value := bins s.ptrBins
  { ptrBins := s.ptrBins + 1,
    minValue := if s.minValue > value then value else s.minValue,
    maxValue := if s.maxValue < value then value else s.maxValue,
    minIdx := if s.minValue > value then s.i else s.minIdx,
    maxIdx := if s.maxValue < value then s.i else s.maxIdx,
    varianceAccum := uadd s.varianceAccum (umul (umul value s.i) s.i),
    i := s.i + 1 }

/-- The four outputs of `HistogramStats`. -/
structure Stats_t where
  minIdx : Nat
  maxIdx : Nat
  meanIdx : Nat
  variance : Nat

/-- The final state of the loop of `HistogramStats`; it runs `numBins - 1`
times, and not at all when `numBins` is 0. -/
def HistogramStatsLoop (inHistogram : Histogram_t) : StatsState :=
  loopN (inHistogram.numberBins - 1) (statsStep inHistogram.bins)
    { ptrBins := 1, minValue := inHistogram.bins 0, maxValue := inHistogram.bins 0,
      minIdx := 0, maxIdx := 0, varianceAccum := 0, i := 1 }

/-- The function `HistogramStats`; `none` when it divides by a zero
`numberCounts`.  The variance is `varianceAccum / numCounts - meanIdx * meanIdx`
in `size_t` arithmetic. -/
def HistogramStats (inHistogram : Histogram_t) : Option Stats_t :=
  let s := HistogramStatsLoop inHistogram
  if inHistogram.numberCounts = 0 then none
  else
    let meanIdx := inHistogram.meanBins (inHistogram.numberBins - 1) / inHistogram.numberCounts
    some { minIdx := s.minIdx, maxIdx := s.maxIdx, meanIdx := meanIdx,
           variance := usub (s.varianceAccum / inHistogram.numberCounts)
             (umul meanIdx meanIdx) }

/-- The inclusive running second moment `0*0*bins[0] + ... + i*i*bins[i]`. -/
def cumSq (bins : Nat → Nat) : Nat → Nat
  | 0 => bins 0 * 0 * 0
  | i + 1 => cumSq bins i + bins (i + 1) * (i + 1) * (i + 1)

/-- The consistent 3-bin histogram with `2^62` counts in bin 2. -/
def wideHistogram : Histogram_t :=
  histogramOf 3 (fun i => if i = 2 then 4611686018427387904 else 0)

/-! ## The tangent table (`utility.c`) and the end points of a Hough line (`draw.c`) -/

/-- The table `lut` of `UintTan`: `65536*tan` of the 128 angle bins, 0 at the
bins 32 and 96. -/
def tanLut : List Int :=
  [
    0, 3219, 6454, 9721, 13035, 16415, 19880, 23449,
    27145, 30996, 35029, 39280, 43789, 48604, 53784, 59398,
    65535, 72307, 79855, 88365, 98081, 109340, 122609, 138564,
    158217, 183160, 216043, 261634, 329471, 441807, 665398, 1334015,
    0, -1334015, -665398, -441807, -329471, -261634, -216043, -183160,
    -158217, -138564, -122609, -109340, -98081, -88365, -79855, -72307,
    -65536, -59398, -53784, -48604, -43789, -39280, -35029, -30996,
    -27145, -23449, -19880, -16415, -13035, -9721, -6454, -3219,
    0, 3219, 6454, 9721, 13035, 16415, 19880, 23449,
    27145, 30996, 35029, 39280, 43789, 48604, 53784, 59398,
    65535, 72307, 79855, 88365, 98081, 109340, 122609, 138564,
    158217, 183160, 216043, 261634, 329471, 441807, 665398, 1334015,
    0, -1334015, -665398, -441807, -329471, -261634, -216043, -183160,
    -158217, -138564, -122609, -109340, -98081, -88365, -79855, -72307,
    -65536, -59398, -53784, -48604, -43789, -39280, -35029, -30996,
    -27145, -23449, -19880, -16415, -13035, -9721, -6454, -3219
  ]

/-- The function `UintTan`. -/
def UintTan (theta : Nat) : Int := tanLut.getD (theta % 128) 0

/-- A division of two `size_t` values; `none` when the divisor is zero. -/
def udivChecked (a b : Nat) : Option Nat := if b = 0 then none else some (a / b)

/-- A division of two `int` values, truncating; `none` when the divisor is
zero. -/
def idivChecked (a b : Int) : Option Int := if b = 0 then none else some (Int.tdiv a b)

/-- The shift `x << 16` of a `size_t`. -/
def shl16 (x : Nat) : Nat := x * 65536 % SIZE_MOD

/-- The shift `x << 16` of an `int`, kept to 32 bits. -/
def ishl16 (x : Int) : Int := wrap32 (x * 65536)

/-- The end points `beginX`, `beginY`, `endX`, `endY` that `DrawHoughLine`
passes to `DrawImageLine`. -/
structure HoughLineEnds where
  beginX : Nat
  beginY : Nat
  endX : Nat
  endY : Nat

/-- The pair `(endX, endY)` in the first and third quadrant cases: the top
edge if `inttop < width` (compared as `size_t`), else the right edge with
`endY = ((inttop - width) << 16) / tanval` in `size_t` arithmetic. -/
def houghEndTopRight (width : Nat) (inttop tanval : Int) : Option (Nat × Nat) :=
  if toSize inttop < width then some (toSize inttop, 0)
  else (udivChecked (shl16 (usub (toSize inttop) width)) (toSize tanval)).map
    fun q => (usub width 1, q)

/-- The pair `(beginX, beginY)` in the first and third quadrant cases: the
bottom edge if `intbottom >= 0`, else the left edge with
`beginY = height - ((-intbottom) << 16) / tanval`, the quotient computed in
`int`. -/
def houghBeginBottomLeft (height : Nat) (intbottom tanval : Int) : Option (Nat × Nat) :=
  if intbottom ≥ 0 then some (toSize intbottom, usub height 1)
  else (idivChecked (ishl16 (wrap32 (-intbottom))) tanval).map
    fun q => (0, usub height (toSize q))

/-- The pair `(endX, endY)` in the second and fourth quadrant cases: the top
edge if `inttop >= 0`, else the left edge with
`endY = ((-inttop) << 16) / tanval`, computed in `int`. -/
def houghEndTopLeft (inttop tanval : Int) : Option (Nat × Nat) :=
  if inttop ≥ 0 then some (toSize inttop, 0)
  else (idivChecked (ishl16 (wrap32 (-inttop))) tanval).map fun q => (0, toSize q)

/-- The pair `(beginX, beginY)` in the second and fourth quadrant cases: the
bottom edge if `intbottom < width` (compared as `size_t`), else the right edge
with `beginY = height - ((intbottom - width) << 16) / tanval` in `size_t`
arithmetic. -/
def houghBeginBottomRight (width height : Nat) (intbottom tanval : Int) :
    Option (Nat × Nat) :=
  if toSize intbottom < width then some (toSize intbottom, usub height 1)
  else (udivChecked (shl16 (usub (toSize intbottom) width)) (toSize tanval)).map
    fun q => (usub width 1, usub height q)

/-- The first quadrant case of `DrawHoughLine` (`theta < 32`), with `cosval`
and `tanval` as looked up: `xpt = originX + (r << 16) / cosval`,
`inttop = xpt + ((originY * tanval) >> 16)`,
`intbottom = xpt - (((height - originY) * tanval) >> 16)`.  Mixed expressions
are computed in `size_t` and stored into `int32_t` variables. -/
def houghQuadrant1 (width height originX originY r : Nat) (cosval tanval : Int) :
    Option HoughLineEnds :=
  (udivChecked (shl16 r) (toSize cosval)).bind fun q =>
    let xpt := wrap32 ((uadd originX q : Nat) : Int)
    let inttop := wrap32
      ((uadd (toSize xpt) (umul originY (toSize tanval) / 65536) : Nat) : Int)
    let intbottom := wrap32
      ((usub (toSize xpt) (umul (usub height originY) (toSize tanval) / 65536) : Nat) : Int)
    (houghEndTopRight width inttop tanval).bind fun e =>
      (houghBeginBottomLeft height intbottom tanval).bind fun b =>
        some { beginX := b.1, beginY := b.2, endX := e.1, endY := e.2 }

/-- The second quadrant case (`32 < theta < 64`):
`xpt = originX - (r << 16) / cosval`, `inttop = xpt - ...`,
`intbottom = xpt + ...`. -/
def houghQuadrant2 (width height originX originY r : Nat) (cosval tanval : Int) :
    Option HoughLineEnds :=
  (udivChecked (shl16 r) (toSize cosval)).bind fun q =>
    let xpt := wrap32 ((usub originX q : Nat) : Int)
    let inttop := wrap32
      ((usub (toSize xpt) (umul originY (toSize tanval) / 65536) : Nat) : Int)
    let intbottom := wrap32
      ((uadd (toSize xpt) (umul (usub height originY) (toSize tanval) / 65536) : Nat) : Int)
    (houghEndTopLeft inttop tanval).bind fun e =>
      (houghBeginBottomRight width height intbottom tanval).bind fun b =>
        some { beginX := b.1, beginY := b.2, endX := e.1, endY := e.2 }

/-- The third quadrant case (`64 < theta < 96`):
`xpt = originX - (r << 16) / cosval`, `inttop = xpt + ...`,
`intbottom = xpt - ...`. -/
def houghQuadrant3 (width height originX originY r : Nat) (cosval tanval : Int) :
    Option HoughLineEnds :=
  (udivChecked (shl16 r) (toSize cosval)).bind fun q =>
    let xpt := wrap32 ((usub originX q : Nat) : Int)
    let inttop := wrap32
      ((uadd (toSize xpt) (umul originY (toSize tanval) / 65536) : Nat) : Int)
    let intbottom := wrap32
      ((usub (toSize xpt) (umul (usub height originY) (toSize tanval) / 65536) : Nat) : Int)
    (houghEndTopRight width inttop tanval).bind fun e =>
      (houghBeginBottomLeft height intbottom tanval).bind fun b =>
        some { beginX := b.1, beginY := b.2, endX := e.1, endY := e.2 }

/-- The fourth quadrant case (`96 < theta`):
`xpt = originX + (r << 16) / cosval`, `inttop = xpt - ...`,
`intbottom = xpt + ...`. -/
def houghQuadrant4 (width height originX originY r : Nat) (cosval tanval : Int) :
    Option HoughLineEnds :=
  (udivChecked (shl16 r) (toSize cosval)).bind fun q =>
    let xpt := wrap32 ((uadd originX q : Nat) : Int)
    let inttop := wrap32
      ((usub (toSize xpt) (umul originY (toSize tanval) / 65536) : Nat) : Int)
    let intbottom := wrap32
      ((uadd (toSize xpt) (umul (usub height originY) (toSize tanval) / 65536) : Nat) : Int)
    (houghEndTopLeft inttop tanval).bind fun e =>
      (houghBeginBottomRight width height intbottom tanval).bind fun b =>
        some { beginX := b.1, beginY := b.2, endX := e.1, endY := e.2 }

/-- The index that `DrawHoughLine` passes to `UintCos` and `UintTan` in the
quadrant case it selects for `theta`: `theta`, `64 - theta`, `theta - 64` or
`128 - theta`. -/
def houghFold (theta : Nat) : Nat :=
  if theta < 32 then theta
  else if theta < 64 then usub 64 theta
  else if theta < 96 then usub theta 64
  else usub 128 theta

/-- The end points computed by `DrawHoughLine` for an image of the given size
(what precedes the call of `DrawImageLine`); `none` when a division by zero is
executed. -/
def DrawHoughLineEnds (width height originX originY theta radius : Nat) :
    Option HoughLineEnds :=
  let r := radius * 4 % SIZE_MOD
  if theta = 0 then
    some { beginX := uadd originX r, beginY := 0, endX := uadd originX r,
           endY := usub height 1 }
  else if theta = 32 then
    some { beginX := 0, beginY := uadd originY r, endX := usub width 1,
           endY := uadd originY r }
  else if theta = 64 then
    some { beginX := usub originX r, beginY := 0, endX := usub originX r,
           endY := usub height 1 }
  else if theta = 96 then
    some { beginX := 0, beginY := usub originY r, endX := usub width 1,
           endY := usub originY r }
  else if theta < 32 then
    houghQuadrant1 width height originX originY r (UintCos theta) (UintTan theta)
  else if theta < 64 then
    houghQuadrant2 width height originX originY r (UintCos (usub 64 theta))
      (UintTan (usub 64 theta))
  else if theta < 96 then
    houghQuadrant3 width height originX originY r (UintCos (usub theta 64))
      (UintTan (usub theta 64))
  else
    houghQuadrant4 width height originX originY r (UintCos (usub 128 theta))
      (UintTan (usub 128 theta))

/-! # Properties -/

/-! ## Generic facts about the memory model -/

theorem store_eq {α : Type} (m : Nat → α) (a : Nat) (v : α) : store m a v a = v := by
  simp [store]

theorem store_ne {α : Type} (m : Nat → α) (a k : Nat) (v : α) (h : k ≠ a) :
    store m a v k = m k := by
  simp [store, h]

theorem loopN_succ {σ : Type} (n : Nat) (body : σ → σ) (s : σ) :
    loopN (n + 1) body s = loopN n body (body s) := rfl

theorem loopN_succ_right {σ : Type} (n : Nat) (body : σ → σ) (s : σ) :
    loopN (n + 1) body s = body (loopN n body s) := by
  induction n generalizing s with
  | zero => rfl
  | succ n ih => rw [loopN_succ, ih (body s)]; rfl

/-! ## HistogramMedian -/

set_option maxRecDepth 100000 in
/-- C1: on the 256-bin histogram that `ImageHistogram` builds (bins zeroed
first) from the 8x8 image of constant value 42, the binary search of
`HistogramMedian` ends on bin 41, one below the bin holding all the mass. -/
theorem HistogramMedian_constant_42 :
    HistogramMedian (ImageHistogram (zeroHistogram 256) (constImage 8 8 42)) = some 41 := by
  decide

/-! ## OtsuThreshold -/

theorem OtsuLoop_result (sumBins meanBins : Nat → Nat) (numCounts mean : Nat) :
    ∀ (remaining ptrSumBins ptrMeanBins last : Nat),
      OtsuLoop sumBins meanBins numCounts mean remaining ptrSumBins ptrMeanBins last
          = ptrSumBins + remaining ∨
      ∃ i, ptrSumBins ≤ i ∧ i < ptrSumBins + remaining ∧ sumBins i ≠ 0 ∧
        sumBins i ≠ numCounts ∧
        OtsuLoop sumBins meanBins numCounts mean remaining ptrSumBins ptrMeanBins last
          = i + 1 := by
  intro remaining
  induction remaining with
  | zero => intro p q l; left; rfl
  | succ r ih =>
    intro p q l
    unfold OtsuLoop
    by_cases hskip : sumBins p = 0 ∨ sumBins p = numCounts
    · simp only [hskip, if_true]
      rcases ih (p + 1) q l with h | ⟨i, h1, h2, h3, h4, h5⟩
      · left; rw [h]; omega
      · right; exact ⟨i, by omega, by omega, h3, h4, h5⟩
    · simp only [hskip, if_false]
      have hne : sumBins p ≠ 0 ∧ sumBins p ≠ numCounts := by
        constructor
        · intro h; exact hskip (Or.inl h)
        · intro h; exact hskip (Or.inr h)
      split_ifs with hbreak
      · right; exact ⟨p, le_refl p, by omega, hne.1, hne.2, rfl⟩
      · rcases ih (p + 1) (q + 1) _ with h | ⟨i, h1, h2, h3, h4, h5⟩
        · left; rw [h]; omega
        · right; exact ⟨i, by omega, by omega, h3, h4, h5⟩

theorem loopN_fillStep (value : Nat) :
    ∀ (n : Nat) (m : Nat → Nat) (p k : Nat),
      (loopN n (fillStep value) { map := m, ptrMap := p }).map k
        = if p ≤ k ∧ k < p + n then value else m k := by
  intro n
  induction n with
  | zero =>
    intro m p k
    have h : ¬ (p ≤ k ∧ k < p + 0) := by omega
    rw [if_neg h]; rfl
  | succ n ih =>
    intro m p k
    rw [loopN_succ]
    simp only [fillStep]
    rw [ih]
    by_cases hk : k = p
    · subst hk; simp [store]
    · simp only [store, hk, if_false]
      congr 1
      apply propext
      constructor <;> intro h <;> omega

theorem segLower_le_segUpper (center threshold : Nat) (hc : center < 256) :
    segLower center threshold ≤ segUpper center threshold := by
  unfold segLower segUpper uadd SIZE_MOD
  split_ifs <;> omega

/-- What `SegmentMap` leaves in the map: `value` on the half-open range
`[lowerBound, upperBound)`, the former contents elsewhere. -/
theorem SegmentMap_apply (outMap : Nat → Nat) (center threshold value k : Nat)
    (hc : center < 256) :
    SegmentMap outMap center threshold value k
      = if segLower center threshold ≤ k ∧ k < segUpper center threshold
        then value else outMap k := by
  unfold SegmentMap
  rw [loopN_fillStep]
  have h := segLower_le_segUpper center threshold hc
  congr 1
  apply propext
  constructor <;> intro h' <;> omega

/-- C3: with center 100, threshold 10 and label 1 on a zero map, `SegmentMap`
leaves entry 110 = center + threshold unmarked, while entries 90 and 109 are
marked: the marked range is half-open at its upper end. -/
theorem SegmentMap_upper_end_unmarked :
    SegmentMap (fun _ => 0) 100 10 1 110 = 0 ∧
    SegmentMap (fun _ => 0) 100 10 1 109 = 1 ∧
    SegmentMap (fun _ => 0) 100 10 1 90 = 1 := by
  simp only [SegmentMap_apply _ 100 10 1 _ (by decide : 100 < 256)]
  decide

theorem loopN_diskStep (cbMap crMap : Nat → Nat) (center thresholdSq value : Nat) :
    ∀ (n : Nat) (m : Nat → Nat) (i0 k : Nat),
      (loopN n (diskStep cbMap crMap center thresholdSq value) { map := m, i := i0 }).map k
        = if i0 ≤ k ∧ k < i0 + n ∧ (cbMap (packedData0 k) ≠ 0 ∧ crMap (packedData1 k) ≠ 0 ∧
              CbCrSSD center k ≤ thresholdSq)
          then value else m k := by
  intro n
  induction n with
  | zero =>
    intro m i0 k
    have h : ¬ (i0 ≤ k ∧ k < i0 + 0 ∧ (cbMap (packedData0 k) ≠ 0 ∧
        crMap (packedData1 k) ≠ 0 ∧ CbCrSSD center k ≤ thresholdSq)) := by
      rintro ⟨a, b, _⟩; omega
    rw [if_neg h]; rfl
  | succ n ih =>
    intro m i0 k
    rw [loopN_succ]
    simp only [diskStep]
    rw [ih]
    by_cases hk : k = i0
    · subst hk
      by_cases hc : cbMap (packedData0 k) ≠ 0 ∧ crMap (packedData1 k) ≠ 0 ∧
          CbCrSSD center k ≤ thresholdSq
      · simp [hc, store]
      · simp [hc]
    · have h1 : (i0 + 1 ≤ k ∧ k < i0 + 1 + n ∧ (cbMap (packedData0 k) ≠ 0 ∧
            crMap (packedData1 k) ≠ 0 ∧ CbCrSSD center k ≤ thresholdSq))
          ↔ (i0 ≤ k ∧ k < i0 + (n + 1) ∧ (cbMap (packedData0 k) ≠ 0 ∧
            crMap (packedData1 k) ≠ 0 ∧ CbCrSSD center k ≤ thresholdSq)) := by
        constructor <;> rintro ⟨a, b, c⟩ <;> exact ⟨by omega, by omega, c⟩
      rw [if_congr h1 rfl rfl]
      split_ifs <;> simp [store, hk]

/-- What `SegmentMapCbCr` leaves in the map: entry `k` of the 65,536 is set to
`value` when both prefilter tables are non-zero at its components and its
squared distance to the center is at most the squared threshold. -/
theorem SegmentMapCbCr_apply (cbInit crInit outMap : Nat → Nat)
    (center threshold value k : Nat) :
    SegmentMapCbCr cbInit crInit outMap center threshold value k
      = if k < 65536 ∧
            (SegmentMap cbInit (packedData0 center) threshold 1 (packedData0 k) ≠ 0 ∧
             SegmentMap crInit (packedData1 center) threshold 1 (packedData1 k) ≠ 0 ∧
             CbCrSSD center k ≤ umul threshold threshold)
        then value else outMap k := by
  unfold SegmentMapCbCr
  rw [loopN_diskStep]
  by_cases hk : k = 0
  · subst hk
    have e0 : packedData0 0 = 0 := rfl
    have e1 : packedData1 0 = 0 := rfl
    simp only [e0, e1]
    split_ifs <;> simp_all [store]
  · have h1 : (1 ≤ k ∧ k < 1 + 65535 ∧
        (SegmentMap cbInit (packedData0 center) threshold 1 (packedData0 k) ≠ 0 ∧
         SegmentMap crInit (packedData1 center) threshold 1 (packedData1 k) ≠ 0 ∧
         CbCrSSD center k ≤ umul threshold threshold))
        ↔ (k < 65536 ∧
        (SegmentMap cbInit (packedData0 center) threshold 1 (packedData0 k) ≠ 0 ∧
         SegmentMap crInit (packedData1 center) threshold 1 (packedData1 k) ≠ 0 ∧
         CbCrSSD center k ≤ umul threshold threshold)) := by
      constructor
      · rintro ⟨_, b, c⟩; exact ⟨by omega, c⟩
      · rintro ⟨b, c⟩; exact ⟨by omega, by omega, c⟩
    rw [if_congr h1 rfl rfl]
    split_ifs <;> simp [store, hk]

/-- C4: on a zero map (local tables zero on entry) with center (100,100),
threshold 10 and label 1, the packed value (110,100) lies at squared distance
100 = 10*10 from the center, inside the closed disk, and `SegmentMapCbCr`
leaves its entry unmarked. -/
theorem SegmentMapCbCr_boundary_unmarked :
    CbCrSSD 25700 25710 ≤ 10 * 10 ∧
    SegmentMapCbCr (fun _ => 0) (fun _ => 0) (fun _ => 0) 25700 10 1 25710 = 0 := by
  refine ⟨by decide, ?_⟩
  rw [SegmentMapCbCr_apply]
  have hc : packedData0 25700 = 100 := by decide
  have hk : packedData0 25710 = 110 := by decide
  rw [hc, hk, SegmentMap_apply _ 100 10 1 110 (by decide)]
  have h : ¬ (segLower 100 10 ≤ 110 ∧ 110 < segUpper 100 10) := by decide
  simp [h]

/-! ## SobelEdges -/

theorem wrap16_add_wrap16 (a b : Int) : wrap16 (wrap16 a + b) = wrap16 (a + b) := by
  unfold wrap16; omega

theorem wrap16_of_small (a : Int) (h1 : -32768 ≤ a) (h2 : a < 32768) : wrap16 a = a := by
  unfold wrap16; omega

theorem addAt_wrap (m : Nat → Int) (F : Nat → Int) (a : Nat) (c : Int)
    (h : ∀ k, m k = wrap16 (F k)) (k : Nat) :
    addAt m a c k = wrap16 (F k + if k = a then c else 0) := by
  unfold addAt
  by_cases hk : k = a
  · subst hk; simp only [if_true]; rw [h k, wrap16_add_wrap16]
  · simp only [hk, if_false]; rw [h k, add_zero]

theorem scanned_ge (w h q : Nat) (hs : scanned w h q) : w + 1 ≤ q := by
  obtain ⟨h1, _, h3, _⟩ := hs
  have h5 := Nat.div_add_mod q w
  have h6 : w * 1 ≤ w * (q / w) := Nat.mul_le_mul_left w h1
  omega

theorem scanned_lt (w h q : Nat) (hs : scanned w h q) : q + 2 + w ≤ w * h := by
  obtain ⟨_, h2, _, h4⟩ := hs
  have h5 := Nat.div_add_mod q w
  have h6 : w * (q / w + 2) ≤ w * h := Nat.mul_le_mul_left w h2
  rw [Nat.mul_add] at h6
  omega

theorem div_of_coords (w r c : Nat) (hc : c < w) : (r * w + c) / w = r := by
  have hw : 0 < w := by omega
  rw [Nat.add_comm, Nat.add_mul_div_right _ _ hw, Nat.div_eq_of_lt hc, Nat.zero_add]

theorem mod_of_coords (w r c : Nat) (hc : c < w) : (r * w + c) % w = c := by
  rw [Nat.add_comm, Nat.add_mul_mod_self_right, Nat.mod_eq_of_lt hc]

theorem scanned_coords (w h r c : Nat) (hc : c < w) :
    scanned w h (r * w + c) ↔ (1 ≤ r ∧ r + 2 ≤ h ∧ 1 ≤ c ∧ c + 2 ≤ w) := by
  unfold scanned
  rw [div_of_coords w r c hc, mod_of_coords w r c hc]

theorem contrib_succ (c : Nat → Int) (w h p q : Nat) (hs : scanned w h p) :
    contrib c w h (p + 1) q = contrib c w h p q + (if q = p then c p else 0) := by
  unfold contrib
  by_cases hq : q = p
  · subst hq
    have h1 : scanned w h q ∧ q < q + 1 := ⟨hs, by omega⟩
    have h2 : ¬ (scanned w h q ∧ q < q) := by rintro ⟨_, h⟩; omega
    rw [if_pos h1, if_neg h2, if_pos rfl, zero_add]
  · have h1 : (scanned w h q ∧ q < p + 1) ↔ (scanned w h q ∧ q < p) := by
      constructor <;> rintro ⟨a, b⟩ <;> exact ⟨a, by omega⟩
    rw [if_congr h1 rfl rfl, if_neg hq, add_zero]

theorem contrib_skip (c : Nat → Int) (w h p q : Nat) (hs : ¬ scanned w h p) :
    contrib c w h (p + 1) q = contrib c w h p q := by
  unfold contrib
  have h1 : (scanned w h q ∧ q < p + 1) ↔ (scanned w h q ∧ q < p) := by
    constructor
    · rintro ⟨a, b⟩
      refine ⟨a, ?_⟩
      by_contra hlt
      have : q = p := by omega
      subst this
      exact hs a
    · rintro ⟨a, b⟩; exact ⟨a, by omega⟩
  rw [if_congr h1 rfl rfl]

theorem contrib_start (c : Nat → Int) (w h q : Nat) : contrib c w h (w + 1) q = 0 := by
  unfold contrib
  have h1 : ¬ (scanned w h q ∧ q < w + 1) := by
    rintro ⟨a, b⟩
    have := scanned_ge w h q a
    omega
  rw [if_neg h1]

theorem contrib_end (c : Nat → Int) (w h p q : Nat) (hp : w * h ≤ p + w + 1) :
    contrib c w h p q = if scanned w h q then c q else 0 := by
  unfold contrib
  have h1 : (scanned w h q ∧ q < p) ↔ scanned w h q := by
    constructor
    · rintro ⟨a, _⟩; exact a
    · intro a
      have := scanned_lt w h q a
      exact ⟨a, by omega⟩
  rw [if_congr h1 rfl rfl]

theorem sobelYUpTo_skip (data : Nat → Nat) (w h p k : Nat) (hs : ¬ scanned w h p) :
    sobelYUpTo data w h (p + 1) k = sobelYUpTo data w h p k := by
  unfold sobelYUpTo
  simp only [contrib_skip _ w h p _ hs]

theorem sobelYUpTo_succ (data : Nat → Nat) (w h p k : Nat) (hs : scanned w h p) :
    sobelYUpTo data w h (p + 1) k
      = sobelYUpTo data w h p k
        + (if k + w + 1 = p then sampleOf data p else 0)
        + (if k + w = p + 1 then sampleOf data p else 0)
        + (if k + 1 = p + w then -sampleOf data p else 0)
        + (if k = p + w + 1 then -sampleOf data p else 0)
        + (if k + w = p then twiceOf data p else 0)
        + (if k = p + w then -twiceOf data p else 0) := by
  have hp := scanned_ge w h p hs
  have hw : 3 ≤ w := by
    obtain ⟨_, _, h3, h4⟩ := hs
    omega
  unfold sobelYUpTo
  simp only [contrib_succ _ w h p _ hs]
  have e1 : (k + w - 1 = p) ↔ (k + w = p + 1) := by omega
  have e2 : (k + 1 - w = p) ↔ (k + 1 = p + w) := by omega
  have e3 : (k - w = p) ↔ (k = p + w) := by omega
  have e4 : (k - w - 1 = p) ↔ (k = p + w + 1) := by omega
  rw [if_congr e1 rfl rfl, if_congr e2 rfl rfl, if_congr e3 rfl rfl, if_congr e4 rfl rfl]
  split_ifs <;> omega

theorem sobelInner_inv (data : Nat → Nat) (w h : Nat) (s : SobelState) (p : Nat)
    (hs : scanned w h p) (hinv : SobelYInv data w h s p) :
    SobelYInv data w h (sobelInner data s) (p + 1) := by
  obtain ⟨h0, h1, h2, h3, h4, h5, h6, hmem⟩ := hinv
  refine ⟨?_, ?_, ?_, ?_, ?_, ?_, ?_, ?_⟩
  · show s.ptrIn + 1 = p + 1; omega
  · show s.ptrUpLeftY + 1 + w + 1 = p + 1; omega
  · show s.ptrUpY + 1 + w = p + 1; omega
  · show s.ptrUpRightY + 1 + w = p + 1 + 1; omega
  · show s.ptrDownLeftY + 1 + 1 = p + 1 + w; omega
  · show s.ptrDownY + 1 = p + 1 + w; omega
  · show s.ptrDownRightY + 1 = p + 1 + w + 1; omega
  · intro k
    show addAt (addAt (addAt (addAt (addAt (addAt s.outDataY s.ptrUpLeftY _) s.ptrUpRightY _)
        s.ptrDownLeftY _) s.ptrDownRightY _) s.ptrUpY _) s.ptrDownY _ k = _
    rw [addAt_wrap _ _ _ _ (addAt_wrap _ _ _ _ (addAt_wrap _ _ _ _ (addAt_wrap _ _ _ _
      (addAt_wrap _ _ _ _ (addAt_wrap _ _ _ _ hmem))))) k]
    rw [sobelYUpTo_succ data w h p k hs]
    have e1 : (k = s.ptrUpLeftY) ↔ (k + w + 1 = p) := by omega
    have e2 : (k = s.ptrUpRightY) ↔ (k + w = p + 1) := by omega
    have e3 : (k = s.ptrDownLeftY) ↔ (k + 1 = p + w) := by omega
    have e4 : (k = s.ptrDownRightY) ↔ (k = p + w + 1) := by omega
    have e5 : (k = s.ptrUpY) ↔ (k + w = p) := by omega
    have e6 : (k = s.ptrDownY) ↔ (k = p + w) := by omega
    rw [if_congr e1 rfl rfl, if_congr e2 rfl rfl, if_congr e3 rfl rfl, if_congr e4 rfl rfl,
      if_congr e5 rfl rfl, if_congr e6 rfl rfl, h0]
    rfl

theorem sobelInner_loop_inv (data : Nat → Nat) (w h : Nat) :
    ∀ (n : Nat) (s : SobelState) (p : Nat),
      (∀ t, t < n → scanned w h (p + t)) → SobelYInv data w h s p →
      SobelYInv data w h (loopN n (sobelInner data) s) (p + n) := by
  intro n
  induction n with
  | zero => intro s p _ hinv; exact hinv
  | succ n ih =>
    intro s p hsc hinv
    rw [loopN_succ]
    have h0 : scanned w h p := hsc 0 (by omega)
    have h1 := sobelInner_inv data w h s p h0 hinv
    have h2 := ih (sobelInner data s) (p + 1) (fun t ht => by
      have := hsc (t + 1) (by omega)
      rwa [show p + 1 + t = p + (t + 1) by omega]) h1
    rwa [show p + (n + 1) = p + 1 + n by omega]

theorem sobelRow_inv (data : Nat → Nat) (w h : Nat) (s : SobelState) (p : Nat)
    (hw : 2 ≤ w) (hsc : ∀ t, t < w - 2 → scanned w h (p + t))
    (hn1 : ¬ scanned w h (p + (w - 2))) (hn2 : ¬ scanned w h (p + (w - 2) + 1))
    (hinv : SobelYInv data w h s p) :
    SobelYInv data w h (sobelRow data w s) (p + w) := by
  obtain ⟨h0, h1, h2, h3, h4, h5, h6, hmem⟩ := sobelInner_loop_inv data w h (w - 2) s p hsc hinv
  refine ⟨?_, ?_, ?_, ?_, ?_, ?_, ?_, ?_⟩
  · show (loopN (w - 2) (sobelInner data) s).ptrIn + 2 = p + w; omega
  · show (loopN (w - 2) (sobelInner data) s).ptrUpLeftY + 2 + w + 1 = p + w; omega
  · show (loopN (w - 2) (sobelInner data) s).ptrUpY + 2 + w = p + w; omega
  · show (loopN (w - 2) (sobelInner data) s).ptrUpRightY + 2 + w = p + w + 1; omega
  · show (loopN (w - 2) (sobelInner data) s).ptrDownLeftY + 2 + 1 = p + w + w; omega
  · show (loopN (w - 2) (sobelInner data) s).ptrDownY + 2 = p + w + w; omega
  · show (loopN (w - 2) (sobelInner data) s).ptrDownRightY + 2 = p + w + w + 1; omega
  · intro k
    show (loopN (w - 2) (sobelInner data) s).outDataY k = _
    rw [hmem k, show p + w = p + (w - 2) + 1 + 1 by omega,
      sobelYUpTo_skip data w h _ k hn2, sobelYUpTo_skip data w h _ k hn1]

theorem sobelRows_inv (data : Nat → Nat) (w h : Nat) (hw : 3 ≤ w) :
    ∀ n, n + 2 ≤ h →
      SobelYInv data w h (loopN n (sobelRow data w) (sobelInit w)) (w + 1 + n * w) := by
  intro n
  induction n with
  | zero =>
    intro _
    refine ⟨?_, ?_, ?_, ?_, ?_, ?_, ?_, ?_⟩
    · show w + 1 = w + 1 + 0 * w; omega
    · show 0 + w + 1 = w + 1 + 0 * w; omega
    · show 1 + w = w + 1 + 0 * w; omega
    · show 2 + w = w + 1 + 0 * w + 1; omega
    · show w * 2 + 1 = w + 1 + 0 * w + w; omega
    · show w * 2 + 1 = w + 1 + 0 * w + w; omega
    · show w * 2 + 2 = w + 1 + 0 * w + w + 1; omega
    · intro k
      show (0 : Int) = _
      unfold sobelYUpTo
      rw [Nat.zero_mul, Nat.add_zero]
      simp only [contrib_start]
      rfl
  | succ n ih =>
    intro hn
    rw [loopN_succ_right]
    have hinv := ih (by omega)
    have e : w + 1 + (n + 1) * w = w + 1 + n * w + w := by rw [Nat.succ_mul]; omega
    rw [e]
    have hrow : ∀ c, w + 1 + n * w + c = (n + 1) * w + (1 + c) := by
      intro c; rw [Nat.succ_mul]; omega
    apply sobelRow_inv data w h _ _ (by omega) _ _ _ hinv
    · intro t ht
      rw [hrow t, scanned_coords w h (n + 1) (1 + t) (by omega)]
      omega
    · rw [hrow (w - 2), scanned_coords w h (n + 1) (1 + (w - 2)) (by omega)]
      omega
    · have e2 : w + 1 + n * w + (w - 2) + 1 = (n + 2) * w + 0 := by
        rw [show n + 2 = n + 1 + 1 by omega, Nat.succ_mul, Nat.succ_mul]; omega
      rw [e2, scanned_coords w h (n + 2) 0 (by omega)]
      omega

theorem ringZeroed_sample (data : Nat → Nat) (w h q : Nat) :
    sampleOf (ringZeroed w h data) q = if scanned w h q then sampleOf data q else 0 := by
  unfold sampleOf ringZeroed
  split_ifs <;> rfl

theorem ringZeroed_twice (data : Nat → Nat) (w h q : Nat) :
    twiceOf (ringZeroed w h data) q = if scanned w h q then twiceOf data q else 0 := by
  unfold twiceOf ringZeroed
  split_ifs <;> rfl

/-- The Y edge image of `SobelEdges` in closed form: at every offset the scatter
sum over the input with its outermost ring of samples taken as zero. -/
theorem SobelEdges_outDataY (img : Image8_t) (hw : 3 ≤ img.width) (hh : 2 ≤ img.height)
    (k : Nat) :
    (SobelEdges img).outDataY k
      = wrap16 (sobelYScatter (ringZeroed img.width img.height img.data) img.width k) := by
  obtain ⟨_, _, _, _, _, _, _, hmem⟩ :=
    sobelRows_inv img.data img.width img.height hw (img.height - 2) (by omega)
  unfold SobelEdges
  rw [hmem k]
  have hp : img.width * img.height
      ≤ img.width + 1 + (img.height - 2) * img.width + img.width + 1 := by
    have e : img.width * img.height = (img.height - 2) * img.width + img.width * 2 := by
      rw [Nat.mul_comm (img.height - 2), ← Nat.mul_add]
      congr 1; omega
    omega
  unfold sobelYUpTo sobelYScatter
  simp only [contrib_end _ _ _ _ _ hp, ringZeroed_sample, ringZeroed_twice]

/-- C5: on the 4x4 image whose only non-zero sample is a 1 at (2,2), the direct
kernel `[-1 0 +1; -2 0 +2; -1 0 +1]` at the interior pixel (1,1) gives 1, but the
X edge image written by `SobelEdges` holds 0 there; the contribution went to
offset 2 instead, in the first row. -/
theorem SobelEdges_X_corner_misplaced :
    sobelDirectX sobelTestImage.data 4 1 1 = 1 ∧
    (SobelEdges sobelTestImage).outDataX (1 * 4 + 1) = 0 ∧
    (SobelEdges sobelTestImage).outDataX 2 = 1 := by
  decide

theorem twiceOf_small (data : Nat → Nat) (q : Nat) (h : data q < 128) :
    twiceOf data q = 2 * sampleOf data q := by
  unfold twiceOf sampleOf
  rw [Nat.mod_eq_of_lt (by omega)]
  push_cast
  ring

theorem ringZeroed_lt (data : Nat → Nat) (w h b : Nat) (hb : 0 < b)
    (hd : ∀ k, data k < b) (q : Nat) : ringZeroed w h data q < b := by
  unfold ringZeroed
  split_ifs
  · exact hd q
  · exact hb

/-- C6 (as stated, refuted): on the 3x3 image with a single 1 in its top-left
corner the direct kernel at the interior pixel (1,1) gives -1, but `SobelEdges`
never reads the corner and leaves the Y edge image 0 there. -/
theorem SobelEdges_Y_counterexample :
    sobelCornerImage.wf ∧ 3 ≤ sobelCornerImage.width ∧ 3 ≤ sobelCornerImage.height ∧
    (SobelEdges sobelCornerImage).outDataY (1 * 3 + 1)
      ≠ sobelDirectY sobelCornerImage.data 3 1 1 := by
  refine ⟨?_, by decide, by decide, by decide⟩
  intro k
  show (if k = 0 then 1 else 0) < 256
  split_ifs <;> omega

/-- C6 (amended): for every image of width `w >= 3` and height `h >= 3` whose
samples are all below 128, and every output pixel `(i, j)` with
`1 <= i <= h-2` and `1 <= j <= w-2`, the Y edge image written by `SobelEdges`
equals the direct kernel `[-1 -2 -1; 0 0 0; +1 +2 +1]` applied at `(i, j)` to the
input with its outermost ring of samples taken as zero. -/
theorem SobelEdges_Y_interior (img : Image8_t) (hw : 3 ≤ img.width) (hh : 3 ≤ img.height)
    (hsmall : ∀ k, img.data k < 128) (i j : Nat)
    (hi1 : 1 ≤ i) (hi2 : i + 2 ≤ img.height) (hj1 : 1 ≤ j) (hj2 : j + 2 ≤ img.width) :
    (SobelEdges img).outDataY (i * img.width + j)
      = sobelDirectY (ringZeroed img.width img.height img.data) img.width i j := by
  rw [SobelEdges_outDataY img hw (by omega)]
  obtain ⟨i', rfl⟩ : ∃ i', i = i' + 1 := ⟨i - 1, by omega⟩
  obtain ⟨j', rfl⟩ : ∃ j', j = j' + 1 := ⟨j - 1, by omega⟩
  have hz := ringZeroed_lt img.data img.width img.height 128 (by decide) hsmall
  generalize ringZeroed img.width img.height img.data = d at hz ⊢
  generalize img.width = w at hw hj2 ⊢
  unfold sobelYScatter sobelDirectY pix
  have m1 : (i' + 1) * w = i' * w + w := Nat.succ_mul i' w
  have m2 : (i' + 1 + 1) * w = i' * w + w + w := by rw [Nat.succ_mul, Nat.succ_mul]
  have e1 : (i' + 1) * w + (j' + 1) + w + 1 = i' * w + w + w + j' + 2 := by omega
  have e2 : (i' + 1) * w + (j' + 1) + w = i' * w + w + w + j' + 1 := by omega
  have e3 : (i' + 1) * w + (j' + 1) + w - 1 = i' * w + w + w + j' := by omega
  have e4 : (i' + 1) * w + (j' + 1) + 1 - w = i' * w + j' + 2 := by omega
  have e5 : (i' + 1) * w + (j' + 1) - w = i' * w + j' + 1 := by omega
  have e6 : (i' + 1) * w + (j' + 1) - w - 1 = i' * w + j' := by omega
  have f1 : (i' + 1 + 1) * w + (j' + 1 - 1) = i' * w + w + w + j' := by omega
  have f2 : (i' + 1 + 1) * w + (j' + 1) = i' * w + w + w + j' + 1 := by omega
  have f3 : (i' + 1 + 1) * w + (j' + 1 + 1) = i' * w + w + w + j' + 2 := by omega
  have f4 : (i' + 1 - 1) * w + (j' + 1 - 1) = i' * w + j' := by
    rw [Nat.add_sub_cancel, Nat.add_sub_cancel]
  have f5 : (i' + 1 - 1) * w + (j' + 1) = i' * w + j' + 1 := by
    rw [Nat.add_sub_cancel]; omega
  have f6 : (i' + 1 - 1) * w + (j' + 1 + 1) = i' * w + j' + 2 := by
    rw [Nat.add_sub_cancel]; omega
  rw [e1, e3, e2, e4, e6, e5, f1, f2, f3, f4, f5, f6,
    twiceOf_small d _ (hz _), twiceOf_small d _ (hz _)]
  have b1 := hz (i' * w + w + w + j' + 2)
  have b2 := hz (i' * w + w + w + j' + 1)
  have b3 := hz (i' * w + w + w + j')
  have b4 := hz (i' * w + j' + 2)
  have b5 := hz (i' * w + j' + 1)
  have b6 := hz (i' * w + j')
  unfold sampleOf
  rw [wrap16_of_small _ (by omega) (by omega)]
  ring

/-- C6 (amended), witness: a 5x5 image with samples below 100, at pixel (2,2). -/
theorem SobelEdges_Y_interior_witness :
    (SobelEdges sobelRampImage).outDataY (2 * sobelRampImage.width + 2)
      = sobelDirectY (ringZeroed sobelRampImage.width sobelRampImage.height
          sobelRampImage.data) sobelRampImage.width 2 2 :=
  SobelEdges_Y_interior sobelRampImage (by decide) (by decide)
    (fun k => by
      show (7 * k + 3) % 100 < 128
      omega)
    2 2 (by decide) (by decide) (by decide) (by decide)

theorem ringZeroed_zero_of_coords (data : Nat → Nat) (w h : Nat)
    (hzero : ∀ r c, r < h → c < w → (r = 1 ∨ r + 2 = h ∨ c = 1 ∨ c + 2 = w) →
      data (r * w + c) = 0)
    (q r c : Nat) (hq : q = r * w + c) (hc : c < w)
    (hlin : (1 ≤ r ∧ r + 2 ≤ h ∧ 1 ≤ c ∧ c + 2 ≤ w) →
      (r = 1 ∨ r + 2 = h ∨ c = 1 ∨ c + 2 = w)) :
    ringZeroed w h data q = 0 := by
  subst hq
  unfold ringZeroed
  by_cases hs : scanned w h (r * w + c)
  · rw [if_pos hs]
    have hs2 := (scanned_coords w h r c hc).1 hs
    exact hzero r c (by omega) hc (hlin hs2)
  · rw [if_neg hs]

theorem sobelYScatter_zero (d : Nat → Nat) (w k : Nat)
    (h1 : d (k + w + 1) = 0) (h2 : d (k + w) = 0) (h3 : d (k + w - 1) = 0)
    (h4 : d (k + 1 - w) = 0) (h5 : d (k - w) = 0) (h6 : d (k - w - 1) = 0) :
    sobelYScatter d w k = 0 := by
  unfold sobelYScatter sampleOf twiceOf
  rw [h1, h2, h3, h4, h5, h6]
  rfl

/-- C7 (as stated, refuted): on the 3x3 image with a single 1 at its centre,
`SobelEdges` leaves 1 in the top-left corner of the Y edge image and 1 in the
top-left corner of the X edge image. -/
theorem SobelEdges_ring_counterexample :
    sobelCentreImage.wf ∧ 3 ≤ sobelCentreImage.width ∧ 3 ≤ sobelCentreImage.height ∧
    (SobelEdges sobelCentreImage).outDataY (0 * 3 + 0) ≠ 0 ∧
    (SobelEdges sobelCentreImage).outDataX (0 * 3 + 0) ≠ 0 := by
  refine ⟨?_, by decide, by decide, by decide, by decide⟩
  intro k
  show (if k = 4 then 1 else 0) < 256
  split_ifs <;> omega

/-- C7 (amended): for every input image (`w >= 3`, `h >= 3`) whose samples in
row 1, row `h-2`, column 1 and column `w-2` are all zero, after `SobelEdges`
every pixel in the first row, last row, first column and last column of the Y
edge image is zero. -/
theorem SobelEdges_Y_ring_zero (img : Image8_t) (hw : 3 ≤ img.width) (hh : 3 ≤ img.height)
    (hzero : ∀ r c, r < img.height → c < img.width →
      (r = 1 ∨ r + 2 = img.height ∨ c = 1 ∨ c + 2 = img.width) →
      img.data (r * img.width + c) = 0)
    (i j : Nat) (hi : i < img.height) (hj : j < img.width)
    (hring : i = 0 ∨ i + 1 = img.height ∨ j = 0 ∨ j + 1 = img.width) :
    (SobelEdges img).outDataY (i * img.width + j) = 0 := by
  rw [SobelEdges_outDataY img hw (by omega)]
  have key := ringZeroed_zero_of_coords img.data img.width img.height hzero
  generalize ringZeroed img.width img.height img.data = d at key ⊢
  generalize img.width = w at hw hj hring key ⊢
  generalize img.height = h at hh hi hring key ⊢
  have m1 : (i + 1) * w = i * w + w := Nat.succ_mul i w
  have m2 : (i + 1 + 1) * w = i * w + w + w := by rw [Nat.succ_mul, Nat.succ_mul]
  have z1 : d (i * w + j + w + 1) = 0 := by
    by_cases hc : j + 1 < w
    · exact key _ (i + 1) (j + 1) (by omega) hc (by omega)
    · exact key _ (i + 1 + 1) 0 (by omega) (by omega) (by omega)
  have z2 : d (i * w + j + w) = 0 :=
    key _ (i + 1) j (by omega) hj (by omega)
  have z3 : d (i * w + j + w - 1) = 0 := by
    by_cases hc : 1 ≤ j
    · exact key _ (i + 1) (j - 1) (by omega) (by omega) (by omega)
    · exact key _ i (w - 1) (by omega) (by omega) (by omega)
  have z456 : d (i * w + j + 1 - w) = 0 ∧ d (i * w + j - w) = 0 ∧
      d (i * w + j - w - 1) = 0 := by
    rcases Nat.eq_zero_or_pos i with hi0 | hipos
    · subst hi0
      rw [Nat.zero_mul, Nat.zero_add]
      refine ⟨?_, ?_, ?_⟩
      · exact key _ 0 (j + 1 - w) (by omega) (by omega) (by omega)
      · exact key _ 0 (j - w) (by omega) (by omega) (by omega)
      · exact key _ 0 (j - w - 1) (by omega) (by omega) (by omega)
    · obtain ⟨i', rfl⟩ : ∃ i', i = i' + 1 := ⟨i - 1, by omega⟩
      have m0 : (i' + 1) * w = i' * w + w := Nat.succ_mul i' w
      refine ⟨?_, ?_, ?_⟩
      · by_cases hc : j + 1 < w
        · exact key _ i' (j + 1) (by omega) hc (by omega)
        · exact key _ (i' + 1) 0 (by omega) (by omega) (by omega)
      · exact key _ i' j (by omega) hj (by omega)
      · by_cases hc : 1 ≤ j
        · exact key _ i' (j - 1) (by omega) (by omega) (by omega)
        · rcases Nat.eq_zero_or_pos i' with hi0 | hipos'
          · subst hi0
            exact key _ 0 0 (by omega) (by omega) (by omega)
          · obtain ⟨i'', rfl⟩ : ∃ i'', i' = i'' + 1 := ⟨i' - 1, by omega⟩
            have m3 : (i'' + 1) * w = i'' * w + w := Nat.succ_mul i'' w
            have m4 : (i'' + 1 + 1) * w = i'' * w + w + w := by
              rw [Nat.succ_mul, Nat.succ_mul]
            exact key _ i'' (w - 1) (by omega) (by omega) (by omega)
  rw [sobelYScatter_zero d w _ z1 z2 z3 z456.1 z456.2.1 z456.2.2]
  rfl

/-- C7 (amended), witness: a 5x5 image that is zero except at its centre; the
corner pixel (0,0) of the Y edge image. -/
theorem SobelEdges_Y_ring_zero_witness :
    (SobelEdges sobelDotImage).outDataY (0 * sobelDotImage.width + 0) = 0 :=
  SobelEdges_Y_ring_zero sobelDotImage (by decide) (by decide)
    (fun r c hr hc hrc => by
      have hw : sobelDotImage.width = 5 := rfl
      have hh : sobelDotImage.height = 5 := rfl
      rw [hw] at hc hrc ⊢
      rw [hh] at hr hrc
      show (if r * 5 + c = 12 then 9 else 0) = 0
      have : r * 5 + c ≠ 12 := by omega
      rw [if_neg this])
    0 0 (by decide) (by decide) (Or.inl rfl)

/-! ## IntegralImage -/

theorem uadd_mod (a b : Nat) : uadd (a % SIZE_MOD) b = (a + b) % SIZE_MOD := by
  unfold uadd
  rw [Nat.add_mod, Nat.mod_mod, ← Nat.add_mod]

theorem uadd_mod_mod (a b : Nat) :
    uadd (a % SIZE_MOD) (b % SIZE_MOD) = (a + b) % SIZE_MOD := by
  unfold uadd
  rw [← Nat.add_mod]

theorem coords_unique (w r c r' c' : Nat) (hc : c < w) (hc' : c' < w)
    (h : r * w + c = r' * w + c') : r = r' ∧ c = c' := by
  have h1 := div_of_coords w r c hc
  have h2 := div_of_coords w r' c' hc'
  have h3 := mod_of_coords w r c hc
  have h4 := mod_of_coords w r' c' hc'
  rw [h] at h1 h3
  exact ⟨by omega, by omega⟩

theorem integralFirst_loop (data : Nat → Nat) (w : Nat) (outData : Nat → Nat) :
    ∀ n, 
      (loopN n (integralFirstStep data)
          { out := outData, ptrIn := 0, ptrOut := 0, ptrLast := 0, accum := 0 }).ptrIn = n ∧
      (loopN n (integralFirstStep data)
          { out := outData, ptrIn := 0, ptrOut := 0, ptrLast := 0, accum := 0 }).ptrOut = n ∧
      (loopN n (integralFirstStep data)
          { out := outData, ptrIn := 0, ptrOut := 0, ptrLast := 0, accum := 0 }).accum
        = rowSum data w 0 n % SIZE_MOD ∧
      ∀ c, c < n →
        (loopN n (integralFirstStep data)
          { out := outData, ptrIn := 0, ptrOut := 0, ptrLast := 0, accum := 0 }).out c
          = rectSum data w 0 c % SIZE_MOD := by
  intro n
  induction n with
  | zero => exact ⟨rfl, rfl, rfl, fun c hc => by omega⟩
  | succ n ih =>
    rw [loopN_succ_right]
    obtain ⟨h1, h2, h3, h4⟩ := ih
    generalize loopN n (integralFirstStep data)
      { out := outData, ptrIn := 0, ptrOut := 0, ptrLast := 0, accum := 0 } = s at h1 h2 h3 h4
    have hacc : uadd s.accum (data s.ptrIn) = rowSum data w 0 (n + 1) % SIZE_MOD := by
      rw [h3, h1, uadd_mod]
      simp only [rowSum, Nat.zero_mul, Nat.zero_add]
    refine ⟨?_, ?_, ?_, ?_⟩
    · show s.ptrIn + 1 = n + 1; omega
    · show s.ptrOut + 1 = n + 1; omega
    · exact hacc
    · intro c hc
      show store s.out s.ptrOut (uadd s.accum (data s.ptrIn)) c = _
      by_cases hcn : c = n
      · subst hcn
        rw [h2, store_eq, hacc]
        rfl
      · rw [store_ne _ _ _ _ (by omega)]
        exact h4 c (by omega)

theorem integralStep_loop (data : Nat → Nat) (w i : Nat) :
    ∀ n, n ≤ w → ∀ s, IntegralInv data w (i + 1) 0 s →
      IntegralInv data w (i + 1) n
          (loopN n (integralStep data)
            { out := s.out, ptrIn := s.ptrIn, ptrOut := s.ptrOut,
              ptrLast := s.ptrOut - w, accum := 0 }) ∧
      (loopN n (integralStep data)
            { out := s.out, ptrIn := s.ptrIn, ptrOut := s.ptrOut,
              ptrLast := s.ptrOut - w, accum := 0 }).ptrLast = i * w + n ∧
      (loopN n (integralStep data)
            { out := s.out, ptrIn := s.ptrIn, ptrOut := s.ptrOut,
              ptrLast := s.ptrOut - w, accum := 0 }).accum
        = rowSum data w (i + 1) n % SIZE_MOD := by
  intro n
  induction n with
  | zero =>
    intro _ s hs
    obtain ⟨h1, h2, h3⟩ := hs
    refine ⟨⟨h1, h2, h3⟩, ?_, rfl⟩
    show s.ptrOut - w = i * w + 0
    rw [h2, Nat.succ_mul]; omega
  | succ n ih =>
    intro hn s hs
    rw [loopN_succ_right]
    obtain ⟨⟨h1, h2, h3⟩, h4, h5⟩ := ih (by omega) s hs
    generalize loopN n (integralStep data)
      { out := s.out, ptrIn := s.ptrIn, ptrOut := s.ptrOut,
        ptrLast := s.ptrOut - w, accum := 0 } = u at h1 h2 h3 h4 h5
    have hacc : uadd u.accum (data u.ptrIn) = rowSum data w (i + 1) (n + 1) % SIZE_MOD := by
      rw [h5, h1, uadd_mod]
      rfl
    refine ⟨⟨?_, ?_, ?_⟩, ?_, hacc⟩
    · show u.ptrIn + 1 = (i + 1) * w + (n + 1); omega
    · show u.ptrOut + 1 = (i + 1) * w + (n + 1); omega
    · intro r c hc hrc
      show store u.out u.ptrOut (uadd (uadd u.accum (data u.ptrIn)) (u.out u.ptrLast))
        (r * w + c) = _
      by_cases hcell : r = i + 1 ∧ c = n
      · obtain ⟨rfl, rfl⟩ := hcell
        rw [h2, store_eq, hacc, h4, h3 i c hc (Or.inl (by omega)), uadd_mod_mod]
        congr 1
        simp only [rectSum]
        omega
      · have hne : r * w + c ≠ u.ptrOut := by
          rw [h2]
          intro heq
          have := coords_unique w r c (i + 1) n hc (by omega) heq
          exact hcell this
        rw [store_ne _ _ _ _ hne]
        apply h3 r c hc
        rcases hrc with hr | ⟨hr, hc2⟩
        · exact Or.inl hr
        · right
          refine ⟨hr, ?_⟩
          by_contra hlt
          exact hcell ⟨hr, by omega⟩
    · show u.ptrLast + 1 = i * w + (n + 1); omega

theorem integralRows (data : Nat → Nat) (w : Nat) (s0 : IntegralState)
    (h0 : IntegralInv data w 1 0 s0) :
    ∀ n, IntegralInv data w (n + 1) 0 (loopN n (integralRow data w) s0) := by
  intro n
  induction n with
  | zero => exact h0
  | succ n ih =>
    rw [loopN_succ_right]
    obtain ⟨⟨h1, h2, h3⟩, _, _⟩ :=
      integralStep_loop data w n w (le_refl w) _ ih
    refine ⟨?_, ?_, ?_⟩
    · exact h1.trans (by rw [Nat.succ_mul (n + 1)]; omega)
    · exact h2.trans (by rw [Nat.succ_mul (n + 1)]; omega)
    · intro r c hc hrc
      refine h3 r c hc ?_
      rcases hrc with hr | ⟨_, hc2⟩
      · by_cases hrn : r < n + 1
        · exact Or.inl hrn
        · exact Or.inr ⟨by omega, hc⟩
      · omega

/-- The integral image modulo the `size_t` range: every cell `(r, c)` of the
image holds the rectangle sum reduced modulo `2^64`. -/
theorem IntegralImage_mod (outData : Nat → Nat) (img : Image8_t) (hh : 1 ≤ img.height)
    (r c : Nat) (hr : r < img.height) (hc : c < img.width) :
    IntegralImage outData img (r * img.width + c)
      = rectSum img.data img.width r c % SIZE_MOD := by
  unfold IntegralImage
  obtain ⟨h1, h2, _, h4⟩ := integralFirst_loop img.data img.width outData img.width
  have h0 : IntegralInv img.data img.width 1 0
      (loopN img.width (integralFirstStep img.data)
        { out := outData, ptrIn := 0, ptrOut := 0, ptrLast := 0, accum := 0 }) := by
    refine ⟨by rw [h1]; omega, by rw [h2]; omega, ?_⟩
    intro r c hc hrc
    have hr0 : r = 0 := by omega
    subst hr0
    rw [Nat.zero_mul, Nat.zero_add]
    exact h4 c hc
  obtain ⟨_, _, h3⟩ := integralRows img.data img.width _ h0 (img.height - 1)
  exact h3 r c hc (Or.inl (by omega))

theorem rowSum_le (data : Nat → Nat) (w r : Nat) (hd : ∀ k, data k < 256) :
    ∀ n, rowSum data w r n ≤ 255 * n := by
  intro n
  induction n with
  | zero => exact Nat.le_refl 0
  | succ n ih =>
    have := hd (r * w + n)
    simp only [rowSum]
    omega

theorem rectSum_le (data : Nat → Nat) (w : Nat) (hd : ∀ k, data k < 256) (c : Nat) :
    ∀ r, rectSum data w r c ≤ 255 * ((r + 1) * (c + 1)) := by
  intro r
  induction r with
  | zero =>
    have := rowSum_le data w 0 hd (c + 1)
    simp only [rectSum]
    omega
  | succ r ih =>
    have := rowSum_le data w (r + 1) hd (c + 1)
    simp only [rectSum]
    have e : (r + 1 + 1) * (c + 1) = (r + 1) * (c + 1) + (c + 1) := Nat.succ_mul _ _
    rw [e]
    omega

/-- C10: for every 8-bit image with height >= 1 (its sample count times 255
within the `size_t` range) and every cell `(r, c)`, `IntegralImage` writes
`out(r, c)` = the sum of `in(i, j)` over all `0 <= i <= r`, `0 <= j <= c`. -/
theorem IntegralImage_rectSum (outData : Nat → Nat) (img : Image8_t) (hwf : img.wf)
    (hh : 1 ≤ img.height) (hsize : 255 * (img.height * img.width) < SIZE_MOD)
    (r c : Nat) (hr : r < img.height) (hc : c < img.width) :
    IntegralImage outData img (r * img.width + c) = rectSum img.data img.width r c := by
  rw [IntegralImage_mod outData img hh r c hr hc]
  apply Nat.mod_eq_of_lt
  have h1 := rectSum_le img.data img.width hwf c r
  have h2 : (r + 1) * (c + 1) ≤ img.height * img.width :=
    Nat.mul_le_mul (by omega) (by omega)
  omega

/-- C10, witness: the 3x2 image with samples `(10 * k + 1) % 64`, cell (1,2). -/
theorem IntegralImage_rectSum_witness :
    IntegralImage (fun _ => 0) integralTestImage (1 * integralTestImage.width + 2)
      = rectSum integralTestImage.data integralTestImage.width 1 2 :=
  IntegralImage_rectSum (fun _ => 0) integralTestImage
    (fun k => by
      show (10 * k + 1) % 64 < 256
      omega)
    (by decide) (by decide) 1 2 (by decide) (by decide)

/-! ## RegionErode33 and RegionDilate33 -/

theorem storeAt_neg {α : Type} (m : Nat → α) (a : Int) (v : α) (h : a < 0) :
    storeAt m a v = m := by
  funext k
  unfold storeAt
  have : (k : Int) ≠ a := by omega
  rw [if_neg this]

theorem erode33Step_eq (offset mark : Nat) :
    erode33Step offset mark = region33Step erode33Fires offset mark := rfl

theorem dilate33Step_eq (offset mark : Nat) :
    dilate33Step offset mark = region33Step dilate33Fires offset mark := rfl

theorem dilate33FirstStep_eq (offset mark : Nat) :
    dilate33FirstStep offset mark = region33Step dilate33Fires offset mark := by
  funext s
  unfold dilate33FirstStep region33Step
  by_cases h : (s.ptrImg : Int) - (offset : Int) ≥ 0
  · simp only [h, if_true]
  · simp only [h, if_false]
    rw [storeAt_neg _ _ _ (by omega)]

theorem morphOut_self (fires : Nat → Nat → Nat → Bool) (data : Nat → Nat)
    (w mark p q : Nat) (h : p ≤ q + w + 1) : morphOut fires data w mark p q = data q := by
  unfold morphOut
  rw [if_neg]
  rintro ⟨_, _, h3, _⟩
  omega

theorem mod_succ_row (w q : Nat) (h2 : q % w + 2 ≤ w) :
    (q + w + 1) % w = q % w + 1 := by
  have h := Nat.div_add_mod q w
  have e : q + w + 1 = (q / w + 1) * w + (q % w + 1) := by
    rw [Nat.succ_mul, Nat.mul_comm (q / w) w]; omega
  rw [e, mod_of_coords w _ _ (by omega)]

theorem morphOut_skip (fires : Nat → Nat → Nat → Bool) (data : Nat → Nat)
    (w mark p q : Nat) (hp : p % w < 2) :
    morphOut fires data w mark (p + 1) q = morphOut fires data w mark p q := by
  unfold morphOut
  apply if_congr _ rfl rfl
  constructor
  · rintro ⟨h1, h2, h3, h4⟩
    refine ⟨h1, h2, ?_, h4⟩
    have := mod_succ_row w q h2
    by_contra hlt
    have e : q + w + 1 = p := by omega
    rw [e] at this
    omega
  · rintro ⟨h1, h2, h3, h4⟩
    exact ⟨h1, h2, by omega, h4⟩

theorem region33Step_inv (fires : Nat → Nat → Nat → Bool) (data : Nat → Nat)
    (w mark r c : Nat) (s : MorphState) (hc2 : 2 ≤ c) (hcw : c < w)
    (hinv : MorphInv fires data w mark r c s) :
    MorphInv fires data w mark r (c + 1) (region33Step fires (w + 1) mark s) := by
  obtain ⟨h1, h2, h3, h4, h5, h6⟩ := hinv
  have hpix : s.img s.ptrImg = data (r * w + c) := by
    rw [h1, h6, morphOut_self _ _ _ _ _ _ (by omega)]
  have hreg : shiftIn (s.accum s.ptrAccum2) (s.img s.ptrImg) = colReg data w (r + 1) c := by
    rw [hpix, h4, h5 c hcw, if_neg (by omega)]
    rfl
  have ha0 : s.ptrAccum0 = c - 2 := by omega
  have ha1 : s.ptrAccum1 = c - 1 := by omega
  have hacc : ∀ j, j < w →
      store s.accum s.ptrAccum2 (shiftIn (s.accum s.ptrAccum2) (s.img s.ptrImg)) j
        = if j < c + 1 then colReg data w (r + 1) j else colReg data w r j := by
    intro j hj
    rw [hreg, h4]
    by_cases hjc : j = c
    · subst hjc
      rw [store_eq, if_pos (by omega)]
    · rw [store_ne _ _ _ _ hjc, h5 j hj]
      by_cases hlt : j < c
      · rw [if_pos hlt, if_pos (by omega)]
      · rw [if_neg hlt, if_neg (by omega)]
  refine ⟨?_, ?_, ?_, ?_, hacc, ?_⟩
  · show s.ptrImg + 1 = r * w + (c + 1); omega
  · show s.ptrAccum0 + 1 + 2 = c + 1; omega
  · show s.ptrAccum1 + 1 + 1 = c + 1; omega
  · show s.ptrAccum2 + 1 = c + 1; omega
  · intro q
    show (if fires
          (store s.accum s.ptrAccum2 (shiftIn (s.accum s.ptrAccum2) (s.img s.ptrImg))
            s.ptrAccum0)
          (store s.accum s.ptrAccum2 (shiftIn (s.accum s.ptrAccum2) (s.img s.ptrImg))
            s.ptrAccum1)
          (store s.accum s.ptrAccum2 (shiftIn (s.accum s.ptrAccum2) (s.img s.ptrImg))
            s.ptrAccum2) = true
        then storeAt s.img ((s.ptrImg : Int) - ((w + 1 : Nat) : Int)) mark else s.img) q = _
    rw [hacc s.ptrAccum0 (by omega), hacc s.ptrAccum1 (by omega), hacc s.ptrAccum2 (by omega),
      ha0, ha1, h4, if_pos (show c - 2 < c + 1 by omega), if_pos (show c - 1 < c + 1 by omega),
      if_pos (show c < c + 1 by omega), h1]
    by_cases hq : q + w + 1 = r * w + c
    · -- the pixel written by this step
      have hr : 1 ≤ r := by
        by_contra hr0
        have : r = 0 := by omega
        subst this
        omega
      obtain ⟨r', rfl⟩ : ∃ r', r = r' + 1 := ⟨r - 1, by omega⟩
      have hm : (r' + 1) * w = r' * w + w := Nat.succ_mul r' w
      have hq' : q = r' * w + (c - 1) := by omega
      have hdiv : q / w = r' := by rw [hq', div_of_coords w _ _ (by omega)]
      have hmod : q % w = c - 1 := by rw [hq', mod_of_coords w _ _ (by omega)]
      have hsub : c - 1 - 1 = c - 2 := by omega
      have hadd : c - 1 + 1 = c := by omega
      have hcond : (1 ≤ c - 1 ∧ c - 1 + 2 ≤ w ∧ q + w + 1 < (r' + 1) * w + (c + 1) ∧
          fires (colReg data w (r' + 2) (c - 2)) (colReg data w (r' + 2) (c - 1))
            (colReg data w (r' + 2) c) = true)
          ↔ fires (colReg data w (r' + 2) (c - 2)) (colReg data w (r' + 2) (c - 1))
            (colReg data w (r' + 2) c) = true := by
        constructor
        · rintro ⟨_, _, _, h⟩; exact h
        · intro h; exact ⟨by omega, by omega, by omega, h⟩
      unfold morphOut
      rw [hdiv, hmod, hsub, hadd, if_congr hcond rfl rfl]
      by_cases hf : fires (colReg data w (r' + 2) (c - 2)) (colReg data w (r' + 2) (c - 1))
            (colReg data w (r' + 2) c) = true
      · rw [if_pos hf, if_pos hf]
        unfold storeAt
        rw [if_pos (by omega)]
      · rw [if_neg hf, if_neg hf, h6]
        exact morphOut_self _ _ _ _ _ _ (by omega)
    · have hkeep : (if fires (colReg data w (r + 1) (c - 2)) (colReg data w (r + 1) (c - 1))
            (colReg data w (r + 1) c) = true
          then storeAt s.img (((r * w + c : Nat) : Int) - ((w + 1 : Nat) : Int)) mark
          else s.img) q = s.img q := by
        split_ifs
        · unfold storeAt
          rw [if_neg (by omega)]
        · rfl
      rw [hkeep, h6]
      unfold morphOut
      apply if_congr _ rfl rfl
      constructor
      · rintro ⟨a, b, c', d⟩; exact ⟨a, b, by omega, d⟩
      · rintro ⟨a, b, c', d⟩; exact ⟨a, b, by omega, d⟩

theorem region33Step_loop (fires : Nat → Nat → Nat → Bool) (data : Nat → Nat)
    (w mark r : Nat) :
    ∀ n c s, 2 ≤ c → c + n ≤ w → MorphInv fires data w mark r c s →
      MorphInv fires data w mark r (c + n) (loopN n (region33Step fires (w + 1) mark) s) := by
  intro n
  induction n with
  | zero => intro c s _ _ h; exact h
  | succ n ih =>
    intro c s hc hn hinv
    rw [loopN_succ]
    have h1 := region33Step_inv fires data w mark r c s hc (by omega) hinv
    have h2 := ih (c + 1) _ (by omega) (by omega) h1
    rwa [show c + (n + 1) = c + 1 + n by omega]

theorem morphRowStart_inv (fires : Nat → Nat → Nat → Bool) (data : Nat → Nat)
    (w mark r : Nat) (s : MorphState) (hw : 2 ≤ w)
    (hinv : MorphRowInv fires data w mark r s) :
    MorphInv fires data w mark r 2 (morphRowStart s) := by
  obtain ⟨h1, h2, h3⟩ := hinv
  have hp0 : s.img s.ptrImg = data (r * w + 0) := by
    rw [h1, h3, morphOut_self _ _ _ _ _ _ (by omega)]; rfl
  have hp1 : s.img (s.ptrImg + 1) = data (r * w + 1) := by
    rw [h1, h3, morphOut_self _ _ _ _ _ _ (by omega)]
  refine ⟨?_, rfl, rfl, rfl, ?_, ?_⟩
  · show s.ptrImg + 2 = r * w + 2; omega
  · intro j hj
    show store (store s.accum 0 (shiftIn (s.accum 0) (s.img s.ptrImg))) 1
      (shiftIn (store s.accum 0 (shiftIn (s.accum 0) (s.img s.ptrImg)) 1)
        (s.img (s.ptrImg + 1))) j = _
    rw [store_ne s.accum 0 1 _ (by omega), hp0, hp1, h2 0 (by omega), h2 1 (by omega)]
    by_cases hj1 : j = 1
    · subst hj1
      rw [store_eq, if_pos (by omega)]; rfl
    · rw [store_ne _ _ _ _ hj1]
      by_cases hj0 : j = 0
      · subst hj0
        rw [store_eq, if_pos (by omega)]; rfl
      · rw [store_ne _ _ _ _ hj0, if_neg (by omega), h2 j hj]
  · intro q
    show s.img q = _
    rw [h3, show r * w + 2 = r * w + 1 + 1 by omega,
      morphOut_skip fires data w mark (r * w + 1) q
        (by rw [mod_of_coords w r 1 (by omega)]; omega),
      morphOut_skip fires data w mark (r * w) q
        (by rw [Nat.mul_mod_left]; omega)]

theorem region33Row_inv (fires : Nat → Nat → Nat → Bool) (data : Nat → Nat)
    (w mark r : Nat) (s : MorphState) (hw : 2 ≤ w)
    (hinv : MorphRowInv fires data w mark r s) :
    MorphRowInv fires data w mark (r + 1) (region33Row fires w mark s) := by
  have h := region33Step_loop fires data w mark r (w - 2) 2 _ (le_refl 2) (by omega)
    (morphRowStart_inv fires data w mark r s hw hinv)
  rw [show 2 + (w - 2) = w by omega] at h
  obtain ⟨h1, _, _, _, h5, h6⟩ := h
  have e : (r + 1) * w = r * w + w := Nat.succ_mul r w
  refine ⟨?_, ?_, ?_⟩
  · exact h1.trans e.symm
  · intro j hj
    exact (h5 j hj).trans (if_pos hj)
  · intro q
    rw [e]
    exact h6 q

theorem region33Rows_inv (fires : Nat → Nat → Nat → Bool) (data : Nat → Nat)
    (w mark : Nat) (hw : 2 ≤ w) :
    ∀ n, MorphRowInv fires data w mark n
      (loopN n (region33Row fires w mark) (morphInit data)) := by
  intro n
  induction n with
  | zero =>
    refine ⟨?_, ?_, ?_⟩
    · show 0 = 0 * w; omega
    · intro j _; rfl
    · intro q
      show data q = _
      rw [morphOut_self _ _ _ _ _ _ (by omega)]
  | succ n ih =>
    rw [loopN_succ_right]
    exact region33Row_inv fires data w mark n _ hw ih

/-- The image left by `RegionErode33`, pixel by pixel. -/
theorem RegionErode33_data (img : Image8_t) (mark : Nat) (hw : 2 ≤ img.width) (q : Nat) :
    (RegionErode33 img mark).data q
      = morphOut erode33Fires img.data img.width mark (img.height * img.width) q := by
  have h := region33Rows_inv erode33Fires img.data img.width mark hw img.height
  exact h.2.2 q

/-- The image left by `RegionDilate33`, pixel by pixel. -/
theorem RegionDilate33_data (img : Image8_t) (mark : Nat) (hw : 2 ≤ img.width)
    (hh : 1 ≤ img.height) (q : Nat) :
    (RegionDilate33 img mark).data q
      = morphOut dilate33Fires img.data img.width mark (img.height * img.width) q := by
  have h := region33Rows_inv dilate33Fires img.data img.width mark hw img.height
  have e : loopN img.height (region33Row dilate33Fires img.width mark) (morphInit img.data)
      = loopN (img.height - 1) (dilate33Row img.width mark)
          (dilate33FirstRow img.width mark (morphInit img.data)) := by
    obtain ⟨n, hn⟩ : ∃ n, img.height = n + 1 := ⟨img.height - 1, by omega⟩
    rw [hn, loopN_succ, Nat.add_sub_cancel]
    have e1 : dilate33Row img.width mark = region33Row dilate33Fires img.width mark := by
      funext s; unfold dilate33Row region33Row; rw [dilate33Step_eq]
    have e2 : dilate33FirstRow img.width mark = region33Row dilate33Fires img.width mark := by
      funext s; unfold dilate33FirstRow region33Row; rw [dilate33FirstStep_eq]
    rw [e1, e2]
  rw [e] at h
  exact h.2.2 q

set_option maxRecDepth 100000 in
theorem lor_one_even : ∀ y, y < 128 → (2 * y) ||| 1 = 2 * y + 1 := by decide

theorem shiftIn_eq (a v : Nat) : shiftIn a v = (2 * a) % 256 + onBit v := by
  unfold shiftIn onBit
  rw [Nat.shiftLeft_eq]
  have e : a * 2 ^ 1 % 256 = 2 * (a % 128) := by omega
  rw [e, show 2 * a % 256 = 2 * (a % 128) by omega]
  split_ifs
  · exact lor_one_even (a % 128) (Nat.mod_lt a (by decide))
  · exact Nat.or_zero _

theorem onBit_le (v : Nat) : onBit v ≤ 1 := by
  unfold onBit; split_ifs <;> omega

theorem onBit_eq_one (v : Nat) : onBit v = 1 ↔ v ≠ 0 := by
  unfold onBit; split_ifs with h <;> simp [h]

theorem onBit_eq_zero (v : Nat) : onBit v = 0 ↔ v = 0 := by
  unfold onBit; split_ifs with h <;> simp_all

theorem colReg_lt (data : Nat → Nat) (w n j : Nat) : colReg data w n j < 256 := by
  cases n with
  | zero => exact Nat.zero_lt_succ _
  | succ n =>
    show shiftIn _ _ < 256
    rw [shiftIn_eq]
    have := onBit_le (data (n * w + j))
    omega

theorem colReg_mod8 (data : Nat → Nat) (w r j : Nat) :
    colReg data w (r + 2) j % 8
      = 4 * (if 1 ≤ r then onBit (data ((r - 1) * w + j)) else 0)
        + 2 * onBit (data (r * w + j)) + onBit (data ((r + 1) * w + j)) := by
  show shiftIn (shiftIn (colReg data w r j) (data (r * w + j))) (data ((r + 1) * w + j)) % 8 = _
  rw [shiftIn_eq, shiftIn_eq]
  have h1 := onBit_le (data (r * w + j))
  have h2 := onBit_le (data ((r + 1) * w + j))
  cases r with
  | zero =>
    rw [if_neg (by omega)]
    show (2 * (2 * 0 % 256 + _) % 256 + _) % 8 = _
    omega
  | succ r =>
    rw [if_pos (by omega), Nat.add_sub_cancel]
    show (2 * (2 * shiftIn (colReg data w r j) (data (r * w + j)) % 256 + _) % 256 + _) % 8 = _
    rw [shiftIn_eq]
    have h3 := onBit_le (data (r * w + j))
    omega

/-- The register of the column of offset `k`, two rows after the row of `k`
started, holds in its low three bits the pixels above, at and below `k`. -/
theorem colReg_at (data : Nat → Nat) (w k : Nat) (hw : 0 < w) :
    colReg data w (k / w + 2) (k % w) % 8
      = 4 * (if w ≤ k then onBit (data (k - w)) else 0) + 2 * onBit (data k)
        + onBit (data (k + w)) := by
  rw [colReg_mod8]
  have h := Nat.div_add_mod k w
  have e1 : k / w * w + k % w = k := by rw [Nat.mul_comm]; exact h
  have e2 : (k / w + 1) * w + k % w = k + w := by rw [Nat.succ_mul]; omega
  rw [e1, e2]
  by_cases hk : w ≤ k
  · have hd : 1 ≤ k / w := (Nat.one_le_div_iff hw).2 hk
    rw [if_pos hd, if_pos hk]
    obtain ⟨d, hd'⟩ : ∃ d, k / w = d + 1 := ⟨k / w - 1, by omega⟩
    have e3 : (k / w - 1) * w + k % w = k - w := by
      rw [hd'] at e1 ⊢
      rw [Nat.add_sub_cancel]
      rw [Nat.succ_mul] at e1
      omega
    rw [e3]
  · have hd : ¬ 1 ≤ k / w := by
      rw [Nat.one_le_div_iff hw]; exact hk
    rw [if_neg hd, if_neg hk]

theorem reg_full_iff (data : Nat → Nat) (w k : Nat) (hw : 0 < w) :
    colReg data w (k / w + 2) (k % w) % 8 = 7 ↔ colFull data w k := by
  rw [colReg_at data w k hw]
  unfold colFull
  have h1 := onBit_le (data k)
  have h2 := onBit_le (data (k + w))
  have h3 := onBit_le (data (k - w))
  rw [← onBit_eq_one (data k), ← onBit_eq_one (data (k + w)), ← onBit_eq_one (data (k - w))]
  split_ifs with hk
  · constructor
    · intro h; exact ⟨hk, by omega, by omega, by omega⟩
    · rintro ⟨_, a, b, c⟩; omega
  · constructor
    · intro h; omega
    · rintro ⟨a, _⟩; omega

theorem reg_any_iff (data : Nat → Nat) (w k : Nat) (hw : 0 < w) :
    colReg data w (k / w + 2) (k % w) % 8 ≠ 0 ↔ colAny data w k := by
  rw [colReg_at data w k hw]
  unfold colAny
  have h1 := onBit_le (data k)
  have h2 := onBit_le (data (k + w))
  have h3 := onBit_le (data (k - w))
  rw [← onBit_eq_one (data k), ← onBit_eq_one (data (k + w)), ← onBit_eq_one (data (k - w))]
  split_ifs with hk
  · constructor
    · intro h
      by_cases a : onBit (data (k - w)) = 1
      · exact Or.inl ⟨hk, a⟩
      · by_cases b : onBit (data k) = 1
        · exact Or.inr (Or.inl b)
        · exact Or.inr (Or.inr (by omega))
    · rintro (⟨_, a⟩ | a | a) <;> omega
  · constructor
    · intro h
      by_cases b : onBit (data k) = 1
      · exact Or.inr (Or.inl b)
      · exact Or.inr (Or.inr (by omega))
    · rintro (⟨a, _⟩ | a | a) <;> omega

theorem reg_mid_iff (data : Nat → Nat) (w k : Nat) (hw : 0 < w) :
    colReg data w (k / w + 2) (k % w) % 8 / 2 % 2 = 1 ↔ data k ≠ 0 := by
  rw [colReg_at data w k hw, ← onBit_eq_one (data k)]
  have h1 := onBit_le (data k)
  have h2 := onBit_le (data (k + w))
  have h3 := onBit_le (data (k - w))
  split_ifs <;> omega

set_option maxRecDepth 100000 in
theorem land_two_iff : ∀ a, a < 256 → (a &&& 2 ≠ 0 ↔ a % 8 / 2 % 2 = 1) := by decide

set_option maxRecDepth 100000 in
theorem land_seven_iff : ∀ a, a < 256 → (a &&& 7 ≠ 0 ↔ a % 8 ≠ 0) := by decide

set_option maxRecDepth 100000 in
theorem bitNot_two_iff : ∀ a, a < 256 → (bitNot a &&& 2 ≠ 0 ↔ ¬ a % 8 / 2 % 2 = 1) := by
  decide

set_option maxRecDepth 100000 in
theorem bitNot_seven_iff : ∀ a, a < 256 → (bitNot a &&& 7 ≠ 0 ↔ ¬ a % 8 = 7) := by decide

theorem erode33Fires_iff (a0 a1 a2 : Nat) (h0 : a0 < 256) (h1 : a1 < 256) (h2 : a2 < 256) :
    erode33Fires a0 a1 a2 = true
      ↔ a1 % 8 / 2 % 2 = 1 ∧ ¬ (a0 % 8 = 7 ∧ a1 % 8 = 7 ∧ a2 % 8 = 7) := by
  unfold erode33Fires
  rw [decide_eq_true_iff, land_two_iff a1 h1, bitNot_seven_iff a0 h0, bitNot_seven_iff a1 h1,
    bitNot_seven_iff a2 h2]
  tauto

theorem dilate33Fires_iff (a0 a1 a2 : Nat) (h0 : a0 < 256) (h1 : a1 < 256) (h2 : a2 < 256) :
    dilate33Fires a0 a1 a2 = true
      ↔ ¬ a1 % 8 / 2 % 2 = 1 ∧ (a0 % 8 ≠ 0 ∨ a1 % 8 ≠ 0 ∨ a2 % 8 ≠ 0) := by
  unfold dilate33Fires
  rw [decide_eq_true_iff, bitNot_two_iff a1 h1, land_seven_iff a0 h0, land_seven_iff a1 h1,
    land_seven_iff a2 h2]
  tauto

theorem div_mod_pred (w q : Nat) (hw : 0 < w) (h : 1 ≤ q % w) :
    (q - 1) / w = q / w ∧ (q - 1) % w = q % w - 1 := by
  have hm := Nat.mod_lt q hw
  have e : q - 1 = q / w * w + (q % w - 1) := by
    have := Nat.div_add_mod q w
    rw [Nat.mul_comm] at this
    omega
  constructor
  · conv_lhs => rw [e]
    exact div_of_coords w _ _ (by omega)
  · conv_lhs => rw [e]
    exact mod_of_coords w _ _ (by omega)

theorem div_mod_succ (w q : Nat) (h : q % w + 2 ≤ w) :
    (q + 1) / w = q / w ∧ (q + 1) % w = q % w + 1 := by
  have e : q + 1 = q / w * w + (q % w + 1) := by
    have := Nat.div_add_mod q w
    rw [Nat.mul_comm] at this
    omega
  constructor
  · conv_lhs => rw [e]
    exact div_of_coords w _ _ (by omega)
  · conv_lhs => rw [e]
    exact mod_of_coords w _ _ (by omega)

theorem erode33Fires_window (data : Nat → Nat) (w q : Nat) (h1 : 1 ≤ q % w)
    (h2 : q % w + 2 ≤ w) :
    erode33Fires (colReg data w (q / w + 2) (q % w - 1)) (colReg data w (q / w + 2) (q % w))
        (colReg data w (q / w + 2) (q % w + 1)) = true
      ↔ data q ≠ 0 ∧
        ¬ (colFull data w (q - 1) ∧ colFull data w q ∧ colFull data w (q + 1)) := by
  have hw : 0 < w := by omega
  obtain ⟨p1, p2⟩ := div_mod_pred w q hw h1
  obtain ⟨s1, s2⟩ := div_mod_succ w q h2
  have ea : colReg data w (q / w + 2) (q % w - 1)
      = colReg data w ((q - 1) / w + 2) ((q - 1) % w) := by rw [p1, p2]
  have ec : colReg data w (q / w + 2) (q % w + 1)
      = colReg data w ((q + 1) / w + 2) ((q + 1) % w) := by rw [s1, s2]
  rw [erode33Fires_iff _ _ _ (colReg_lt _ _ _ _) (colReg_lt _ _ _ _) (colReg_lt _ _ _ _),
    ea, ec, reg_full_iff data w (q - 1) hw, reg_full_iff data w q hw,
    reg_full_iff data w (q + 1) hw, reg_mid_iff data w q hw]

theorem dilate33Fires_window (data : Nat → Nat) (w q : Nat) (h1 : 1 ≤ q % w)
    (h2 : q % w + 2 ≤ w) :
    dilate33Fires (colReg data w (q / w + 2) (q % w - 1)) (colReg data w (q / w + 2) (q % w))
        (colReg data w (q / w + 2) (q % w + 1)) = true
      ↔ data q = 0 ∧
        (colAny data w (q - 1) ∨ colAny data w q ∨ colAny data w (q + 1)) := by
  have hw : 0 < w := by omega
  obtain ⟨p1, p2⟩ := div_mod_pred w q hw h1
  obtain ⟨s1, s2⟩ := div_mod_succ w q h2
  have ea : colReg data w (q / w + 2) (q % w - 1)
      = colReg data w ((q - 1) / w + 2) ((q - 1) % w) := by rw [p1, p2]
  have ec : colReg data w (q / w + 2) (q % w + 1)
      = colReg data w ((q + 1) / w + 2) ((q + 1) % w) := by rw [s1, s2]
  rw [dilate33Fires_iff _ _ _ (colReg_lt _ _ _ _) (colReg_lt _ _ _ _) (colReg_lt _ _ _ _),
    ea, ec, reg_any_iff data w (q - 1) hw, reg_any_iff data w q hw,
    reg_any_iff data w (q + 1) hw, reg_mid_iff data w q hw, not_not]

/-- The image held by `RegionErode33` in window terms: a pixel is marked when it
is writable, non-zero, and some pixel of its 3x3 window is zero or lies above
the image. -/
theorem morphOut_erode (data : Nat → Nat) (w mark p q : Nat) :
    morphOut erode33Fires data w mark p q
      = if 1 ≤ q % w ∧ q % w + 2 ≤ w ∧ q + w + 1 < p ∧ data q ≠ 0 ∧
            ¬ (colFull data w (q - 1) ∧ colFull data w q ∧ colFull data w (q + 1))
        then mark else data q := by
  unfold morphOut
  apply if_congr _ rfl rfl
  constructor
  · rintro ⟨h1, h2, h3, h4⟩
    exact ⟨h1, h2, h3, (erode33Fires_window data w q h1 h2).1 h4⟩
  · rintro ⟨h1, h2, h3, h4⟩
    exact ⟨h1, h2, h3, (erode33Fires_window data w q h1 h2).2 h4⟩

/-- The image held by `RegionDilate33` in window terms: a pixel is marked when
it is writable, zero, and some pixel of its 3x3 window inside the image is
non-zero. -/
theorem morphOut_dilate (data : Nat → Nat) (w mark p q : Nat) :
    morphOut dilate33Fires data w mark p q
      = if 1 ≤ q % w ∧ q % w + 2 ≤ w ∧ q + w + 1 < p ∧ data q = 0 ∧
            (colAny data w (q - 1) ∨ colAny data w q ∨ colAny data w (q + 1))
        then mark else data q := by
  unfold morphOut
  apply if_congr _ rfl rfl
  constructor
  · rintro ⟨h1, h2, h3, h4⟩
    exact ⟨h1, h2, h3, (dilate33Fires_window data w q h1 h2).1 h4⟩
  · rintro ⟨h1, h2, h3, h4⟩
    exact ⟨h1, h2, h3, (dilate33Fires_window data w q h1 h2).2 h4⟩

/-- The result of `RegionErode33` in window terms. -/
theorem RegionErode33_window (img : Image8_t) (mark : Nat) (hw : 2 ≤ img.width) (q : Nat) :
    (RegionErode33 img mark).data q
      = if inRegion img.width img.height q ∧ img.data q ≠ 0 ∧
            ¬ (colFull img.data img.width (q - 1) ∧ colFull img.data img.width q ∧
               colFull img.data img.width (q + 1))
        then mark else img.data q := by
  rw [RegionErode33_data img mark hw q, morphOut_erode]
  unfold inRegion
  apply if_congr _ rfl rfl
  tauto

/-- The result of `RegionDilate33` in window terms. -/
theorem RegionDilate33_window (img : Image8_t) (mark : Nat) (hw : 2 ≤ img.width)
    (hh : 1 ≤ img.height) (q : Nat) :
    (RegionDilate33 img mark).data q
      = if inRegion img.width img.height q ∧ img.data q = 0 ∧
            (colAny img.data img.width (q - 1) ∨ colAny img.data img.width q ∨
             colAny img.data img.width (q + 1))
        then mark else img.data q := by
  rw [RegionDilate33_data img mark hw hh q, morphOut_dilate]
  unfold inRegion
  apply if_congr _ rfl rfl
  tauto

theorem inRegion_coords (w h r c : Nat) (hc : c < w) :
    inRegion w h (r * w + c) ↔ (1 ≤ c ∧ c + 2 ≤ w ∧ r + 2 ≤ h) := by
  unfold inRegion
  rw [mod_of_coords w r c hc]
  constructor
  · rintro ⟨h1, h2, h3⟩
    refine ⟨h1, h2, ?_⟩
    by_contra hlt
    have : h ≤ r + 1 := by omega
    have := Nat.mul_le_mul_right w this
    rw [Nat.succ_mul] at this
    omega
  · rintro ⟨h1, h2, h3⟩
    refine ⟨h1, h2, ?_⟩
    have := Nat.mul_le_mul_right w h3
    rw [Nat.add_mul] at this
    omega

theorem data_of_eq (data : Nat → Nat) (a b : Nat) (h : data a ≠ 0) (e : a = b) :
    data b ≠ 0 := e ▸ h

theorem inRegion_pos (w h n : Nat) (hin : inRegion w h n) : 1 ≤ n := by
  have := Nat.mod_le n w
  have := hin.1
  omega

theorem not_inRegion_border (w h n : Nat) (hw : 0 < w) (hn : n < h * w)
    (hout : ¬ inRegion w h n) :
    n / w < h ∧ n % w < w ∧ (n % w = 0 ∨ n % w + 1 = w ∨ n / w + 1 = h) := by
  have hr : n / w < h := Nat.div_lt_of_lt_mul (by rwa [Nat.mul_comm] at hn)
  have hc : n % w < w := Nat.mod_lt n hw
  refine ⟨hr, hc, ?_⟩
  have e : n / w * w + n % w = n := by
    rw [Nat.mul_comm]; exact Nat.div_add_mod n w
  rw [← e, inRegion_coords w h (n / w) (n % w) hc] at hout
  omega

/-- A pixel that `RegionErode33` with mark 0 leaves non-zero, in an image whose
first column, last column and last row are zero, has a whole 3x3 window of
non-zero pixels around it in the input. -/
theorem erode_nonzero_window (img : Image8_t) (hw : 2 ≤ img.width)
    (hb : ∀ n, n < img.height * img.width → ¬ inRegion img.width img.height n →
      img.data n = 0)
    (n : Nat) (hn : n < img.height * img.width)
    (hE : (RegionErode33 img 0).data n ≠ 0) :
    img.width + 1 ≤ n ∧
    img.data (n - 1 - img.width) ≠ 0 ∧ img.data (n - 1) ≠ 0 ∧
    img.data (n - 1 + img.width) ≠ 0 ∧
    img.data (n - img.width) ≠ 0 ∧ img.data n ≠ 0 ∧ img.data (n + img.width) ≠ 0 ∧
    img.data (n + 1 - img.width) ≠ 0 ∧ img.data (n + 1) ≠ 0 ∧
    img.data (n + 1 + img.width) ≠ 0 := by
  rw [RegionErode33_window img 0 hw n] at hE
  by_cases hin : inRegion img.width img.height n
  · by_cases hcond : img.data n ≠ 0 ∧
        ¬ (colFull img.data img.width (n - 1) ∧ colFull img.data img.width n ∧
           colFull img.data img.width (n + 1))
    · rw [if_pos ⟨hin, hcond⟩] at hE
      exact absurd rfl hE
    · rw [if_neg (fun h => hcond h.2)] at hE
      have hfull : colFull img.data img.width (n - 1) ∧ colFull img.data img.width n ∧
           colFull img.data img.width (n + 1) := by
        by_contra hnot
        exact hcond ⟨hE, hnot⟩
      obtain ⟨⟨a0, a1, a2, a3⟩, ⟨b0, b1, b2, b3⟩, ⟨c0, c1, c2, c3⟩⟩ := hfull
      exact ⟨by omega, a1, a2, a3, b1, b2, b3, c1, c2, c3⟩
  · rw [if_neg (fun h => hin h.1)] at hE
    exact absurd (hb n hn hin) hE

theorem erode_zero_nonzero (img : Image8_t) (hw : 2 ≤ img.width) (n : Nat)
    (hE : (RegionErode33 img 0).data n ≠ 0) : img.data n ≠ 0 := by
  rw [RegionErode33_window img 0 hw n] at hE
  split_ifs at hE
  · exact absurd rfl hE
  · exact hE

/-- Opening with zero borders, by offsets: a pixel that is non-zero after
`RegionErode33` with mark 0 and `RegionDilate33` was non-zero before. -/
theorem opening_core (img : Image8_t) (mark : Nat) (hw : 2 ≤ img.width)
    (hh : 1 ≤ img.height)
    (hb : ∀ n, n < img.height * img.width → ¬ inRegion img.width img.height n →
      img.data n = 0)
    (q : Nat)
    (hnz : (RegionDilate33 (RegionErode33 img 0) mark).data q ≠ 0) :
    img.data q ≠ 0 := by
  have hD := RegionDilate33_window (RegionErode33 img 0) mark hw hh q
  have ew : (RegionErode33 img 0).width = img.width := rfl
  have eh : (RegionErode33 img 0).height = img.height := rfl
  rw [ew, eh] at hD
  rw [hD] at hnz
  by_cases hcond : inRegion img.width img.height q ∧ (RegionErode33 img 0).data q = 0 ∧
      (colAny (RegionErode33 img 0).data img.width (q - 1) ∨
       colAny (RegionErode33 img 0).data img.width q ∨
       colAny (RegionErode33 img 0).data img.width (q + 1))
  · obtain ⟨hin, _, hany⟩ := hcond
    have hq1 := inRegion_pos _ _ _ hin
    have hlt := hin.2.2
    have key := fun n hn hE => erode_nonzero_window img hw hb n hn hE
    rcases hany with (⟨h1, h2⟩ | h2 | h2) | (⟨h1, h2⟩ | h2 | h2) | (⟨h1, h2⟩ | h2 | h2)
    · obtain ⟨k0, _, _, _, _, _, _, _, _, k9⟩ := key _ (by omega) h2
      exact data_of_eq _ _ _ k9 (by omega)
    · obtain ⟨k0, _, _, _, _, _, _, _, k8, _⟩ := key _ (by omega) h2
      exact data_of_eq _ _ _ k8 (by omega)
    · obtain ⟨k0, _, _, _, _, _, _, k7, _, _⟩ := key _ (by omega) h2
      exact data_of_eq _ _ _ k7 (by omega)
    · obtain ⟨k0, _, _, _, _, _, k6, _, _, _⟩ := key _ (by omega) h2
      exact data_of_eq _ _ _ k6 (by omega)
    · obtain ⟨k0, _, _, _, _, k5, _, _, _, _⟩ := key _ (by omega) h2
      exact k5
    · obtain ⟨k0, _, _, _, k4, _, _, _, _, _⟩ := key _ (by omega) h2
      exact data_of_eq _ _ _ k4 (by omega)
    · obtain ⟨k0, _, _, k3, _, _, _, _, _, _⟩ := key _ (by omega) h2
      exact data_of_eq _ _ _ k3 (by omega)
    · obtain ⟨k0, _, k2, _, _, _, _, _, _, _⟩ := key _ (by omega) h2
      exact data_of_eq _ _ _ k2 (by omega)
    · obtain ⟨k0, k1, _, _, _, _, _, _, _, _⟩ := key _ (by omega) h2
      exact data_of_eq _ _ _ k1 (by omega)
  · rw [if_neg hcond] at hnz
    exact erode_zero_nonzero img hw q hnz

set_option maxRecDepth 100000 in
/-- C8 (as stated, refuted): on the 3x2 image whose only non-zero pixel is at
row 1, column 1, erosion with mark 0 changes nothing and the dilation then
marks the pixel at row 0, column 1, which was zero in the original. -/
theorem opening_counterexample :
    openTestImage.wf ∧ 3 ≤ openTestImage.width ∧ 2 ≤ openTestImage.height ∧
    (RegionDilate33 (RegionErode33 openTestImage 0) 255).data (0 * 3 + 1) ≠ 0 ∧
    openTestImage.data (0 * 3 + 1) = 0 := by
  refine ⟨?_, by decide, by decide, by decide, by decide⟩
  intro k
  show (if k = 4 then 255 else 0) < 256
  split_ifs <;> omega

/-- C8 (amended): for every 8-bit image (`w >= 3`, `h >= 2`) whose first column,
last column and last row are zero, after `RegionErode33` with mark 0 followed by
`RegionDilate33` with a non-zero mark, every pixel that is non-zero in the
result was non-zero in the original image. -/
theorem opening_adds_nothing (img : Image8_t) (mark : Nat) (hw : 3 ≤ img.width)
    (hh : 2 ≤ img.height) (hmark : mark ≠ 0)
    (hborder : ∀ r c, r < img.height → c < img.width →
      (c = 0 ∨ c + 1 = img.width ∨ r + 1 = img.height) → img.data (r * img.width + c) = 0)
    (r c : Nat) (hr : r < img.height) (hc : c < img.width)
    (hnz : (RegionDilate33 (RegionErode33 img 0) mark).data (r * img.width + c) ≠ 0) :
    img.data (r * img.width + c) ≠ 0 := by
  apply opening_core img mark (by omega) (by omega) _ _ hnz
  intro n hn hout
  obtain ⟨h1, h2, h3⟩ := not_inRegion_border img.width img.height n (by omega) hn hout
  have e : n / img.width * img.width + n % img.width = n := by
    rw [Nat.mul_comm]; exact Nat.div_add_mod n img.width
  rw [← e]
  exact hborder _ _ h1 h2 h3

set_option maxRecDepth 100000 in
/-- C8 (amended), witness: the 5x5 image with a 3x3 block of 255 at its centre,
at pixel (2,2). -/
theorem opening_adds_nothing_witness : blockImage.data (2 * blockImage.width + 2) ≠ 0 :=
  opening_adds_nothing blockImage 255 (by decide) (by decide) (by decide)
    (fun r c hr hc hrc => by
      have hw : blockImage.width = 5 := rfl
      have hh : blockImage.height = 5 := rfl
      rw [hw] at hc hrc ⊢
      rw [hh] at hr hrc
      show (if 6 ≤ r * 5 + c ∧ r * 5 + c ≤ 18 ∧ 1 ≤ (r * 5 + c) % 5 ∧ (r * 5 + c) % 5 ≤ 3
        then 255 else 0) = 0
      rw [if_neg]
      omega)
    2 2 (by decide) (by decide) (by decide)

/-- A pixel that `RegionDilate33` can write and that has a non-zero pixel of the
input in its 3x3 window is non-zero afterwards. -/
theorem dilate_on_near (img : Image8_t) (mark : Nat) (hw : 2 ≤ img.width)
    (hh : 1 ≤ img.height) (hmark : mark ≠ 0) (n q : Nat)
    (hin : inRegion img.width img.height n) (hq : img.data q ≠ 0)
    (hnear : (q = n - 1 - img.width ∧ img.width + 1 ≤ n) ∨ (q = n - img.width ∧ img.width ≤ n) ∨
      (q = n + 1 - img.width ∧ img.width ≤ n) ∨ q = n - 1 ∨ q = n ∨ q = n + 1 ∨
      q = n + img.width - 1 ∨ q = n + img.width ∨ q = n + img.width + 1) :
    (RegionDilate33 img mark).data n ≠ 0 := by
  rw [RegionDilate33_window img mark hw hh n]
  have hn1 := inRegion_pos _ _ _ hin
  split_ifs with hcond
  · exact hmark
  · intro h0
    apply hcond
    refine ⟨hin, h0, ?_⟩
    rcases hnear with ⟨e, h⟩ | ⟨e, h⟩ | ⟨e, h⟩ | e | e | e | e | e | e
    · left; left; exact ⟨by omega, data_of_eq _ _ _ hq e⟩
    · right; left; left; exact ⟨h, data_of_eq _ _ _ hq e⟩
    · right; right; left; exact ⟨by omega, data_of_eq _ _ _ hq e⟩
    · left; right; left; exact data_of_eq _ _ _ hq e
    · right; left; right; left; exact data_of_eq _ _ _ hq e
    · right; right; right; left; exact data_of_eq _ _ _ hq e
    · left; right; right; exact data_of_eq _ _ _ hq (by omega)
    · right; left; right; right; exact data_of_eq _ _ _ hq e
    · right; right; right; right; exact data_of_eq _ _ _ hq (by omega)

set_option maxRecDepth 100000 in
/-- C9 (as stated, refuted): on the 3x3 image whose only non-zero pixel is its
centre, dilation followed by erosion with mark 0 clears the centre, which lies
in no border row or column. -/
theorem closing_counterexample :
    closeTestImage.wf ∧ 3 ≤ closeTestImage.width ∧ 2 ≤ closeTestImage.height ∧
    closeTestImage.data (1 * 3 + 1) ≠ 0 ∧
    (RegionErode33 (RegionDilate33 closeTestImage 255) 0).data (1 * 3 + 1) = 0 := by
  refine ⟨?_, by decide, by decide, by decide, by decide⟩
  intro k
  show (if k = 4 then 255 else 0) < 256
  split_ifs <;> omega

/-- C9 (amended): for every 8-bit image (`w >= 3`, `h >= 2`), after
`RegionDilate33` with a non-zero mark followed by `RegionErode33` with mark 0,
every pixel that was non-zero in the original and lies neither in the first row,
nor in the last two rows, nor in the first two or last two columns is still
non-zero. -/
theorem closing_keeps_interior (img : Image8_t) (mark : Nat) (hw : 3 ≤ img.width)
    (hh : 2 ≤ img.height) (hmark : mark ≠ 0) (r c : Nat)
    (hr1 : 1 ≤ r) (hr2 : r + 3 ≤ img.height) (hc1 : 2 ≤ c) (hc2 : c + 3 ≤ img.width)
    (hon : img.data (r * img.width + c) ≠ 0) :
    (RegionErode33 (RegionDilate33 img mark) 0).data (r * img.width + c) ≠ 0 := by
  have hE := RegionErode33_window (RegionDilate33 img mark) 0 (by exact (by omega : 2 ≤ img.width))
    (r * img.width + c)
  have ew : (RegionDilate33 img mark).width = img.width := rfl
  have eh : (RegionDilate33 img mark).height = img.height := rfl
  rw [ew, eh] at hE
  rw [hE]
  obtain ⟨r', rfl⟩ : ∃ r', r = r' + 1 := ⟨r - 1, by omega⟩
  have m1 : (r' + 1) * img.width = r' * img.width + img.width := Nat.succ_mul _ _
  have m2 : (r' + 2) * img.width = r' * img.width + img.width + img.width := by
    rw [show r' + 2 = r' + 1 + 1 by omega, Nat.succ_mul, Nat.succ_mul]
  have key := fun n hin hnear =>
    dilate_on_near img mark (by omega) (by omega) hmark n ((r' + 1) * img.width + c) hin hon hnear
  have reg : ∀ f e, f ≤ 2 → e ≤ 2 →
      inRegion img.width img.height ((r' + f) * img.width + (c + e - 1)) := by
    intro f e hf he
    rw [inRegion_coords _ _ _ _ (by omega)]
    omega
  have n00 := key (r' * img.width + (c - 1))
    (by have := reg 0 0 (by omega) (by omega); rwa [show c + 0 - 1 = c - 1 by omega] at this)
    (by omega)
  have n01 := key (r' * img.width + c)
    (by have := reg 0 1 (by omega) (by omega); rwa [show c + 1 - 1 = c by omega] at this)
    (by omega)
  have n02 := key (r' * img.width + (c + 1))
    (by have := reg 0 2 (by omega) (by omega); rwa [show c + 2 - 1 = c + 1 by omega] at this)
    (by omega)
  have n10 := key ((r' + 1) * img.width + (c - 1))
    (by have := reg 1 0 (by omega) (by omega); rwa [show c + 0 - 1 = c - 1 by omega] at this)
    (by omega)
  have n11 := key ((r' + 1) * img.width + c)
    (by have := reg 1 1 (by omega) (by omega); rwa [show c + 1 - 1 = c by omega] at this)
    (by omega)
  have n12 := key ((r' + 1) * img.width + (c + 1))
    (by have := reg 1 2 (by omega) (by omega); rwa [show c + 2 - 1 = c + 1 by omega] at this)
    (by omega)
  have n20 := key ((r' + 2) * img.width + (c - 1))
    (by have := reg 2 0 (by omega) (by omega); rwa [show c + 0 - 1 = c - 1 by omega] at this)
    (by omega)
  have n21 := key ((r' + 2) * img.width + c)
    (by have := reg 2 1 (by omega) (by omega); rwa [show c + 1 - 1 = c by omega] at this)
    (by omega)
  have n22 := key ((r' + 2) * img.width + (c + 1))
    (by have := reg 2 2 (by omega) (by omega); rwa [show c + 2 - 1 = c + 1 by omega] at this)
    (by omega)
  have full : colFull (RegionDilate33 img mark).data img.width ((r' + 1) * img.width + c - 1) ∧
      colFull (RegionDilate33 img mark).data img.width ((r' + 1) * img.width + c) ∧
      colFull (RegionDilate33 img mark).data img.width ((r' + 1) * img.width + c + 1) := by
    refine ⟨⟨by omega, ?_, ?_, ?_⟩, ⟨by omega, ?_, ?_, ?_⟩, ⟨by omega, ?_, ?_, ?_⟩⟩
    · exact data_of_eq _ _ _ n00 (by omega)
    · exact data_of_eq _ _ _ n10 (by omega)
    · exact data_of_eq _ _ _ n20 (by omega)
    · exact data_of_eq _ _ _ n01 (by omega)
    · exact n11
    · exact data_of_eq _ _ _ n21 (by omega)
    · exact data_of_eq _ _ _ n02 (by omega)
    · exact data_of_eq _ _ _ n12 (by omega)
    · exact data_of_eq _ _ _ n22 (by omega)
  rw [if_neg (fun h => h.2.2 full)]
  exact n11

set_option maxRecDepth 100000 in
/-- C9 (amended), witness: the 7x5 image whose only non-zero pixel is at row 1,
column 3. -/
theorem closing_keeps_interior_witness :
    (RegionErode33 (RegionDilate33 dotImage75 255) 0).data (1 * dotImage75.width + 3) ≠ 0 :=
  closing_keeps_interior dotImage75 255 (by decide) (by decide) (by decide) 1 3
    (by decide) (by decide) (by decide) (by decide) (by decide)

/-! ## ImageHistogram: the cumulative arrays -/

theorem cumStep_loop (bins sum0 mean0 : Nat → Nat) :
    ∀ k,
      (loopN k (cumStep bins)
        { sumBins := sum0, meanBins := mean0, accumSum := 0, accumMean := 0, i := 0 }).i = k ∧
      (k = 0 →
        (loopN k (cumStep bins)
          { sumBins := sum0, meanBins := mean0, accumSum := 0, accumMean := 0,
            i := 0 }).accumSum = 0 ∧
        (loopN k (cumStep bins)
          { sumBins := sum0, meanBins := mean0, accumSum := 0, accumMean := 0,
            i := 0 }).accumMean = 0) ∧
      (∀ j, j + 1 = k →
        (loopN k (cumStep bins)
          { sumBins := sum0, meanBins := mean0, accumSum := 0, accumMean := 0,
            i := 0 }).accumSum = cumSum bins j % SIZE_MOD ∧
        (loopN k (cumStep bins)
          { sumBins := sum0, meanBins := mean0, accumSum := 0, accumMean := 0,
            i := 0 }).accumMean = cumMean bins j % SIZE_MOD) ∧
      ∀ j, j < k →
        (loopN k (cumStep bins)
          { sumBins := sum0, meanBins := mean0, accumSum := 0, accumMean := 0,
            i := 0 }).sumBins j = cumSum bins j % SIZE_MOD ∧
        (loopN k (cumStep bins)
          { sumBins := sum0, meanBins := mean0, accumSum := 0, accumMean := 0,
            i := 0 }).meanBins j = cumMean bins j % SIZE_MOD := by
  intro k
  induction k with
  | zero =>
    refine ⟨rfl, fun _ => ⟨rfl, rfl⟩, fun j hj => by omega, fun j hj => by omega⟩
  | succ k ih =>
    rw [loopN_succ_right]
    obtain ⟨h1, h2, h3, h4⟩ := ih
    generalize loopN k (cumStep bins)
      { sumBins := sum0, meanBins := mean0, accumSum := 0, accumMean := 0, i := 0 } = s
      at h1 h2 h3 h4
    have hs : uadd s.accumSum (bins s.i) = cumSum bins k % SIZE_MOD := by
      rw [h1]
      cases k with
      | zero =>
        rw [(h2 rfl).1]
        unfold uadd
        rw [Nat.zero_add]
        rfl
      | succ k =>
        rw [(h3 k rfl).1, uadd_mod]
        rfl
    have hm : uadd s.accumMean (umul s.i (bins s.i)) = cumMean bins k % SIZE_MOD := by
      rw [h1]
      cases k with
      | zero =>
        rw [(h2 rfl).2]
        unfold uadd umul
        rw [Nat.zero_add, Nat.mod_mod]
        rfl
      | succ k =>
        rw [(h3 k rfl).2]
        unfold umul
        rw [uadd_mod_mod]
        rfl
    refine ⟨?_, fun h => by omega, ?_, ?_⟩
    · show s.i + 1 = k + 1; omega
    · intro j hj
      have : j = k := by omega
      subst this
      exact ⟨hs, hm⟩
    · intro j hj
      show store s.sumBins s.i (uadd s.accumSum (bins s.i)) j = _ ∧
        store s.meanBins s.i (uadd s.accumMean (umul s.i (bins s.i))) j = _
      by_cases hjk : j = k
      · subst hjk
        rw [hs, hm, h1, store_eq, store_eq]
        exact ⟨rfl, rfl⟩
      · rw [h1, store_ne _ _ _ _ hjk, store_ne _ _ _ _ hjk]
        exact h4 j (by omega)

/-- The cumulative arrays left by `ImageHistogram`, modulo the `size_t` range. -/
theorem ImageHistogram_cumulative_mod (outHistogram : Histogram_t) (inImg : Image8_t)
    (i : Nat) (hi : i < outHistogram.numberBins) :
    (ImageHistogram outHistogram inImg).sumBins i
      = cumSum (ImageHistogram outHistogram inImg).bins i % SIZE_MOD ∧
    (ImageHistogram outHistogram inImg).meanBins i
      = cumMean (ImageHistogram outHistogram inImg).bins i % SIZE_MOD :=
  (cumStep_loop _ outHistogram.sumBins outHistogram.meanBins outHistogram.numberBins).2.2.2 i hi

theorem cumSum_mono (bins : Nat → Nat) (i : Nat) : ∀ d, cumSum bins i ≤ cumSum bins (i + d) := by
  intro d
  induction d with
  | zero => exact Nat.le_refl _
  | succ d ih =>
    show _ ≤ cumSum bins (i + d) + bins (i + d + 1)
    omega

theorem cumMean_mono (bins : Nat → Nat) (i : Nat) :
    ∀ d, cumMean bins i ≤ cumMean bins (i + d) := by
  intro d
  induction d with
  | zero => exact Nat.le_refl _
  | succ d ih =>
    show _ ≤ cumMean bins (i + d) + (i + d + 1) * bins (i + d + 1)
    omega

/-- C20: for every image and histogram (whose totals after the call fit a
`size_t`), after `ImageHistogram` every `i < numberBins` satisfies
`sumBins[i]` = sum of `bins[k]` for `k <= i` and `meanBins[i]` = sum of
`k*bins[k]` for `k <= i`, over the bins as left by the call, whatever `sumBins`
and `meanBins` held before the call. -/
theorem ImageHistogram_cumulative (outHistogram : Histogram_t) (inImg : Image8_t)
    (hsum : cumSum (ImageHistogram outHistogram inImg).bins (outHistogram.numberBins - 1)
      < SIZE_MOD)
    (hmean : cumMean (ImageHistogram outHistogram inImg).bins (outHistogram.numberBins - 1)
      < SIZE_MOD)
    (i : Nat) (hi : i < outHistogram.numberBins) :
    (ImageHistogram outHistogram inImg).sumBins i
      = cumSum (ImageHistogram outHistogram inImg).bins i ∧
    (ImageHistogram outHistogram inImg).meanBins i
      = cumMean (ImageHistogram outHistogram inImg).bins i := by
  obtain ⟨h1, h2⟩ := ImageHistogram_cumulative_mod outHistogram inImg i hi
  have e : outHistogram.numberBins - 1 = i + (outHistogram.numberBins - 1 - i) := by omega
  have m1 := cumSum_mono (ImageHistogram outHistogram inImg).bins i
    (outHistogram.numberBins - 1 - i)
  have m2 := cumMean_mono (ImageHistogram outHistogram inImg).bins i
    (outHistogram.numberBins - 1 - i)
  rw [← e] at m1 m2
  rw [h1, h2, Nat.mod_eq_of_lt (by omega), Nat.mod_eq_of_lt (by omega)]
  exact ⟨rfl, rfl⟩

set_option maxRecDepth 100000 in
/-- C20, witness: a 4-bin histogram whose derived arrays hold 7 everywhere on
entry, the 2x2 image of constant value 1, bin 2. -/
theorem ImageHistogram_cumulative_witness :
    (ImageHistogram staleHistogram (constImage 2 2 1)).sumBins 2
      = cumSum (ImageHistogram staleHistogram (constImage 2 2 1)).bins 2 ∧
    (ImageHistogram staleHistogram (constImage 2 2 1)).meanBins 2
      = cumMean (ImageHistogram staleHistogram (constImage 2 2 1)).bins 2 :=
  ImageHistogram_cumulative staleHistogram (constImage 2 2 1) (by decide) (by decide) 2
    (by decide)

/-! ## The four-corner query on the integral image -/

theorem rectSum_corner (data : Nat → Nat) (w r c : Nat) :
    rectSum data w (r + 1) (c + 1) + rectSum data w r c
      = rectSum data w r (c + 1) + rectSum data w (r + 1) c
        + data ((r + 1) * w + (c + 1)) := by
  simp only [rectSum, rowSum]
  omega

theorem boxCorners_mod (a b c d p : Nat) (h : b + a = c + d + p) (hp : p < SIZE_MOD) :
    boxCorners (a % SIZE_MOD) (b % SIZE_MOD) (c % SIZE_MOD) (d % SIZE_MOD) = p := by
  unfold boxCorners
  rw [uadd_mod_mod, uadd_mod_mod]
  unfold usub SIZE_MOD at *
  omega

/-- C11: for every 8-bit image and every cell `(r, c)` with `r >= 1` and
`c >= 1`, the four-corner inclusion-exclusion of the box features over a 1x1 box
of `sat = IntegralImage(image)` recovers the pixel:
`sat(r,c) + sat(r-1,c-1) - (sat(r-1,c) + sat(r,c-1)) = image(r,c)`. -/
theorem IntegralImage_unit_box (outData : Nat → Nat) (img : Image8_t) (hwf : img.wf)
    (r c : Nat) (hr1 : 1 ≤ r) (hc1 : 1 ≤ c) (hr : r < img.height) (hc : c < img.width) :
    boxCorners (IntegralImage outData img ((r - 1) * img.width + (c - 1)))
        (IntegralImage outData img (r * img.width + c))
        (IntegralImage outData img ((r - 1) * img.width + c))
        (IntegralImage outData img (r * img.width + (c - 1)))
      = img.data (r * img.width + c) := by
  obtain ⟨r', rfl⟩ : ∃ r', r = r' + 1 := ⟨r - 1, by omega⟩
  obtain ⟨c', rfl⟩ : ∃ c', c = c' + 1 := ⟨c - 1, by omega⟩
  rw [Nat.add_sub_cancel, Nat.add_sub_cancel,
    IntegralImage_mod outData img (by omega) r' c' (by omega) (by omega),
    IntegralImage_mod outData img (by omega) (r' + 1) (c' + 1) hr hc,
    IntegralImage_mod outData img (by omega) r' (c' + 1) (by omega) hc,
    IntegralImage_mod outData img (by omega) (r' + 1) c' hr (by omega)]
  apply boxCorners_mod
  · exact rectSum_corner img.data img.width r' c'
  · have := hwf ((r' + 1) * img.width + (c' + 1))
    unfold SIZE_MOD
    omega

/-- C11, witness: the 2x2 image with samples 1, 2, 3, 4 at cell (1,1). -/
theorem IntegralImage_unit_box_witness :
    boxCorners (IntegralImage (fun _ => 0) smallImage ((1 - 1) * smallImage.width + (1 - 1)))
        (IntegralImage (fun _ => 0) smallImage (1 * smallImage.width + 1))
        (IntegralImage (fun _ => 0) smallImage ((1 - 1) * smallImage.width + 1))
        (IntegralImage (fun _ => 0) smallImage (1 * smallImage.width + (1 - 1)))
      = smallImage.data (1 * smallImage.width + 1) :=
  IntegralImage_unit_box (fun _ => 0) smallImage
    (fun k => by
      show k % 4 + 1 < 256
      omega)
    1 1 (by decide) (by decide) (by decide) (by decide)

/-! ## UintSqrt -/

theorem sqrtLutCheck_sound : ∀ (l : List Nat) (v : Nat), sqrtLutCheck v l = true →
    ∀ i, i < l.length →
      l.getD i 0 * l.getD i 0 ≤ v + i ∧ v + i < (l.getD i 0 + 1) * (l.getD i 0 + 1) := by
  intro l
  induction l with
  | nil => intro v _ i hi; exact absurd hi (Nat.not_lt_zero i)
  | cons s rest ih =>
    intro v h i hi
    unfold sqrtLutCheck at h
    rw [Bool.and_eq_true, decide_eq_true_iff] at h
    cases i with
    | zero => exact h.1
    | succ i =>
      have := ih (v + 1) h.2 i (by simpa using hi)
      rw [show v + (i + 1) = v + 1 + i by omega]
      exact this

set_option maxRecDepth 1000000 in
theorem sqrtLut_checked : sqrtLutCheck 0 sqrtLut = true := by decide

set_option maxRecDepth 1000000 in
theorem sqrtLut_length : sqrtLut.length = 1024 := by decide

theorem sqrtLut_exact (v : Nat) (h : v < 1024) :
    sqrtLut.getD v 0 * sqrtLut.getD v 0 ≤ v ∧
    v < (sqrtLut.getD v 0 + 1) * (sqrtLut.getD v 0 + 1) := by
  have := sqrtLutCheck_sound sqrtLut 0 sqrtLut_checked v (by rw [sqrtLut_length]; exact h)
  rwa [Nat.zero_add] at this

theorem floor_sqrt_unique (v s t : Nat) (hs1 : s * s ≤ v) (hs2 : v < (s + 1) * (s + 1))
    (ht1 : t * t ≤ v) (ht2 : v < (t + 1) * (t + 1)) : s = t := by
  by_contra hne
  rcases Nat.lt_or_gt_of_ne hne with h | h
  · have : (s + 1) * (s + 1) ≤ t * t := Nat.mul_le_mul h h
    omega
  · have : (t + 1) * (t + 1) ≤ s * s := Nat.mul_le_mul h h
    omega

theorem sqrt_spec (v : Nat) :
    Nat.sqrt v * Nat.sqrt v ≤ v ∧ v < (Nat.sqrt v + 1) * (Nat.sqrt v + 1) :=
  ⟨Nat.sqrt_le v, Nat.lt_succ_sqrt v⟩

/-- C18: for every value below 1024, `UintSqrt(value)` is exactly the floor of
the square root of `value`, the largest `s` with `s*s <= value`. -/
theorem UintSqrt_table (value : Nat) (h : value < 1024) :
    UintSqrt value = some (Nat.sqrt value) ∧
    Nat.sqrt value * Nat.sqrt value ≤ value ∧
    ∀ s, s * s ≤ value → s ≤ Nat.sqrt value := by
  obtain ⟨h1, h2⟩ := sqrtLut_exact value h
  obtain ⟨h3, h4⟩ := sqrt_spec value
  have e := floor_sqrt_unique value _ _ h1 h2 h3 h4
  refine ⟨?_, h3, ?_⟩
  · unfold UintSqrt
    rw [if_pos h, e]
  · intro s hs
    by_contra hlt
    have : (Nat.sqrt value + 1) * (Nat.sqrt value + 1) ≤ s * s :=
      Nat.mul_le_mul (by omega) (by omega)
    omega

/-- C18, witness: the value 1000, whose floor square root is 31. -/
theorem UintSqrt_table_witness :
    UintSqrt 1000 = some (Nat.sqrt 1000) ∧
    Nat.sqrt 1000 * Nat.sqrt 1000 ≤ 1000 ∧
    ∀ s, s * s ≤ 1000 → s ≤ Nat.sqrt 1000 :=
  UintSqrt_table 1000 (by decide)

theorem newton_lower (v s x : Nat) (hx : 1 ≤ x) (hs : s * s ≤ v) :
    s ≤ (x + v / x) / 2 := by
  by_contra hlt
  have h1 : x + v / x + 1 ≤ 2 * s := by omega
  have h2 : v < x * (v / x + 1) := Nat.lt_mul_div_succ v (by omega)
  have h3 : v / x + 1 + x ≤ 2 * s := by omega
  zify at h1 h2 h3 hs
  nlinarith [sq_nonneg ((s : Int) - x), mul_le_mul_of_nonneg_left h3 (Int.ofNat_nonneg x)]

theorem newton_decrease (v x : Nat) (hx : 1 ≤ x) (hv : v < x * x) :
    (x + v / x) / 2 < x := by
  have : v / x < x := (Nat.div_lt_iff_lt_mul (by omega)).2 hv
  omega

theorem newton_at_root (v s : Nat) (hs : 1 ≤ s) (h1 : s * s ≤ v)
    (h2 : v < (s + 1) * (s + 1)) :
    (s + v / s) / 2 = s ∨ (s + v / s) / 2 = s + 1 := by
  have a : s ≤ v / s := (Nat.le_div_iff_mul_le (by omega)).2 h1
  have b : v / s < s + 3 := by
    apply (Nat.div_lt_iff_lt_mul (by omega)).2
    nlinarith
  omega

theorem newton_step_one (v s x : Nat) (h2 : v < (s + 1) * (s + 1))
    (hstep : (x + v / x) / 2 + 1 = x) : x ≤ s + 2 := by
  by_contra hlt
  have hq : x ≤ v / x + 2 := by omega
  have hm : x * (v / x) ≤ v := Nat.mul_div_le v x
  have hx3 : s + 3 ≤ x := by omega
  have hq1 : s + 1 ≤ v / x := by omega
  have : (s + 3) * (s + 1) ≤ x * (v / x) := Nat.mul_le_mul hx3 hq1
  nlinarith

theorem UintSqrtLoop_result (v s : Nat) (hs : 1 ≤ s) (h1 : s * s ≤ v)
    (h2 : v < (s + 1) * (s + 1)) (hv : v < 9223372036854775808) :
    ∀ fuel x, s ≤ x → x < fuel + s → 2 * x ≤ v →
      ∃ r, UintSqrtLoop v fuel x = some r ∧ (r = s ∨ r = s + 1) := by
  intro fuel
  induction fuel with
  | zero => intro x h3 h4 _; omega
  | succ fuel ih =>
    intro x h3 h4 h5
    have hdiv : v / x ≤ v := Nat.div_le_self v x
    have hadd : uadd x (v / x) = x + v / x := by
      unfold uadd SIZE_MOD
      exact Nat.mod_eq_of_lt (by omega)
    have hlow := newton_lower v s x (by omega) h1
    unfold UintSqrtLoop
    simp only [hadd]
    by_cases hcont : x ≠ (x + v / x) / 2 ∧ UINTDIFF x ((x + v / x) / 2) ≠ 1
    · rw [if_pos hcont]
      obtain ⟨hne, hd⟩ := hcont
      have hxs : s < x := by
        by_contra hle
        have hx : x = s := by omega
        subst hx
        rcases newton_at_root v x hs h1 h2 with e | e
        · exact hne e.symm
        · apply hd; unfold UINTDIFF; rw [e]; split_ifs <;> omega
      have hvx : v < x * x := by
        have : (s + 1) * (s + 1) ≤ x * x := Nat.mul_le_mul hxs hxs
        omega
      have hdec := newton_decrease v x (by omega) hvx
      exact ih _ hlow (by omega) (by omega)
    · rw [if_neg hcont]
      refine ⟨_, rfl, ?_⟩
      by_cases hxs : s < x
      · have hvx : v < x * x := by
          have : (s + 1) * (s + 1) ≤ x * x := Nat.mul_le_mul hxs hxs
          omega
        have hdec := newton_decrease v x (by omega) hvx
        have hone : (x + v / x) / 2 + 1 = x := by
          by_contra hne
          apply hcont
          refine ⟨by omega, ?_⟩
          unfold UINTDIFF
          split_ifs <;> omega
        have := newton_step_one v s x h2 hone
        omega
      · have hx : x = s := by omega
        subst hx
        exact newton_at_root v x hs h1 h2

/-- C19: for every value >= 1024 below 2^63, the Newton loop of `UintSqrt`
terminates and returns either the floor square root of `value` or that plus
one. -/
theorem UintSqrt_newton (value : Nat) (h1 : 1024 ≤ value)
    (h2 : value < 9223372036854775808) :
    ∃ r, UintSqrt value = some r ∧ (r = Nat.sqrt value ∨ r = Nat.sqrt value + 1) := by
  obtain ⟨h3, h4⟩ := sqrt_spec value
  have hs : 32 ≤ Nat.sqrt value := by
    by_contra hlt
    have : (Nat.sqrt value + 1) * (Nat.sqrt value + 1) ≤ 32 * 32 :=
      Nat.mul_le_mul (by omega) (by omega)
    omega
  have hhalf : Nat.sqrt value ≤ value / 2 := by
    have : Nat.sqrt value * 32 ≤ Nat.sqrt value * Nat.sqrt value := Nat.mul_le_mul_left _ hs
    omega
  unfold UintSqrt
  rw [if_neg (by omega)]
  exact UintSqrtLoop_result value (Nat.sqrt value) (by omega) h3 h4 h2 value (value / 2)
    hhalf (by omega) (by omega)

/-- C19, witness: the value 1000000, a perfect square. -/
theorem UintSqrt_newton_witness :
    ∃ r, UintSqrt 1000000 = some r ∧
      (r = Nat.sqrt 1000000 ∨ r = Nat.sqrt 1000000 + 1) :=
  UintSqrt_newton 1000000 (by decide) (by decide)

/-! ## ApproxAtan2 -/

/-- C16: for `dy = 1` and `dx = -32768`, both 16-bit signed values,
`ApproxAtan2` returns `2^64 - 524256`, far outside `[0,128)`: negating `dx`
leaves -32768, so the third-octant branch computes `32 + (dx << 4) / dy` with a
negative quotient. -/
theorem ApproxAtan2_int16_min :
    ApproxAtan2 1 (-32768) = 18446744073709027360 ∧ ¬ ApproxAtan2 1 (-32768) < 128 := by
  decide

theorem neg16_of_neg (v : Int) (h1 : -32767 ≤ v) (h2 : v < 0) : neg16 v = -v := by
  unfold neg16
  exact wrap16_of_small _ (by omega) (by omega)

/-- C17: for every `d` with `1 <= d <= 32767`, `ApproxAtan2(0, d) = 0` (right),
`ApproxAtan2(d, 0) = 32` (down), `ApproxAtan2(0, -d) = 64` (left) and
`ApproxAtan2(-d, 0) = 96` (up). -/
theorem ApproxAtan2_cardinal (d : Int) (h1 : 1 ≤ d) (h2 : d ≤ 32767) :
    ApproxAtan2 0 d = 0 ∧ ApproxAtan2 d 0 = 32 ∧ ApproxAtan2 0 (-d) = 64 ∧
    ApproxAtan2 (-d) 0 = 96 := by
  refine ⟨?_, ?_, ?_, ?_⟩
  · unfold ApproxAtan2
    rw [if_pos (by omega), if_neg (by omega), if_neg (by omega)]
  · unfold ApproxAtan2
    rw [if_neg (by omega), if_neg (by omega), if_pos (by omega)]
  · unfold ApproxAtan2
    rw [if_neg (by omega), if_pos (by omega)]
    simp only []
    rw [if_neg (by omega), if_neg (by omega)]
  · unfold ApproxAtan2
    rw [if_neg (by omega), if_neg (by omega), if_neg (by omega), if_pos (by omega)]

/-- C17, witness: `d = 10`, the concrete scenario `ApproxAtan2(0, 10) = 0` and
`ApproxAtan2(10, 0) = 32`. -/
theorem ApproxAtan2_cardinal_witness :
    ApproxAtan2 0 10 = 0 ∧ ApproxAtan2 10 0 = 32 ∧ ApproxAtan2 0 (-10) = 64 ∧
    ApproxAtan2 (-10) 0 = 96 :=
  ApproxAtan2_cardinal 10 (by decide) (by decide)

theorem tdiv16_range (a b : Int) (ha : 0 ≤ a) (hb : 0 < b) (hab : a ≤ b) :
    0 ≤ Int.tdiv (a * 16) b ∧ Int.tdiv (a * 16) b ≤ 16 := by
  rw [Int.tdiv_eq_ediv (by omega) (by omega)]
  constructor
  · exact Int.ediv_nonneg (by omega) (by omega)
  · have : a * 16 / b < 17 := Int.ediv_lt_of_lt_mul hb (by omega)
    omega

theorem toSize_small (v : Int) (h0 : 0 ≤ v) (h1 : v < 128) : toSize v < 128 := by
  unfold toSize
  omega

theorem tmod_128_range (v : Int) (h0 : 0 ≤ v) :
    0 ≤ Int.tmod v 128 ∧ Int.tmod v 128 < 128 := by
  rw [Int.tmod_eq_emod h0 (by omega)]
  omega

/-- Away from the value -32768 the result of `ApproxAtan2` is an angle bin. -/
theorem ApproxAtan2_lt_128 (dy dx : Int) (hy1 : -32767 ≤ dy) (hy2 : dy ≤ 32767)
    (hx1 : -32767 ≤ dx) (hx2 : dx ≤ 32767) : ApproxAtan2 dy dx < 128 := by
  unfold ApproxAtan2
  by_cases a : dx > 0
  · rw [if_pos a]
    by_cases b : dy > 0
    · rw [if_pos b]
      by_cases c : dy ≤ dx
      · rw [if_pos c]
        have := tdiv16_range dy dx (by omega) (by omega) c
        exact toSize_small _ (by omega) (by omega)
      · rw [if_neg c]
        have := tdiv16_range dx dy (by omega) (by omega) (by omega)
        exact toSize_small _ (by omega) (by omega)
    · rw [if_neg b]
      by_cases d : dy < 0
      · rw [if_pos d]
        simp only [neg16_of_neg dy hy1 d]
        by_cases c : -dy ≤ dx
        · rw [if_pos c]
          have := tdiv16_range (-dy) dx (by omega) (by omega) c
          have := tmod_128_range (128 - Int.tdiv (-dy * 16) dx) (by omega)
          exact toSize_small _ (by omega) (by omega)
        · rw [if_neg c]
          have := tdiv16_range dx (-dy) (by omega) (by omega) (by omega)
          exact toSize_small _ (by omega) (by omega)
      · rw [if_neg d]
        decide
  · rw [if_neg a]
    by_cases a' : dx < 0
    · rw [if_pos a']
      simp only [neg16_of_neg dx hx1 a']
      by_cases b : dy > 0
      · rw [if_pos b]
        by_cases c : dy ≤ -dx
        · rw [if_pos c]
          have := tdiv16_range dy (-dx) (by omega) (by omega) c
          exact toSize_small _ (by omega) (by omega)
        · rw [if_neg c]
          have := tdiv16_range (-dx) dy (by omega) (by omega) (by omega)
          exact toSize_small _ (by omega) (by omega)
      · rw [if_neg b]
        by_cases d : dy < 0
        · rw [if_pos d]
          simp only [neg16_of_neg dy hy1 d]
          by_cases c : -dy ≤ -dx
          · rw [if_pos c]
            have := tdiv16_range (-dy) (-dx) (by omega) (by omega) c
            exact toSize_small _ (by omega) (by omega)
          · rw [if_neg c]
            have := tdiv16_range (-dx) (-dy) (by omega) (by omega) (by omega)
            exact toSize_small _ (by omega) (by omega)
        · rw [if_neg d]
          decide
    · rw [if_neg a']
      split_ifs <;> decide

/-! ## HoughRadius and HoughVoteLine -/

set_option maxRecDepth 100000 in
theorem cosLut_bound : ∀ i, i < 128 →
    -65536 ≤ cosLut.getD i 0 ∧ cosLut.getD i 0 ≤ 65536 := by decide

set_option maxRecDepth 100000 in
theorem sinLut_bound : ∀ i, i < 128 →
    -65536 ≤ sinLut.getD i 0 ∧ sinLut.getD i 0 ≤ 65536 := by decide

theorem UintCos_bound (theta : Nat) : -65536 ≤ UintCos theta ∧ UintCos theta ≤ 65536 :=
  cosLut_bound (theta % 128) (Nat.mod_lt _ (by decide))

theorem UintSin_bound (theta : Nat) : -65536 ≤ UintSin theta ∧ UintSin theta ≤ 65536 :=
  sinLut_bound (theta % 128) (Nat.mod_lt _ (by decide))

theorem mul_bound (x c : Int) (hx1 : -16383 ≤ x) (hx2 : x ≤ 16383) (hc1 : -65536 ≤ c)
    (hc2 : c ≤ 65536) : -1073676288 ≤ x * c ∧ x * c ≤ 1073676288 := by
  constructor <;> nlinarith

theorem wrap32_of_small (a : Int) (h1 : -2147483648 ≤ a) (h2 : a < 2147483648) :
    wrap32 a = a := by
  unfold wrap32; omega

theorem wrap16_range (a : Int) : -32768 ≤ wrap16 a ∧ wrap16 a ≤ 32767 := by
  unfold wrap16; omega

/-- Without overflow `HoughRadius` is the floor of the scaled projection. -/
theorem HoughRadius_eq (x y : Int) (theta : Nat) (hx1 : -16383 ≤ x) (hx2 : x ≤ 16383)
    (hy1 : -16383 ≤ y) (hy2 : y ≤ 16383) :
    HoughRadius x y theta = (x * UintCos theta + y * UintSin theta) / 65536 := by
  obtain ⟨c1, c2⟩ := UintCos_bound theta
  obtain ⟨s1, s2⟩ := UintSin_bound theta
  obtain ⟨a1, a2⟩ := mul_bound x (UintCos theta) hx1 hx2 c1 c2
  obtain ⟨b1, b2⟩ := mul_bound y (UintSin theta) hy1 hy2 s1 s2
  unfold HoughRadius
  rw [wrap32_of_small _ (by omega) (by omega), wrap16_of_small _ (by omega) (by omega)]

/-- C13 (as stated, refuted): with `x = 1`, `y = 0` and angle bin 1,
`HoughRadius(1, 0, 1) = 0` but `HoughRadius(-1, 0, 1) = -1`: the right shift
rounds toward minus infinity. -/
theorem HoughRadius_negation_counterexample :
    HoughRadius (-1) (-0) 1 ≠ -HoughRadius 1 0 1 := by
  decide

/-- C13 (amended): for every `x`, `y` with `|x|, |y| <= 16383` and every angle
bin `theta`, `HoughRadius(-x, -y, theta)` is `-HoughRadius(x, y, theta)` when
`x*cos + y*sin` is a multiple of 65536 and `-HoughRadius(x, y, theta) - 1`
otherwise. -/
theorem HoughRadius_negation (x y : Int) (theta : Nat) (hx1 : -16383 ≤ x) (hx2 : x ≤ 16383)
    (hy1 : -16383 ≤ y) (hy2 : y ≤ 16383) :
    HoughRadius (-x) (-y) theta
      = -HoughRadius x y theta
        - (if (x * UintCos theta + y * UintSin theta) % 65536 = 0 then 0 else 1) := by
  rw [HoughRadius_eq x y theta hx1 hx2 hy1 hy2,
    HoughRadius_eq (-x) (-y) theta (by omega) (by omega) (by omega) (by omega)]
  have e : -x * UintCos theta + -y * UintSin theta
      = -(x * UintCos theta + y * UintSin theta) := by ring
  rw [e]
  generalize x * UintCos theta + y * UintSin theta = S
  split_ifs <;> omega

/-- C13 (amended), witness: `x = 3`, `y = -2`, angle bin 5. -/
theorem HoughRadius_negation_witness :
    HoughRadius (-3) (-(-2)) 5
      = -HoughRadius 3 (-2) 5
        - (if (3 * UintCos 5 + (-2) * UintSin 5) % 65536 = 0 then 0 else 1) :=
  HoughRadius_negation 3 (-2) 5 (by decide) (by decide) (by decide) (by decide)

theorem houghVoteStep_theta_loop (x y : Int) (H : Nat) :
    ∀ k (s : HoughState), s.theta < 128 →
      (loopN k (houghVoteStep x y H) s).theta = (s.theta + k) % 128 := by
  intro k
  induction k with
  | zero => intro s hs; exact (Nat.mod_eq_of_lt hs).symm
  | succ k ih =>
    intro s hs
    rw [loopN_succ, ih _ (Nat.mod_lt _ (by decide))]
    show (uadd s.theta 1 % 128 + k) % 128 = _
    unfold uadd SIZE_MOD
    omega

/-- The angle bin examined in step `k` of `HoughVoteLine`: the start bin
`(ApproxAtan2(dy, dx) - neighborhood) % 128` moved on by `k`. -/
theorem houghThetaAt_eq (acc : Nat → Nat) (H : Nat) (x y dy dx : Int) (n k : Nat) :
    houghThetaAt acc H x y dy dx n k = (usub (ApproxAtan2 dy dx) n % 128 + k) % 128 := by
  unfold houghThetaAt
  exact houghVoteStep_theta_loop x y H k _ (Nat.mod_lt _ (by decide))

/-- C14: for `dy = 0`, `dx = 1` (so `a = ApproxAtan2(dy, dx) = 0`) and
`neighborhood = 1` the five angle bins examined by `HoughVoteLine` are
127, 0, 1, 2, 3, that is `(a - n + k) mod 128`, not the bins 126, 127, 0, 1, 2
centred on `a`. -/
theorem HoughVoteLine_bins_not_centred :
    ApproxAtan2 0 1 = 0 ∧
    (List.range 5).map (houghThetaAt (fun _ => 0) 64 5 5 0 1 1) = [127, 0, 1, 2, 3] ∧
    (List.range 5).map (houghThetaAt (fun _ => 0) 64 5 5 0 1 1)
      ≠ (List.range 5).map (fun k => (((0 : Int) - 2 * 1 + k) % 128).toNat) := by
  have e : houghThetaAt (fun _ => 0) 64 5 5 0 1 1
      = fun k => (usub (ApproxAtan2 0 1) 1 % 128 + k) % 128 :=
    funext (houghThetaAt_eq (fun _ => 0) 64 5 5 0 1 1)
  rw [e]
  decide

theorem vote_core (r0 : Int) (acc : Nat → Nat) (H theta idx : Nat)
    (r1 : -32768 ≤ r0) (r2 : r0 ≤ 32767) (hH : 128 * H ≤ SIZE_MOD) (hth : theta < 128) :
    (if toSize (if r0 > 0 then wrap16 (r0 / 4) else r0) < H
      then store acc (uadd (toSize ((if r0 > 0 then wrap16 (r0 / 4) else r0) * 128)) theta)
        (uadd (acc (uadd (toSize ((if r0 > 0 then wrap16 (r0 / 4) else r0) * 128)) theta)) 1)
      else acc) idx
      = if 0 ≤ r0 ∧ (r0 / 4).toNat < H ∧ idx = (r0 / 4).toNat * 128 + theta
        then uadd (acc idx) 1 else acc idx := by
  unfold SIZE_MOD at hH
  by_cases hpos : r0 > 0
  · rw [if_pos hpos, wrap16_of_small _ (by omega) (by omega)]
    have e1 : toSize (r0 / 4) = (r0 / 4).toNat := by unfold toSize; omega
    have e2 : uadd (toSize (r0 / 4 * 128)) theta = (r0 / 4).toNat * 128 + theta := by
      unfold uadd toSize SIZE_MOD; omega
    rw [e1, e2]
    by_cases hlim : (r0 / 4).toNat < H
    · rw [if_pos hlim]
      by_cases hidx : idx = (r0 / 4).toNat * 128 + theta
      · rw [if_pos ⟨by omega, hlim, hidx⟩, hidx, store_eq]
      · rw [if_neg (fun h => hidx h.2.2), store_ne _ _ _ _ hidx]
    · rw [if_neg hlim, if_neg (fun h => hlim h.2.1)]
  · rw [if_neg hpos]
    by_cases hzero : r0 = 0
    · subst hzero
      have e1 : toSize 0 = 0 := rfl
      have e2 : uadd (toSize (0 * 128)) theta = ((0 : Int) / 4).toNat * 128 + theta := by
        unfold uadd toSize SIZE_MOD; omega
      have e3 : ((0 : Int) / 4).toNat = 0 := rfl
      rw [e1, e2]
      by_cases hlim : 0 < H
      · rw [if_pos hlim]
        by_cases hidx : idx = ((0 : Int) / 4).toNat * 128 + theta
        · rw [if_pos ⟨le_refl 0, by omega, hidx⟩, hidx, store_eq]
        · rw [if_neg (fun h => hidx h.2.2), store_ne _ _ _ _ hidx]
      · rw [if_neg hlim, if_neg (fun h => hlim (by omega))]
    · have e1 : ¬ toSize r0 < H := by unfold toSize; omega
      rw [if_neg e1, if_neg (fun h => by omega)]

theorem houghVoteStep_acc (x y : Int) (H : Nat) (s : HoughState) (idx : Nat)
    (hH : 128 * H ≤ SIZE_MOD) (hth : s.theta < 128) :
    (houghVoteStep x y H s).acc idx
      = if houghHit x y H s.theta idx then uadd (s.acc idx) 1 else s.acc idx := by
  obtain ⟨r1, r2⟩ := wrap16_range (wrap32 (x * UintCos s.theta + y * UintSin s.theta) / 65536)
  exact vote_core (HoughRadius x y s.theta) s.acc H s.theta idx r1 r2 hH hth

theorem houghVoteStep_acc_loop (x y : Int) (H : Nat) (hH : 128 * H ≤ SIZE_MOD)
    (s : HoughState) (hth : s.theta < 128) (idx : Nat) :
    ∀ k, (loopN k (houghVoteStep x y H) s).acc idx
      = if houghHitCount x y H s.theta idx k = 0 then s.acc idx
        else (s.acc idx + houghHitCount x y H s.theta idx k) % SIZE_MOD := by
  intro k
  induction k with
  | zero => rfl
  | succ k ih =>
    rw [loopN_succ_right, houghVoteStep_acc x y H _ idx hH
      (by rw [houghVoteStep_theta_loop x y H k s hth]; exact Nat.mod_lt _ (by decide)),
      houghVoteStep_theta_loop x y H k s hth, ih]
    show _ = if houghHitCount x y H s.theta idx k
        + (if houghHit x y H ((s.theta + k) % 128) idx then 1 else 0) = 0 then s.acc idx
      else (s.acc idx + (houghHitCount x y H s.theta idx k
        + (if houghHit x y H ((s.theta + k) % 128) idx then 1 else 0))) % SIZE_MOD
    by_cases hhit : houghHit x y H ((s.theta + k) % 128) idx
    · rw [if_pos hhit, if_pos hhit,
        if_neg (show ¬ (houghHitCount x y H s.theta idx k + 1 = 0) by omega)]
      by_cases h0 : houghHitCount x y H s.theta idx k = 0
      · rw [if_pos h0, h0]; rfl
      · rw [if_neg h0, uadd_mod]; rfl
    · rw [if_neg hhit, if_neg hhit, Nat.add_zero]

theorem houghHitCount_pos (x y : Int) (H theta0 idx : Nat) :
    ∀ k, houghHitCount x y H theta0 idx k ≠ 0 →
      ∃ j, j < k ∧ houghHit x y H ((theta0 + j) % 128) idx := by
  intro k
  induction k with
  | zero => intro h; exact absurd rfl h
  | succ k ih =>
    intro h
    by_cases hhit : houghHit x y H ((theta0 + k) % 128) idx
    · exact ⟨k, by omega, hhit⟩
    · have h' : houghHitCount x y H theta0 idx k ≠ 0 := by
        intro h0
        apply h
        show houghHitCount x y H theta0 idx k
          + (if houghHit x y H ((theta0 + k) % 128) idx then 1 else 0) = 0
        rw [h0, if_neg hhit]
      obtain ⟨j, hj, hh⟩ := ih h'
      exact ⟨j, by omega, hh⟩

/-- C15: for every accumulator of width 128 and height `H` (with `128 * H`
cells addressable by a `size_t`), `HoughVoteLine` changes only cells
`rb*128 + theta` for which `theta` is an examined angle bin,
`HoughRadius(x,y,theta) >= 0` and `rb = HoughRadius(x,y,theta) >> 2 < H`: each
cell grows by the number of loop steps that hit it, the examined bins are all
below 128, and every cell that is hit has an index below `128 * H`. -/
theorem HoughVoteLine_votes (acc : Nat → Nat) (H : Nat) (x y dy dx : Int) (n : Nat)
    (hH : 128 * H ≤ SIZE_MOD) (hn : n * 4 + 1 < SIZE_MOD) (idx : Nat) :
    (HoughVoteLine acc H x y dy dx n).acc idx
      = (if houghHitCount x y H (usub (ApproxAtan2 dy dx) n % 128) idx (4 * n + 1) = 0
         then acc idx
         else (acc idx
           + houghHitCount x y H (usub (ApproxAtan2 dy dx) n % 128) idx (4 * n + 1))
             % SIZE_MOD) ∧
    (houghHitCount x y H (usub (ApproxAtan2 dy dx) n % 128) idx (4 * n + 1) ≠ 0 →
      idx < 128 * H) ∧
    ∀ k, houghThetaAt acc H x y dy dx n k < 128 := by
  have hcount : uadd (n * 4 % SIZE_MOD) 1 = 4 * n + 1 := by
    unfold uadd
    unfold SIZE_MOD at *
    omega
  refine ⟨?_, ?_, ?_⟩
  · unfold HoughVoteLine
    rw [hcount]
    exact houghVoteStep_acc_loop x y H hH _ (Nat.mod_lt _ (by decide)) idx (4 * n + 1)
  · intro h
    obtain ⟨j, _, h0, h1, h2⟩ := houghHitCount_pos x y H _ idx _ h
    have := Nat.mod_lt (usub (ApproxAtan2 dy dx) n % 128 + j) (show 0 < 128 by decide)
    omega
  · intro k
    rw [houghThetaAt_eq]
    exact Nat.mod_lt _ (by decide)

set_option maxRecDepth 100000 in
/-- C15, witness: a zero accumulator of height 64, the point (30, 40) with
gradient (3, 4), neighbourhood 1, at the cell of radius bin 11 and angle bin
12. -/
theorem HoughVoteLine_votes_witness :
    (HoughVoteLine (fun _ => 0) 64 30 40 3 4 1).acc 1420
      = (if houghHitCount 30 40 64 (usub (ApproxAtan2 3 4) 1 % 128) 1420 (4 * 1 + 1) = 0
         then (fun _ => 0) 1420
         else ((fun _ => 0) 1420
           + houghHitCount 30 40 64 (usub (ApproxAtan2 3 4) 1 % 128) 1420 (4 * 1 + 1))
             % SIZE_MOD) ∧
    (houghHitCount 30 40 64 (usub (ApproxAtan2 3 4) 1 % 128) 1420 (4 * 1 + 1) ≠ 0 →
      1420 < 128 * 64) ∧
    ∀ k, houghThetaAt (fun _ => 0) 64 30 40 3 4 1 k < 128 :=
  HoughVoteLine_votes (fun _ => 0) 64 30 40 3 4 1 (by decide) (by decide) 1420

/-! ## IntegralFeatureUpDown -/

theorem rowSum_seg (data : Nat → Nat) (w r c0 : Nat) :
    ∀ n, rowSum data w r (c0 + n) = rowSum data w r c0 + rowSeg data w r c0 n := by
  intro n
  induction n with
  | zero => rfl
  | succ n ih =>
    show rowSum data w r (c0 + n) + data (r * w + (c0 + n))
      = rowSum data w r c0 + (rowSeg data w r c0 n + data (r * w + (c0 + n)))
    omega

theorem rect_box (data : Nat → Nat) (w a b bw : Nat) :
    ∀ bh, rectSum data w (a + bh) (b + bw) + rectSum data w a b
      = rectSum data w a (b + bw) + rectSum data w (a + bh) b
        + boxSum data w (a + 1) (b + 1) bw bh := by
  intro bh
  induction bh with
  | zero =>
    show rectSum data w a (b + bw) + rectSum data w a b
      = rectSum data w a (b + bw) + rectSum data w a b + 0
    omega
  | succ bh ih =>
    have e1 : rectSum data w (a + (bh + 1)) (b + bw)
        = rectSum data w (a + bh) (b + bw) + rowSum data w (a + bh + 1) (b + bw + 1) := rfl
    have e2 : rectSum data w (a + (bh + 1)) b
        = rectSum data w (a + bh) b + rowSum data w (a + bh + 1) (b + 1) := rfl
    have e3 : boxSum data w (a + 1) (b + 1) bw (bh + 1)
        = boxSum data w (a + 1) (b + 1) bw bh + rowSeg data w (a + 1 + bh) (b + 1) bw := rfl
    have e4 := rowSum_seg data w (a + bh + 1) (b + 1) bw
    rw [show b + 1 + bw = b + bw + 1 by omega] at e4
    rw [show a + 1 + bh = a + bh + 1 by omega] at e3
    rw [e1, e2, e3, e4]
    omega

theorem rowSeg_le (data : Nat → Nat) (w r c0 : Nat) (hd : ∀ k, data k < 256) :
    ∀ n, rowSeg data w r c0 n ≤ 255 * n := by
  intro n
  induction n with
  | zero => exact Nat.le_refl 0
  | succ n ih =>
    have := hd (r * w + (c0 + n))
    show rowSeg data w r c0 n + data (r * w + (c0 + n)) ≤ 255 * (n + 1)
    omega

theorem boxSum_le (data : Nat → Nat) (w r0 c0 bw : Nat) (hd : ∀ k, data k < 256) :
    ∀ bh, boxSum data w r0 c0 bw bh ≤ 255 * (bh * bw) := by
  intro bh
  induction bh with
  | zero => show 0 ≤ _; omega
  | succ bh ih =>
    have := rowSeg_le data w (r0 + bh) c0 hd bw
    show boxSum data w r0 c0 bw bh + rowSeg data w (r0 + bh) c0 bw ≤ 255 * ((bh + 1) * bw)
    have e : (bh + 1) * bw = bh * bw + bw := Nat.succ_mul bh bw
    rw [e]
    omega

/-- The four-corner expression on the integral image at the corners of a box
gives the sum of the image over the box. -/
theorem boxCorners_sat (outData : Nat → Nat) (img : Image8_t) (hwf : img.wf)
    (hsize : 255 * (img.height * img.width) < SIZE_MOD)
    (a b bw bh p : Nat) (ha : a + bh < img.height) (hb : b + bw < img.width)
    (hp : p = a * img.width + b) :
    boxCorners (IntegralImage outData img p)
        (IntegralImage outData img (p + bh * img.width + bw))
        (IntegralImage outData img (p + bw))
        (IntegralImage outData img (p + bh * img.width))
      = boxSum img.data img.width (a + 1) (b + 1) bw bh := by
  subst hp
  have e1 : a * img.width + b + bh * img.width + bw = (a + bh) * img.width + (b + bw) := by
    rw [Nat.add_mul]; omega
  have e2 : a * img.width + b + bw = a * img.width + (b + bw) := by omega
  have e3 : a * img.width + b + bh * img.width = (a + bh) * img.width + b := by
    rw [Nat.add_mul]; omega
  rw [e1, e2, e3,
    IntegralImage_mod outData img (by omega) a b (by omega) (by omega),
    IntegralImage_mod outData img (by omega) (a + bh) (b + bw) ha hb,
    IntegralImage_mod outData img (by omega) a (b + bw) (by omega) hb,
    IntegralImage_mod outData img (by omega) (a + bh) b ha (by omega)]
  apply boxCorners_mod
  · exact rect_box img.data img.width a b bw bh
  · have h1 := boxSum_le img.data img.width (a + 1) (b + 1) bw hwf bh
    have h2 : bh * bw ≤ img.height * img.width := Nat.mul_le_mul (by omega) (by omega)
    omega

theorem UINTDIFF_natAbs (a b : Nat) : UINTDIFF a b = Int.natAbs ((a : Int) - (b : Int)) := by
  unfold UINTDIFF
  split_ifs <;> omega

theorem upDownStep_inv (outData satOut : Nat → Nat) (img : Image8_t) (hwf : img.wf)
    (hsize : 255 * (img.height * img.width) < SIZE_MOD)
    (bw bh cs rs cols i j : Nat) (s : UpDownState)
    (hi : i * rs + bh + bh < img.height) (hj : j * cs + bw < img.width) (hjc : j < cols)
    (hinv : UpDownInv outData img.data img.width bw bh cs rs cols i j s) :
    UpDownInv outData img.data img.width bw bh cs rs cols i (j + 1)
      (upDownStep (IntegralImage satOut img) cs s) := by
  obtain ⟨h1, h2, h3, h4, h5, h6, h7, h8, h9, h10, h11⟩ := hinv
  have hU := boxCorners_sat satOut img hwf hsize (i * rs) (j * cs) bw bh s.ptrInUpperLeft
    (by omega) hj h2
  have hL := boxCorners_sat satOut img hwf hsize (i * rs + bh) (j * cs) bw bh
    (s.ptrInUpperLeft + bh * img.width) (by omega) hj (by rw [h2, Nat.add_mul]; omega)
  have hval : UINTDIFF
      (boxCorners (IntegralImage satOut img s.ptrInUpperLeft)
        (IntegralImage satOut img s.ptrInCenterRight)
        (IntegralImage satOut img s.ptrInUpperRight)
        (IntegralImage satOut img s.ptrInCenterLeft))
      (boxCorners (IntegralImage satOut img s.ptrInCenterLeft)
        (IntegralImage satOut img s.ptrInLowerRight)
        (IntegralImage satOut img s.ptrInCenterRight)
        (IntegralImage satOut img s.ptrInLowerLeft))
      = upDownValue img.data img.width bw bh cs rs i j := by
    rw [h3, h4, h5, h6, h7, hU, hL, UINTDIFF_natAbs]
    rfl
  have hm : (j + 1) * cs = j * cs + cs := Nat.succ_mul j cs
  refine ⟨?_, ?_, ?_, ?_, ?_, ?_, ?_, ?_, ?_, ?_, ?_⟩
  · show s.ptrOut + 1 = i * cols + (j + 1); omega
  · show s.ptrInUpperLeft + cs = i * rs * img.width + (j + 1) * cs; omega
  · show s.ptrInCenterLeft + cs = s.ptrInUpperLeft + cs + bh * img.width; omega
  · show s.ptrInLowerLeft + cs = s.ptrInUpperLeft + cs + bh * img.width + bh * img.width
    omega
  · show s.ptrInUpperRight + cs = s.ptrInUpperLeft + cs + bw; omega
  · show s.ptrInCenterRight + cs = s.ptrInUpperLeft + cs + bh * img.width + bw; omega
  · show s.ptrInLowerRight + cs
      = s.ptrInUpperLeft + cs + bh * img.width + bh * img.width + bw
    omega
  · intro k hk
    show store s.out s.ptrOut _ k = outData k
    have hk' : s.ptrOut + 1 ≤ k := hk
    rw [store_ne _ _ _ _ (by omega)]
    exact h8 k (by omega)
  · intro i' j' hj' hij
    show store s.out s.ptrOut _ (i' * cols + j') = _
    rw [hval]
    by_cases hcell : i' = i ∧ j' = j
    · obtain ⟨rfl, rfl⟩ := hcell
      rw [h1, store_eq]
    · have hne : i' * cols + j' ≠ s.ptrOut := by
        rw [h1]
        intro heq
        exact hcell (coords_unique cols i' j' i j hj' hjc heq)
      rw [store_ne _ _ _ _ hne]
      apply h9 i' j' hj'
      rcases hij with h | ⟨h, h'⟩
      · exact Or.inl h
      · right
        refine ⟨h, ?_⟩
        by_contra hlt
        exact hcell ⟨h, by omega⟩
  · intro i' j' hj' hij
    show _ ≤ (if _ > s.diffMax then _ else s.diffMax)
    rw [hval]
    by_cases hcell : i' = i ∧ j' = j
    · obtain ⟨rfl, rfl⟩ := hcell
      split_ifs <;> omega
    · have hold : upDownValue img.data img.width bw bh cs rs i' j' ≤ s.diffMax := by
        apply h10 i' j' hj'
        rcases hij with h | ⟨h, h'⟩
        · exact Or.inl h
        · right
          refine ⟨h, ?_⟩
          by_contra hlt
          exact hcell ⟨h, by omega⟩
      split_ifs <;> omega
  · show (if _ > s.diffMax then _ else s.diffMax) = 0 ∨ ∃ i' j', j' < cols ∧ _ ∧
      upDownValue img.data img.width bw bh cs rs i' j' = (if _ > s.diffMax then _ else s.diffMax)
    rw [hval]
    by_cases hgt : upDownValue img.data img.width bw bh cs rs i j > s.diffMax
    · rw [if_pos hgt]
      exact Or.inr ⟨i, j, hjc, Or.inr ⟨rfl, by omega⟩, rfl⟩
    · rw [if_neg hgt]
      rcases h11 with h0 | ⟨i', j', a, b, c⟩
      · exact Or.inl h0
      · refine Or.inr ⟨i', j', a, ?_, c⟩
        rcases b with h | ⟨h, h'⟩
        · exact Or.inl h
        · exact Or.inr ⟨h, by omega⟩

theorem upDownStep_loop (outData satOut : Nat → Nat) (img : Image8_t) (hwf : img.wf)
    (hsize : 255 * (img.height * img.width) < SIZE_MOD)
    (bw bh cs rs cols i : Nat) (hi : i * rs + bh + bh < img.height)
    (hcols : cols * cs + bw ≤ img.width) (hcs : 1 ≤ cs) :
    ∀ n s, n ≤ cols → UpDownInv outData img.data img.width bw bh cs rs cols i 0 s →
      UpDownInv outData img.data img.width bw bh cs rs cols i n
        (loopN n (upDownStep (IntegralImage satOut img) cs) s) := by
  intro n
  induction n with
  | zero => intro s _ h; exact h
  | succ n ih =>
    intro s hn hinv
    rw [loopN_succ_right]
    have hm : (n + 1) * cs ≤ cols * cs := Nat.mul_le_mul_right cs hn
    rw [Nat.succ_mul] at hm
    exact upDownStep_inv outData satOut img hwf hsize bw bh cs rs cols i n _ hi (by omega)
      (by omega) (ih s (by omega) hinv)

theorem upDownRow_inv (outData satOut : Nat → Nat) (img : Image8_t) (hwf : img.wf)
    (hsize : 255 * (img.height * img.width) < SIZE_MOD)
    (bw bh cs rs cols i : Nat) (hi : i * rs + bh + bh < img.height)
    (hcols : cols * cs + bw ≤ img.width) (hcs : 1 ≤ cs) (hrs : 1 ≤ rs)
    (s : UpDownState)
    (hinv : UpDownInv outData img.data img.width bw bh cs rs cols i 0 s) :
    UpDownInv outData img.data img.width bw bh cs rs cols (i + 1) 0
      (upDownRow (IntegralImage satOut img) cs cols (img.width * rs - cols * cs) s) := by
  obtain ⟨h1, h2, h3, h4, h5, h6, h7, h8, h9, h10, h11⟩ :=
    upDownStep_loop outData satOut img hwf hsize bw bh cs rs cols i hi hcols hcs cols s
      (le_refl cols) hinv
  have hm1 : (i + 1) * cols = i * cols + cols := Nat.succ_mul i cols
  have hm2 : (i + 1) * rs * img.width = i * rs * img.width + img.width * rs := by
    rw [Nat.succ_mul, Nat.add_mul, Nat.mul_comm rs img.width]
  have hm3 : img.width ≤ img.width * rs := Nat.le_mul_of_pos_right _ (by omega)
  refine ⟨?_, ?_, ?_, ?_, ?_, ?_, ?_, ?_, ?_, ?_, ?_⟩
  · exact h1.trans (by omega)
  · show (loopN cols (upDownStep (IntegralImage satOut img) cs) s).ptrInUpperLeft
      + (img.width * rs - cols * cs) = (i + 1) * rs * img.width + 0 * cs
    omega
  · show (loopN cols (upDownStep (IntegralImage satOut img) cs) s).ptrInCenterLeft
      + (img.width * rs - cols * cs)
      = (loopN cols (upDownStep (IntegralImage satOut img) cs) s).ptrInUpperLeft
        + (img.width * rs - cols * cs) + bh * img.width
    omega
  · show (loopN cols (upDownStep (IntegralImage satOut img) cs) s).ptrInLowerLeft
      + (img.width * rs - cols * cs)
      = (loopN cols (upDownStep (IntegralImage satOut img) cs) s).ptrInUpperLeft
        + (img.width * rs - cols * cs) + bh * img.width + bh * img.width
    omega
  · show (loopN cols (upDownStep (IntegralImage satOut img) cs) s).ptrInUpperRight
      + (img.width * rs - cols * cs)
      = (loopN cols (upDownStep (IntegralImage satOut img) cs) s).ptrInUpperLeft
        + (img.width * rs - cols * cs) + bw
    omega
  · show (loopN cols (upDownStep (IntegralImage satOut img) cs) s).ptrInCenterRight
      + (img.width * rs - cols * cs)
      = (loopN cols (upDownStep (IntegralImage satOut img) cs) s).ptrInUpperLeft
        + (img.width * rs - cols * cs) + bh * img.width + bw
    omega
  · show (loopN cols (upDownStep (IntegralImage satOut img) cs) s).ptrInLowerRight
      + (img.width * rs - cols * cs)
      = (loopN cols (upDownStep (IntegralImage satOut img) cs) s).ptrInUpperLeft
        + (img.width * rs - cols * cs) + bh * img.width + bh * img.width + bw
    omega
  · intro k hk
    exact h8 k hk
  · intro i' j' hj' hij
    refine h9 i' j' hj' ?_
    rcases hij with h | ⟨_, h'⟩
    · by_cases hlt : i' < i
      · exact Or.inl hlt
      · exact Or.inr ⟨by omega, hj'⟩
    · omega
  · intro i' j' hj' hij
    refine h10 i' j' hj' ?_
    rcases hij with h | ⟨_, h'⟩
    · by_cases hlt : i' < i
      · exact Or.inl hlt
      · exact Or.inr ⟨by omega, hj'⟩
    · omega
  · rcases h11 with h0 | ⟨i', j', a, b, c⟩
    · exact Or.inl h0
    · refine Or.inr ⟨i', j', a, ?_, c⟩
      rcases b with h | ⟨h, _⟩
      · exact Or.inl (by omega)
      · exact Or.inl (by omega)

theorem upDownRows_inv (outData satOut : Nat → Nat) (img : Image8_t) (hwf : img.wf)
    (hsize : 255 * (img.height * img.width) < SIZE_MOD)
    (bw bh cs rs cols rows : Nat) (hrows : rows * rs + bh + bh ≤ img.height)
    (hcols : cols * cs + bw ≤ img.width) (hcs : 1 ≤ cs) (hrs : 1 ≤ rs)
    (s0 : UpDownState)
    (h0 : UpDownInv outData img.data img.width bw bh cs rs cols 0 0 s0) :
    ∀ n, n ≤ rows →
      UpDownInv outData img.data img.width bw bh cs rs cols n 0
        (loopN n
          (upDownRow (IntegralImage satOut img) cs cols (img.width * rs - cols * cs)) s0) := by
  intro n
  induction n with
  | zero => intro _; exact h0
  | succ n ih =>
    intro hn
    rw [loopN_succ_right]
    have hm : (n + 1) * rs ≤ rows * rs := Nat.mul_le_mul_right rs hn
    rw [Nat.succ_mul] at hm
    exact upDownRow_inv outData satOut img hwf hsize bw bh cs rs cols n (by omega) hcols hcs
      hrs _ (ih (by omega))

theorem usub_eq (a b : Nat) (ha : a < SIZE_MOD) (hb : b ≤ a) : usub a b = a - b := by
  unfold usub
  unfold SIZE_MOD at *
  omega

theorem umul_eq (a b : Nat) (h : a * b < SIZE_MOD) : umul a b = a * b := by
  unfold umul
  exact Nat.mod_eq_of_lt h

/-- C12: for `sat = IntegralImage(img)` of a `w x h` 8-bit image (with
`255*w*h` within the `size_t` range), box sizes `bw >= 1`, `bh >= 1` with
`bw <= w` and `2*bh <= h`, and steps `cs >= 1`, `rs >= 1`,
`IntegralFeatureUpDown` writes `(h-2*bh)/rs` rows of `(w-bw)/cs` values and
nothing beyond them; the value at output `(i, j)` is `|U - L|` with `U` the sum
of `img` over rows `i*rs+1 .. i*rs+bh` and columns `j*cs+1 .. j*cs+bw` and `L`
the sum over rows `i*rs+bh+1 .. i*rs+2*bh` and the same columns; and the value
stored in `*outMaxValue` is the maximum of the written values, 0 when there is
none. -/
theorem IntegralFeatureUpDown_values (outData satOut : Nat → Nat) (img : Image8_t)
    (hwf : img.wf) (hsize : 255 * (img.height * img.width) < SIZE_MOD)
    (bw bh cs rs : Nat) (hbw : 1 ≤ bw) (hbh : 1 ≤ bh) (hbw2 : bw ≤ img.width)
    (hbh2 : 2 * bh ≤ img.height) (hcs : 1 ≤ cs) (hrs : 1 ≤ rs) :
    (IntegralFeatureUpDown outData (integralOf satOut img) bw bh cs rs).ptrOut
      = (img.height - 2 * bh) / rs * ((img.width - bw) / cs) ∧
    (∀ k, (img.height - 2 * bh) / rs * ((img.width - bw) / cs) ≤ k →
      (IntegralFeatureUpDown outData (integralOf satOut img) bw bh cs rs).out k
        = outData k) ∧
    (∀ i j, i < (img.height - 2 * bh) / rs → j < (img.width - bw) / cs →
      (IntegralFeatureUpDown outData (integralOf satOut img) bw bh cs rs).out
          (i * ((img.width - bw) / cs) + j)
        = upDownValue img.data img.width bw bh cs rs i j) ∧
    (∀ i j, i < (img.height - 2 * bh) / rs → j < (img.width - bw) / cs →
      upDownValue img.data img.width bw bh cs rs i j
        ≤ (IntegralFeatureUpDown outData (integralOf satOut img) bw bh cs rs).diffMax) ∧
    ((IntegralFeatureUpDown outData (integralOf satOut img) bw bh cs rs).diffMax = 0 ∨
      ∃ i j, i < (img.height - 2 * bh) / rs ∧ j < (img.width - bw) / cs ∧
        upDownValue img.data img.width bw bh cs rs i j
          = (IntegralFeatureUpDown outData (integralOf satOut img) bw bh cs rs).diffMax) := by
  have hhw : img.height * img.width < SIZE_MOD := by omega
  have hw : img.width < SIZE_MOD := by
    have : img.width ≤ img.height * img.width := Nat.le_mul_of_pos_left _ (by omega)
    omega
  have hh : img.height < SIZE_MOD := by
    have : img.height ≤ img.height * img.width := Nat.le_mul_of_pos_right _ (by omega)
    omega
  have hbhw : bh * img.width + bh * img.width ≤ img.height * img.width := by
    have := Nat.mul_le_mul_right img.width hbh2
    rw [Nat.two_mul, Nat.add_mul] at this
    exact this
  have hcolsle : (img.width - bw) / cs * cs ≤ img.width - bw := Nat.div_mul_le_self _ _
  have hrowsle : (img.height - 2 * bh) / rs * rs ≤ img.height - 2 * bh :=
    Nat.div_mul_le_self _ _
  have e1 : usub img.width bw / cs = (img.width - bw) / cs := by
    rw [usub_eq _ _ hw hbw2]
  have e2 : usub img.height (bh * 2 % SIZE_MOD) / rs = (img.height - 2 * bh) / rs := by
    rw [Nat.mod_eq_of_lt (by omega), usub_eq _ _ hh (by omega), Nat.mul_comm bh 2]
  have e3 : umul bh img.width = bh * img.width := umul_eq _ _ (by omega)
  have e4 : bh * img.width * 2 % SIZE_MOD = bh * img.width + bh * img.width := by
    rw [Nat.mod_eq_of_lt (by omega)]; omega
  have e5 : umul ((img.width - bw) / cs) cs = (img.width - bw) / cs * cs :=
    umul_eq _ _ (by omega)
  have hinit : UpDownInv outData img.data img.width bw bh cs rs ((img.width - bw) / cs) 0 0
      { out := outData, ptrOut := 0, ptrInUpperLeft := 0,
        ptrInCenterLeft := bh * img.width,
        ptrInLowerLeft := bh * img.width + bh * img.width,
        ptrInUpperRight := 0 + bw,
        ptrInCenterRight := bh * img.width + bw,
        ptrInLowerRight := bh * img.width + bh * img.width + bw,
        diffMax := 0 } := by
    refine ⟨?_, ?_, ?_, ?_, ?_, ?_, ?_, ?_, ?_, ?_, ?_⟩
    · show 0 = 0 * _ + 0; omega
    · show 0 = 0 * rs * img.width + 0 * cs; omega
    · show bh * img.width = 0 + bh * img.width; omega
    · show bh * img.width + bh * img.width = 0 + bh * img.width + bh * img.width; omega
    · rfl
    · show bh * img.width + bw = 0 + bh * img.width + bw; omega
    · show bh * img.width + bh * img.width + bw = 0 + bh * img.width + bh * img.width + bw
      omega
    · intro k _; rfl
    · intro i' j' _ hij; omega
    · intro i' j' _ hij; omega
    · exact Or.inl rfl
  unfold IntegralFeatureUpDown integralOf
  simp only [e1, e2, e3, e4, e5]
  by_cases hrows0 : (img.height - 2 * bh) / rs = 0
  · rw [hrows0]
    refine ⟨by show 0 = 0 * _; omega, fun k _ => rfl, fun i j hi _ => by omega,
      fun i j hi _ => by omega, Or.inl rfl⟩
  · have hrs2 : rs ≤ img.height := by
      have : 1 * rs ≤ (img.height - 2 * bh) / rs * rs :=
        Nat.mul_le_mul_right rs (Nat.pos_of_ne_zero hrows0)
      omega
    have hwrs : img.width * rs ≤ img.height * img.width := by
      rw [Nat.mul_comm img.width rs]
      exact Nat.mul_le_mul_right _ hrs2
    have hm3 : img.width ≤ img.width * rs := Nat.le_mul_of_pos_right _ (by omega)
    have e6 : usub (umul img.width rs) ((img.width - bw) / cs * cs)
        = img.width * rs - (img.width - bw) / cs * cs := by
      rw [umul_eq _ _ (by omega), usub_eq _ _ (by omega) (by omega)]
    rw [e6]
    obtain ⟨h1, _, _, _, _, _, _, h8, h9, h10, h11⟩ :=
      upDownRows_inv outData satOut img hwf hsize bw bh cs rs ((img.width - bw) / cs)
        ((img.height - 2 * bh) / rs) (by omega) (by omega) hcs hrs _ hinit
        ((img.height - 2 * bh) / rs) (le_refl _)
    refine ⟨by rw [h1]; omega, ?_, ?_, ?_, ?_⟩
    · intro k hk
      exact h8 k (by rw [h1]; omega)
    · intro i j hi hj
      exact h9 i j hj (Or.inl hi)
    · intro i j hi hj
      exact h10 i j hj (Or.inl hi)
    · rcases h11 with h0 | ⟨i, j, a, b, c⟩
      · exact Or.inl h0
      · refine Or.inr ⟨i, j, ?_, a, c⟩
        rcases b with h | ⟨_, h⟩
        · exact h
        · omega

/-- C12, witness: the 5x6 image with samples `(k*k + 3) % 50`, boxes 2 wide and
1 high, column step 1 and row step 2: six values are written, and the value at
output (1, 2) is the stated difference. -/
theorem IntegralFeatureUpDown_values_witness :
    (IntegralFeatureUpDown (fun _ => 0) (integralOf (fun _ => 0) featureTestImage) 2 1 1 2).ptrOut
      = (featureTestImage.height - 2 * 1) / 2 * ((featureTestImage.width - 2) / 1) ∧
    (IntegralFeatureUpDown (fun _ => 0) (integralOf (fun _ => 0) featureTestImage) 2 1 1 2).out
        (1 * ((featureTestImage.width - 2) / 1) + 2)
      = upDownValue featureTestImage.data featureTestImage.width 2 1 1 2 1 2 :=
  ⟨(IntegralFeatureUpDown_values (fun _ => 0) (fun _ => 0) featureTestImage
      (fun k => Nat.lt_of_lt_of_le (Nat.mod_lt _ (by decide)) (by decide))
      (by decide) 2 1 1 2 (by decide) (by decide) (by decide) (by decide) (by decide)
      (by decide)).1,
   (IntegralFeatureUpDown_values (fun _ => 0) (fun _ => 0) featureTestImage
      (fun k => Nat.lt_of_lt_of_le (Nat.mod_lt _ (by decide)) (by decide))
      (by decide) 2 1 1 2 (by decide) (by decide) (by decide) (by decide) (by decide)
      (by decide)).2.2.1 1 2 (by decide) (by decide)⟩

/-! ## RegionErode33: the border -/

set_option maxRecDepth 100000 in
/-- C30 (as stated, refuted): on the 3x3 image whose samples are all 255,
`RegionErode33` with mark 0 clears the pixel at row 0, column 1, a pixel of the
first row. -/
theorem RegionErode33_border_counterexample :
    (constImage 3 3 255).wf ∧ 3 ≤ (constImage 3 3 255).width ∧
    2 ≤ (constImage 3 3 255).height ∧
    (RegionErode33 (constImage 3 3 255) 0).data (0 * 3 + 1) = 0 ∧
    (constImage 3 3 255).data (0 * 3 + 1) = 255 := by
  refine ⟨fun _ => show (255 : Nat) < 256 by decide, by decide, by decide, by decide, rfl⟩

/-- C30 (amended): for every 8-bit image (`w >= 3`, `h >= 2`) and every mark,
`RegionErode33` leaves every pixel of the last row, the first column and the
last column unchanged; in the first row it replaces every non-zero pixel of
the columns `1 .. w-2` by the mark and leaves the zero pixels unchanged. -/
theorem RegionErode33_border (img : Image8_t) (mark : Nat) (hw : 3 ≤ img.width)
    (hh : 2 ≤ img.height) :
    (∀ r c, r < img.height → c < img.width →
      (c = 0 ∨ c + 1 = img.width ∨ r + 1 = img.height) →
      (RegionErode33 img mark).data (r * img.width + c) = img.data (r * img.width + c)) ∧
    (∀ c, 1 ≤ c → c + 2 ≤ img.width →
      (RegionErode33 img mark).data (0 * img.width + c)
        = if img.data (0 * img.width + c) ≠ 0 then mark else img.data (0 * img.width + c)) := by
  constructor
  · intro r c hr hc hb
    have hreg := inRegion_coords img.width img.height r c hc
    rw [RegionErode33_window img mark (by omega), if_neg]
    intro h
    have := hreg.1 h.1
    omega
  · intro c hc1 hc2
    have hreg := inRegion_coords img.width img.height 0 c (by omega)
    rw [RegionErode33_window img mark (by omega)]
    have hnf : ¬ colFull img.data img.width (0 * img.width + c) := by
      unfold colFull
      intro h
      omega
    by_cases hz : img.data (0 * img.width + c) ≠ 0
    · rw [if_pos hz, if_pos]
      exact ⟨hreg.2 ⟨hc1, hc2, by omega⟩, hz, fun h => hnf h.2.1⟩
    · rw [if_neg hz, if_neg]
      intro h
      exact hz h.2.1

/-- C30 (amended), witness: the 5x5 image with a 3x3 block of 255 in its centre. -/
theorem RegionErode33_border_witness :
    (∀ r c, r < blockImage.height → c < blockImage.width →
      (c = 0 ∨ c + 1 = blockImage.width ∨ r + 1 = blockImage.height) →
      (RegionErode33 blockImage 0).data (r * blockImage.width + c)
        = blockImage.data (r * blockImage.width + c)) ∧
    (∀ c, 1 ≤ c → c + 2 ≤ blockImage.width →
      (RegionErode33 blockImage 0).data (0 * blockImage.width + c)
        = if blockImage.data (0 * blockImage.width + c) ≠ 0 then 0
          else blockImage.data (0 * blockImage.width + c)) :=
  RegionErode33_border blockImage 0 (by decide) (by decide)

/-! ## Opening of an image without a full 3x3 window -/

theorem erode_clears (img : Image8_t) (hw : 3 ≤ img.width)
    (hborder : ∀ r c, r < img.height → c < img.width →
      (c = 0 ∨ c + 1 = img.width ∨ r + 1 = img.height) → img.data (r * img.width + c) = 0)
    (hnone : ∀ r c, r + 2 < img.height → c + 2 < img.width →
      ∃ dr dc, dr < 3 ∧ dc < 3 ∧ img.data ((r + dr) * img.width + (c + dc)) = 0)
    (n : Nat) (hn : n < img.height * img.width) :
    (RegionErode33 img 0).data n = 0 := by
  by_contra hne
  have hb : ∀ m, m < img.height * img.width → ¬ inRegion img.width img.height m →
      img.data m = 0 := by
    intro m hm hout
    obtain ⟨h1, h2, h3⟩ := not_inRegion_border img.width img.height m (by omega) hm hout
    have := hborder (m / img.width) (m % img.width) h1 h2 h3
    rwa [Nat.div_add_mod' m img.width] at this
  obtain ⟨h0, a1, a2, a3, a4, a5, a6, a7, a8, a9⟩ :=
    erode_nonzero_window img (by omega) hb n hn hne
  have hin : inRegion img.width img.height n := by
    by_contra hout
    exact a5 (hb n hn hout)
  obtain ⟨i1, i2, i3⟩ := hin
  have hdm := Nat.div_add_mod' n img.width
  generalize hr : n / img.width = r at hdm
  generalize hc : n % img.width = c at hdm i1 i2
  have hr1 : 1 ≤ r := by
    by_contra hlt
    have : r = 0 := by omega
    subst this
    omega
  have hrh : r + 2 ≤ img.height := by
    by_contra hlt
    have : img.height ≤ r + 1 := by omega
    have := Nat.mul_le_mul_right img.width this
    have e : (r + 1) * img.width = r * img.width + img.width := Nat.succ_mul r img.width
    omega
  obtain ⟨r1, rfl⟩ : ∃ r1, r = r1 + 1 := ⟨r - 1, by omega⟩
  obtain ⟨c1, rfl⟩ : ∃ c1, c = c1 + 1 := ⟨c - 1, by omega⟩
  obtain ⟨dr, dc, hdr, hdc, hz⟩ := hnone r1 c1 (by omega) (by omega)
  have f0 : (r1 + 0) * img.width = r1 * img.width := by rw [Nat.add_zero]
  have f1 : (r1 + 1) * img.width = r1 * img.width + img.width := Nat.succ_mul r1 img.width
  have f2 : (r1 + 2) * img.width = (r1 + 1) * img.width + img.width :=
    Nat.succ_mul (r1 + 1) img.width
  have hdr3 : dr = 0 ∨ dr = 1 ∨ dr = 2 := by omega
  have hdc3 : dc = 0 ∨ dc = 1 ∨ dc = 2 := by omega
  rcases hdr3 with rfl | rfl | rfl <;> rcases hdc3 with rfl | rfl | rfl
  · exact a1 (by rw [← hz]; congr 1; omega)
  · exact a4 (by rw [← hz]; congr 1; omega)
  · exact a7 (by rw [← hz]; congr 1; omega)
  · exact a2 (by rw [← hz]; congr 1; omega)
  · exact a5 (by rw [← hz]; congr 1; omega)
  · exact a8 (by rw [← hz]; congr 1; omega)
  · exact a3 (by rw [← hz]; congr 1; omega)
  · exact a6 (by rw [← hz]; congr 1; omega)
  · exact a9 (by rw [← hz]; congr 1; omega)

theorem dilate_of_zero (img : Image8_t) (mark : Nat) (hw : 2 ≤ img.width)
    (hh : 1 ≤ img.height) (hz : ∀ n, n < img.height * img.width → img.data n = 0)
    (q : Nat) (hq : q < img.height * img.width) :
    (RegionDilate33 img mark).data q = 0 := by
  rw [RegionDilate33_window img mark hw hh]
  rw [if_neg, hz q hq]
  rintro ⟨hin, _, hany⟩
  have hq1 : 1 ≤ q := inRegion_pos _ _ _ hin
  unfold inRegion at hin
  obtain ⟨i1, i2, i3⟩ := hin
  change 1 ≤ q % img.width at i1
  change q + img.width + 1 < img.height * img.width at i3
  unfold colAny at hany
  change (_ ∧ img.data (q - 1 - img.width) ≠ 0 ∨ img.data (q - 1) ≠ 0 ∨
      img.data (q - 1 + img.width) ≠ 0) ∨
    (_ ∧ img.data (q - img.width) ≠ 0 ∨ img.data q ≠ 0 ∨ img.data (q + img.width) ≠ 0) ∨
    (_ ∧ img.data (q + 1 - img.width) ≠ 0 ∨ img.data (q + 1) ≠ 0 ∨
      img.data (q + 1 + img.width) ≠ 0) at hany
  rcases hany with (⟨_, h⟩ | h | h) | (⟨_, h⟩ | h | h) | (⟨_, h⟩ | h | h) <;>
    exact h (hz _ (by omega))

/-- C25: for every 8-bit image (`w >= 3`, `h >= 2`) that contains no 3x3 window
of all non-zero pixels and whose first column, last column and last row are
zero, `RegionErode33` with mark 0 followed by `RegionDilate33` with any mark
leaves every pixel of the image zero. -/
theorem opening_removes_small (img : Image8_t) (mark : Nat) (hw : 3 ≤ img.width)
    (hh : 2 ≤ img.height)
    (hborder : ∀ r c, r < img.height → c < img.width →
      (c = 0 ∨ c + 1 = img.width ∨ r + 1 = img.height) → img.data (r * img.width + c) = 0)
    (hnone : ∀ r c, r + 2 < img.height → c + 2 < img.width →
      ∃ dr dc, dr < 3 ∧ dc < 3 ∧ img.data ((r + dr) * img.width + (c + dc)) = 0)
    (q : Nat) (hq : q < img.height * img.width) :
    (RegionDilate33 (RegionErode33 img 0) mark).data q = 0 :=
  dilate_of_zero (RegionErode33 img 0) mark (by show 2 ≤ img.width; omega)
    (by show 1 ≤ img.height; omega)
    (fun n hn => erode_clears img hw hborder hnone n hn) q hq

/-- C25, witness: the blob of three non-zero pixels around (10,10) in the
zeroed 64x64 image; the pixel at row 10, column 10 is zero after the opening. -/
theorem opening_removes_small_witness :
    (RegionDilate33 (RegionErode33 blobImage 0) 255).data (10 * 64 + 10) = 0 :=
  opening_removes_small blobImage 255 (by decide) (by decide)
    (by
      intro r c hr hc hb
      show (if r * 64 + c = 650 ∨ r * 64 + c = 651 ∨ r * 64 + c = 714 then 255 else 0) = 0
      have hr64 : r < 64 := hr
      have hc64 : c < 64 := hc
      have hb2 : c = 0 ∨ c + 1 = 64 ∨ r + 1 = 64 := hb
      rw [if_neg]
      omega)
    (by
      intro r c hr hc
      by_cases h0 : r * 64 + c = 650 ∨ r * 64 + c = 651 ∨ r * 64 + c = 714
      · refine ⟨2, 2, by decide, by decide, ?_⟩
        show (if (r + 2) * 64 + (c + 2) = 650 ∨ (r + 2) * 64 + (c + 2) = 651 ∨
          (r + 2) * 64 + (c + 2) = 714 then 255 else 0) = 0
        rw [if_neg]
        omega
      · refine ⟨0, 0, by decide, by decide, ?_⟩
        show (if (r + 0) * 64 + (c + 0) = 650 ∨ (r + 0) * 64 + (c + 0) = 651 ∨
          (r + 0) * 64 + (c + 0) = 714 then 255 else 0) = 0
        rw [if_neg]
        simpa using h0)
    (10 * 64 + 10) (by decide)
/-! ## ImageHistogram: the tally -/

theorem tallyStep_loop (data b0 : Nat → Nat) :
    ∀ n, (loopN n (tallyStep data) { bins := b0, ptrImg := 0 }).ptrImg = n ∧
      ∀ v, b0 v = 0 →
        (loopN n (tallyStep data) { bins := b0, ptrImg := 0 }).bins v
          = countEq data v n % SIZE_MOD := by
  intro n
  induction n with
  | zero => exact ⟨rfl, fun v hv => by rw [show countEq data v 0 = 0 from rfl]; exact hv⟩
  | succ n ih =>
    rw [loopN_succ_right]
    obtain ⟨h1, h2⟩ := ih
    generalize loopN n (tallyStep data) { bins := b0, ptrImg := 0 } = s at h1 h2
    refine ⟨by show s.ptrImg + 1 = n + 1; omega, ?_⟩
    intro v hv
    show store s.bins (data s.ptrImg) (uadd (s.bins (data s.ptrImg)) 1) v
      = (countEq data v n + (if data n = v then 1 else 0)) % SIZE_MOD
    rw [h1]
    by_cases e : data n = v
    · subst e
      rw [store_eq, h2 _ hv, uadd_mod, if_pos rfl]
    · rw [store_ne _ _ _ _ (fun h => e h.symm), h2 v hv, if_neg e, Nat.add_zero]

theorem countEq_le (data : Nat → Nat) (v : Nat) : ∀ n, countEq data v n ≤ n := by
  intro n
  induction n with
  | zero => exact Nat.le_refl 0
  | succ n ih =>
    show countEq data v n + (if data n = v then 1 else 0) ≤ n + 1
    split_ifs <;> omega

theorem countEq_pos (data : Nat → Nat) (k : Nat) :
    ∀ n, k < n → 1 ≤ countEq data (data k) n := by
  intro n
  induction n with
  | zero => intro h; omega
  | succ n ih =>
    intro h
    show 1 ≤ countEq data (data k) n + (if data n = data k then 1 else 0)
    by_cases e : k = n
    · subst e; rw [if_pos rfl]; omega
    · have := ih (by omega); omega

theorem cumSum_congr (f g : Nat → Nat) :
    ∀ j, (∀ i, i ≤ j → f i = g i) → cumSum f j = cumSum g j := by
  intro j
  induction j with
  | zero => intro h; exact h 0 (Nat.le_refl 0)
  | succ j ih =>
    intro h
    show cumSum f j + f (j + 1) = cumSum g j + g (j + 1)
    rw [ih (fun i hi => h i (by omega)), h (j + 1) (Nat.le_refl _)]

theorem cumMean_congr (f g : Nat → Nat) :
    ∀ j, (∀ i, i ≤ j → f i = g i) → cumMean f j = cumMean g j := by
  intro j
  induction j with
  | zero => intro h; show 0 * f 0 = 0 * g 0; rw [h 0 (Nat.le_refl 0)]
  | succ j ih =>
    intro h
    show cumMean f j + (j + 1) * f (j + 1) = cumMean g j + (j + 1) * g (j + 1)
    rw [ih (fun i hi => h i (by omega)), h (j + 1) (Nat.le_refl _)]

theorem cumSum_indicator (f : Nat → Nat) (d : Nat) :
    ∀ j, cumSum (fun v => f v + (if d = v then 1 else 0)) j
      = cumSum f j + (if d ≤ j then 1 else 0) := by
  intro j
  induction j with
  | zero =>
    show f 0 + (if d = 0 then 1 else 0) = f 0 + (if d ≤ 0 then 1 else 0)
    split_ifs <;> omega
  | succ j ih =>
    show cumSum (fun v => f v + (if d = v then 1 else 0)) j
        + (f (j + 1) + (if d = j + 1 then 1 else 0))
      = cumSum f j + f (j + 1) + (if d ≤ j + 1 then 1 else 0)
    rw [ih]
    split_ifs <;> omega

/-- The counts of the values `0 .. j` add up to the number of samples that are
at most `j`. -/
theorem cumSum_countEq (data : Nat → Nat) (j : Nat) :
    ∀ n, (∀ k, k < n → data k ≤ j) → cumSum (fun v => countEq data v n) j = n := by
  intro n
  induction n with
  | zero =>
    intro _
    have : ∀ i, cumSum (fun _ => 0) i = 0 := by
      intro i
      induction i with
      | zero => rfl
      | succ i ih => show cumSum (fun _ => 0) i + 0 = 0; rw [ih]
    exact this j
  | succ n ih =>
    intro h
    show cumSum (fun v => (fun v => countEq data v n) v + (if data n = v then 1 else 0)) j
      = n + 1
    rw [cumSum_indicator, ih (fun k hk => h k (by omega)), if_pos (h n (by omega))]

/-- The bins, the last cumulative entry and the total left by `ImageHistogram`
on a 256-bin histogram with zeroed bins. -/
theorem ImageHistogram_tally (outHistogram : Histogram_t) (inImg : Image8_t)
    (hwf : inImg.wf) (hsize : inImg.width * inImg.height < SIZE_MOD)
    (hbins : outHistogram.numberBins = 256) (hzero : ∀ v, v < 256 → outHistogram.bins v = 0) :
    (ImageHistogram outHistogram inImg).numberCounts = inImg.width * inImg.height ∧
    (∀ v, v < 256 → (ImageHistogram outHistogram inImg).bins v
      = countEq inImg.data v (inImg.width * inImg.height)) ∧
    ∀ i, i < 256 → (ImageHistogram outHistogram inImg).sumBins i
      = cumSum (fun v => countEq inImg.data v (inImg.width * inImg.height)) i := by
  have hn : umul inImg.width inImg.height = inImg.width * inImg.height := umul_eq _ _ hsize
  have hb : ∀ v, v < 256 → (ImageHistogram outHistogram inImg).bins v
      = countEq inImg.data v (inImg.width * inImg.height) := by
    intro v hv
    show (loopN (umul inImg.width inImg.height) (tallyStep inImg.data)
      { bins := outHistogram.bins, ptrImg := 0 }).bins v = _
    rw [hn, (tallyStep_loop inImg.data outHistogram.bins _).2 v (hzero v hv)]
    exact Nat.mod_eq_of_lt (Nat.lt_of_le_of_lt (countEq_le _ _ _) hsize)
  refine ⟨hn, hb, ?_⟩
  intro i hi
  rw [(ImageHistogram_cumulative_mod outHistogram inImg i (by omega)).1,
    cumSum_congr _ (fun v => countEq inImg.data v (inImg.width * inImg.height)) i
      (fun v hv => hb v (by omega))]
  apply Nat.mod_eq_of_lt
  have m := cumSum_mono (fun v => countEq inImg.data v (inImg.width * inImg.height)) i (255 - i)
  rw [show i + (255 - i) = 255 by omega,
    cumSum_countEq inImg.data 255 _ (fun k _ => by have := hwf k; omega)] at m
  omega

/-- C21: for every 8-bit image (with `width*height` below `2^64`) and a 256-bin
histogram whose bins are zero before the call, after `ImageHistogram` every
`bins[v]` is the number of pixels equal to `v`, and
`sumBins[numberBins-1] = numberCounts = width*height`. -/
theorem ImageHistogram_counts (outHistogram : Histogram_t) (inImg : Image8_t)
    (hwf : inImg.wf) (hsize : inImg.width * inImg.height < SIZE_MOD)
    (hbins : outHistogram.numberBins = 256) (hzero : ∀ v, v < 256 → outHistogram.bins v = 0) :
    (∀ v, v < 256 → (ImageHistogram outHistogram inImg).bins v
      = countEq inImg.data v (inImg.width * inImg.height)) ∧
    (ImageHistogram outHistogram inImg).sumBins
        ((ImageHistogram outHistogram inImg).numberBins - 1)
      = (ImageHistogram outHistogram inImg).numberCounts ∧
    (ImageHistogram outHistogram inImg).numberCounts = inImg.width * inImg.height := by
  obtain ⟨h1, h2, h3⟩ := ImageHistogram_tally outHistogram inImg hwf hsize hbins hzero
  refine ⟨h2, ?_, h1⟩
  rw [h1, show (ImageHistogram outHistogram inImg).numberBins = outHistogram.numberBins from rfl,
    hbins, h3 255 (by omega)]
  exact cumSum_countEq inImg.data 255 _ (fun k _ => by have := hwf k; omega)

/-- C21, witness: the 8x8 image of constant value 42 and the zeroed 256-bin
histogram. -/
theorem ImageHistogram_counts_witness :
    (∀ v, v < 256 → (ImageHistogram (zeroHistogram 256) (constImage 8 8 42)).bins v
      = countEq (constImage 8 8 42).data v
          ((constImage 8 8 42).width * (constImage 8 8 42).height)) ∧
    (ImageHistogram (zeroHistogram 256) (constImage 8 8 42)).sumBins
        ((ImageHistogram (zeroHistogram 256) (constImage 8 8 42)).numberBins - 1)
      = (ImageHistogram (zeroHistogram 256) (constImage 8 8 42)).numberCounts ∧
    (ImageHistogram (zeroHistogram 256) (constImage 8 8 42)).numberCounts
      = (constImage 8 8 42).width * (constImage 8 8 42).height :=
  ImageHistogram_counts (zeroHistogram 256) (constImage 8 8 42)
    (fun _ => show (42 : Nat) < 256 by decide) (by decide) rfl (fun _ _ => rfl)
/-! ## EqualizeImage -/

theorem rescaleStep_loop (hist init : Nat → Nat) (numCounts : Nat) :
    ∀ n, (loopN n (rescaleStep hist numCounts)
        { sumBins := init, ptrHistSumBins := 0, ptrSumBins := 0 }).ptrHistSumBins = n ∧
      (loopN n (rescaleStep hist numCounts)
        { sumBins := init, ptrHistSumBins := 0, ptrSumBins := 0 }).ptrSumBins = n ∧
      ∀ i, i < n →
        (loopN n (rescaleStep hist numCounts)
          { sumBins := init, ptrHistSumBins := 0, ptrSumBins := 0 }).sumBins i
          = usub (hist i * 256 % SIZE_MOD) 1 / numCounts := by
  intro n
  induction n with
  | zero => exact ⟨rfl, rfl, fun i hi => by omega⟩
  | succ n ih =>
    rw [loopN_succ_right]
    obtain ⟨h1, h2, h3⟩ := ih
    generalize loopN n (rescaleStep hist numCounts)
      { sumBins := init, ptrHistSumBins := 0, ptrSumBins := 0 } = s at h1 h2 h3
    refine ⟨by show s.ptrHistSumBins + 1 = n + 1; omega,
      by show s.ptrSumBins + 1 = n + 1; omega, ?_⟩
    intro i hi
    show store s.sumBins s.ptrSumBins
      (usub (hist s.ptrHistSumBins * 256 % SIZE_MOD) 1 / numCounts) i = _
    rw [h1, h2]
    by_cases e : i = n
    · subst e; rw [store_eq]
    · rw [store_ne _ _ _ _ e]; exact h3 i (by omega)

theorem remapStep_loop (lut data : Nat → Nat) :
    ∀ n, (loopN n (remapStep lut) { img := data, ptrImg := 0 }).ptrImg = n ∧
      ∀ q, (loopN n (remapStep lut) { img := data, ptrImg := 0 }).img q
        = if q < n then lut (data q) % 256 else data q := by
  intro n
  induction n with
  | zero => exact ⟨rfl, fun q => by rw [if_neg (Nat.not_lt_zero q)]; rfl⟩
  | succ n ih =>
    rw [loopN_succ_right]
    obtain ⟨h1, h2⟩ := ih
    generalize loopN n (remapStep lut) { img := data, ptrImg := 0 } = s at h1 h2
    refine ⟨by show s.ptrImg + 1 = n + 1; omega, ?_⟩
    intro q
    show store s.img s.ptrImg (lut (s.img s.ptrImg) % 256) q = _
    rw [h1]
    by_cases e : q = n
    · subst e
      rw [store_eq, h2 q, if_neg (Nat.lt_irrefl q), if_pos (Nat.lt_succ_self q)]
    · rw [store_ne _ _ _ _ e, h2 q]
      by_cases hq : q < n
      · rw [if_pos hq, if_pos (by omega)]
      · rw [if_neg hq, if_neg (by omega)]

/-- What `EqualizeImage` leaves in the image, for a histogram with a non-zero
total: every pixel whose value indexes a bin is replaced by its rescaled entry,
narrowed to eight bits. -/
theorem EqualizeImage_data (localInit : Nat → Nat) (outImg : Image8_t) (h : Histogram_t)
    (hcount : h.numberCounts ≠ 0) :
    ∃ out, EqualizeImage localInit outImg h = some out ∧
      out.width = outImg.width ∧ out.height = outImg.height ∧
      ∀ k, k < umul outImg.width outImg.height → outImg.data k < h.numberBins →
        out.data k
          = usub (h.sumBins (outImg.data k) * 256 % SIZE_MOD) 1 / h.numberCounts % 256 := by
  unfold EqualizeImage
  rw [if_neg (fun hh => hcount hh.2)]
  refine ⟨_, rfl, rfl, rfl, ?_⟩
  intro k hk hv
  show (loopN (umul outImg.width outImg.height) (remapStep _)
    { img := outImg.data, ptrImg := 0 }).img k = _
  rw [(remapStep_loop _ outImg.data _).2 k, if_pos hk,
    (rescaleStep_loop h.sumBins localInit h.numberCounts h.numberBins).2.2 _ hv]

theorem cumSum_le_total (data : Nat → Nat) (n i : Nat) (hi : i < 256)
    (hwf : ∀ k, data k < 256) :
    cumSum (fun v => countEq data v n) i ≤ n := by
  have m := cumSum_mono (fun v => countEq data v n) i (255 - i)
  rw [show i + (255 - i) = 255 by omega,
    cumSum_countEq data 255 n (fun k _ => by have := hwf k; omega)] at m
  exact m

theorem cumSum_ge_bin (f : Nat → Nat) : ∀ i, f i ≤ cumSum f i := by
  intro i
  cases i with
  | zero => exact Nat.le_refl _
  | succ i => show f (i + 1) ≤ cumSum f i + f (i + 1); omega

/-- C23: for every non-empty 8-bit image (with `256*width*height` below `2^64`)
equalized with its own 256-bin `ImageHistogram`, `EqualizeImage` returns, and
each pixel `v` is replaced by `((sumBins[v] << 8) - 1) / numberCounts`, where
neither the shift nor the subtraction wraps and the quotient is at most 255,
so that the narrowing to eight bits loses nothing. -/
theorem EqualizeImage_remap (localInit : Nat → Nat) (outHistogram : Histogram_t)
    (img : Image8_t) (hwf : img.wf) (hne : 1 ≤ img.width * img.height)
    (hsize : img.width * img.height * 256 < SIZE_MOD)
    (hbins : outHistogram.numberBins = 256) (hzero : ∀ v, v < 256 → outHistogram.bins v = 0) :
    ∃ out, EqualizeImage localInit img (ImageHistogram outHistogram img) = some out ∧
      ∀ k, k < img.width * img.height →
        1 ≤ (ImageHistogram outHistogram img).sumBins (img.data k) * 256 ∧
        (ImageHistogram outHistogram img).sumBins (img.data k) * 256 < SIZE_MOD ∧
        ((ImageHistogram outHistogram img).sumBins (img.data k) * 256 - 1)
          / (ImageHistogram outHistogram img).numberCounts ≤ 255 ∧
        out.data k = ((ImageHistogram outHistogram img).sumBins (img.data k) * 256 - 1)
          / (ImageHistogram outHistogram img).numberCounts := by
  have hsz : img.width * img.height < SIZE_MOD := by omega
  obtain ⟨h1, h2, h3⟩ := ImageHistogram_tally outHistogram img hwf hsz hbins hzero
  obtain ⟨out, ho, _, _, hd⟩ := EqualizeImage_data localInit img
    (ImageHistogram outHistogram img) (by rw [h1]; omega)
  refine ⟨out, ho, ?_⟩
  intro k hk
  have hv := hwf k
  have hs := h3 (img.data k) hv
  have hle := cumSum_le_total img.data (img.width * img.height) (img.data k) hv hwf
  have hge := cumSum_ge_bin (fun v => countEq img.data v (img.width * img.height)) (img.data k)
  have hpos := countEq_pos img.data k (img.width * img.height) hk
  have hge2 : countEq img.data (img.data k) (img.width * img.height)
      ≤ cumSum (fun v => countEq img.data v (img.width * img.height)) (img.data k) := hge
  rw [← hs] at hle hge2
  have hdk := hd k (by rw [umul_eq _ _ hsz]; exact hk)
    (by show img.data k < outHistogram.numberBins; omega)
  generalize (ImageHistogram outHistogram img).sumBins (img.data k) = S at hle hge2 hs hdk ⊢
  have hq : (S * 256 - 1) / (ImageHistogram outHistogram img).numberCounts ≤ 255 := by
    rw [h1]
    apply Nat.le_of_lt_succ
    apply (Nat.div_lt_iff_lt_mul (by omega)).2
    have : S * 256 ≤ img.width * img.height * 256 := Nat.mul_le_mul_right 256 hle
    omega
  refine ⟨by omega, by omega, hq, ?_⟩
  rw [hdk, Nat.mod_eq_of_lt (show S * 256 < SIZE_MOD by omega),
    usub_eq _ _ (by omega) (by omega)]
  exact Nat.mod_eq_of_lt (by omega)

/-- C23, witness: the 16x16 image in which every value occurs once. -/
theorem EqualizeImage_remap_witness :
    ∃ out, EqualizeImage (fun _ => 0) rampImage
        (ImageHistogram (zeroHistogram 256) rampImage) = some out ∧
      ∀ k, k < rampImage.width * rampImage.height →
        1 ≤ (ImageHistogram (zeroHistogram 256) rampImage).sumBins (rampImage.data k) * 256 ∧
        (ImageHistogram (zeroHistogram 256) rampImage).sumBins (rampImage.data k) * 256
          < SIZE_MOD ∧
        ((ImageHistogram (zeroHistogram 256) rampImage).sumBins (rampImage.data k) * 256 - 1)
          / (ImageHistogram (zeroHistogram 256) rampImage).numberCounts ≤ 255 ∧
        out.data k
          = ((ImageHistogram (zeroHistogram 256) rampImage).sumBins (rampImage.data k) * 256 - 1)
            / (ImageHistogram (zeroHistogram 256) rampImage).numberCounts :=
  EqualizeImage_remap (fun _ => 0) (zeroHistogram 256) rampImage
    (fun k => Nat.mod_lt k (by decide)) (by decide) (by decide) rfl (fun _ _ => rfl)

theorem cumSum_const (f : Nat → Nat) (m : Nat) :
    ∀ j, (∀ i, i ≤ j → f i = m) → cumSum f j = (j + 1) * m := by
  intro j
  induction j with
  | zero => intro h; show f 0 = (0 + 1) * m; rw [h 0 (Nat.le_refl 0)]; omega
  | succ j ih =>
    intro h
    show cumSum f j + f (j + 1) = (j + 1 + 1) * m
    rw [ih (fun i hi => h i (by omega)), h (j + 1) (Nat.le_refl _), Nat.succ_mul (j + 1) m]

/-- C22: for every 8-bit image (with `256*width*height` below `2^64`) in which
each of the 256 pixel values occurs exactly `m >= 1` times, `EqualizeImage`
applied with the image's own 256-bin `ImageHistogram` returns and leaves every
pixel unchanged. -/
theorem EqualizeImage_uniform (localInit : Nat → Nat) (outHistogram : Histogram_t)
    (img : Image8_t) (m : Nat) (hm : 1 ≤ m) (hwf : img.wf)
    (hsize : img.width * img.height * 256 < SIZE_MOD)
    (hbins : outHistogram.numberBins = 256) (hzero : ∀ v, v < 256 → outHistogram.bins v = 0)
    (huniform : ∀ v, v < 256 → countEq img.data v (img.width * img.height) = m) :
    ∃ out, EqualizeImage localInit img (ImageHistogram outHistogram img) = some out ∧
      out.width = img.width ∧ out.height = img.height ∧
      ∀ k, k < img.width * img.height → out.data k = img.data k := by
  have hsz : img.width * img.height < SIZE_MOD := by omega
  obtain ⟨h1, h2, h3⟩ := ImageHistogram_tally outHistogram img hwf hsz hbins hzero
  have hcs : ∀ i, i < 256 →
      cumSum (fun v => countEq img.data v (img.width * img.height)) i = (i + 1) * m :=
    fun i hi => cumSum_const _ m i (fun v hv => huniform v (by omega))
  have hn : img.width * img.height = 256 * m := by
    have := cumSum_countEq img.data 255 (img.width * img.height)
      (fun k _ => by have := hwf k; omega)
    rw [hcs 255 (by omega)] at this
    omega
  obtain ⟨out, ho, hw, hh, hd⟩ := EqualizeImage_data localInit img
    (ImageHistogram outHistogram img) (by rw [h1]; omega)
  refine ⟨out, ho, hw, hh, ?_⟩
  intro k hk
  have hv := hwf k
  rw [hd k (by rw [umul_eq _ _ hsz]; exact hk)
    (by show img.data k < outHistogram.numberBins; omega), h3 _ hv, hcs _ hv, h1, hn]
  generalize img.data k = v at hv
  have e1 : (v + 1) * m * 256 = v * (256 * m) + 256 * m := by
    rw [Nat.succ_mul, Nat.add_mul, Nat.mul_assoc, Nat.mul_comm m 256]
  rw [hn] at hsize
  rw [e1]
  have hd1 : 1 ≤ 256 * m := by omega
  generalize 256 * m = d at hsize hd1 ⊢
  have hb : v * d ≤ 255 * d := Nat.mul_le_mul_right _ (by omega)
  have hlt : v * d + d < SIZE_MOD := by omega
  have hpos : 1 ≤ v * d + d := by omega
  rw [Nat.mod_eq_of_lt hlt, usub_eq _ _ hlt hpos]
  have hdiv : (v * d + d - 1) / d = v := by
    apply Nat.div_eq_of_lt_le
    · omega
    · rw [Nat.succ_mul]; omega
  rw [hdiv]
  exact Nat.mod_eq_of_lt hv
theorem countEq_ramp (v : Nat) :
    ∀ n, n ≤ 256 → countEq rampImage.data v n = if v < n then 1 else 0 := by
  intro n
  induction n with
  | zero => intro _; rfl
  | succ n ih =>
    intro hn
    show countEq rampImage.data v n + (if n % 256 = v then 1 else 0) = _
    rw [ih (by omega), Nat.mod_eq_of_lt (by omega)]
    split_ifs <;> omega

/-- C22, witness: the 16x16 image in which every value occurs once (`m = 1`). -/
theorem EqualizeImage_uniform_witness :
    ∃ out, EqualizeImage (fun _ => 0) rampImage
        (ImageHistogram (zeroHistogram 256) rampImage) = some out ∧
      out.width = rampImage.width ∧ out.height = rampImage.height ∧
      ∀ k, k < rampImage.width * rampImage.height → out.data k = rampImage.data k :=
  EqualizeImage_uniform (fun _ => 0) (zeroHistogram 256) rampImage 1 (by decide)
    (fun k => Nat.mod_lt k (by decide)) (by decide) rfl (fun _ _ => rfl)
    (fun v hv => by
      rw [show rampImage.width * rampImage.height = 256 from rfl,
        countEq_ramp v 256 (Nat.le_refl _), if_pos hv])

/-! ## The distance bin of `ImageHistogramCbCrDist` -/

theorem UINTDIFF_le (a b n : Nat) (ha : a ≤ n) (hb : b ≤ n) : UINTDIFF a b ≤ n := by
  unfold UINTDIFF
  split_ifs <;> omega

theorem CbCrSSD_le (v1 v2 : Nat) : CbCrSSD v1 v2 ≤ 130050 := by
  unfold CbCrSSD
  have h1 : UINTDIFF (packedData0 v1) (packedData0 v2) ≤ 255 :=
    UINTDIFF_le _ _ 255 (by unfold packedData0; omega) (by unfold packedData0; omega)
  have h2 : UINTDIFF (packedData1 v1) (packedData1 v2) ≤ 255 :=
    UINTDIFF_le _ _ 255 (by unfold packedData1; omega) (by unfold packedData1; omega)
  have a := Nat.mul_le_mul h1 h1
  have b := Nat.mul_le_mul h2 h2
  show UINTDIFF (packedData0 v1) (packedData0 v2) * UINTDIFF (packedData0 v1) (packedData0 v2)
    + UINTDIFF (packedData1 v1) (packedData1 v2) * UINTDIFF (packedData1 v1) (packedData1 v2)
    ≤ 130050
  omega

set_option maxRecDepth 1000000 in
theorem UintSqrt_top_range :
    ∀ v ∈ List.range 451, UintSqrt (129600 + v) = some 360 := by decide

theorem UintSqrt_le_360 (value : Nat) (h : value ≤ 130050) :
    ∃ r, UintSqrt value = some r ∧ r ≤ 360 := by
  by_cases h1 : value < 1024
  · refine ⟨sqrtLut.getD value 0, by unfold UintSqrt; rw [if_pos h1], ?_⟩
    obtain ⟨h2, _⟩ := sqrtLut_exact value h1
    by_contra hlt
    have : 361 * 361 ≤ sqrtLut.getD value 0 * sqrtLut.getD value 0 :=
      Nat.mul_le_mul (by omega) (by omega)
    omega
  · by_cases h2 : value < 129600
    · obtain ⟨h3, h4⟩ := sqrt_spec value
      have hs : 32 ≤ Nat.sqrt value := by
        by_contra hlt
        have : (Nat.sqrt value + 1) * (Nat.sqrt value + 1) ≤ 32 * 32 :=
          Nat.mul_le_mul (by omega) (by omega)
        omega
      have hs2 : Nat.sqrt value < 360 := by
        by_contra hlt
        have : 360 * 360 ≤ Nat.sqrt value * Nat.sqrt value :=
          Nat.mul_le_mul (by omega) (by omega)
        omega
      have hhalf : Nat.sqrt value ≤ value / 2 := by
        have : Nat.sqrt value * 32 ≤ Nat.sqrt value * Nat.sqrt value :=
          Nat.mul_le_mul_left _ hs
        omega
      obtain ⟨r, hr, hrs⟩ := UintSqrtLoop_result value (Nat.sqrt value) (by omega) h3 h4
        (by omega) value (value / 2) hhalf (by omega) (by omega)
      refine ⟨r, by unfold UintSqrt; rw [if_neg h1]; exact hr, by omega⟩
    · refine ⟨360, ?_, Nat.le_refl _⟩
      have := UintSqrt_top_range (value - 129600) (List.mem_range.2 (by omega))
      rwa [show 129600 + (value - 129600) = value by omega] at this

/-- C24: for every pair of packed CbCr values, `UintSqrt(CbCrSSD(a, b))`, the
bin that the distance histogram indexes, is returned and is at most 360, so it
is a valid index into 361 bins. -/
theorem CbCrDist_bin_le_360 (a b : Nat) :
    ∃ r, UintSqrt (CbCrSSD a b) = some r ∧ r ≤ 360 ∧ r < 361 := by
  obtain ⟨r, h1, h2⟩ := UintSqrt_le_360 (CbCrSSD a b) (CbCrSSD_le a b)
  exact ⟨r, h1, h2, by omega⟩
/-! ## OtsuThreshold: the scores, the returned index and the divisions -/

theorem OtsuLoop_skip (h : Histogram_t) (mean rem p q last : Nat) (hs : otsuSkips h p) :
    OtsuLoop h.sumBins h.meanBins h.numberCounts mean (rem + 1) p q last
      = OtsuLoop h.sumBins h.meanBins h.numberCounts mean rem (p + 1) q last := by
  unfold otsuSkips at hs
  rw [OtsuLoop]
  simp only [hs, if_true]

theorem OtsuLoop_break (h : Histogram_t) (rem p q last : Nat) (hs : ¬ otsuSkips h p)
    (hb : otsuScore h p q < last) :
    OtsuLoop h.sumBins h.meanBins h.numberCounts
      (h.meanBins (h.numberBins - 1) / h.numberCounts) (rem + 1) p q last = p + 1 := by
  unfold otsuSkips at hs
  unfold otsuScore at hb
  rw [OtsuLoop]
  simp only [hs, if_false]
  rw [if_pos hb]

theorem OtsuLoop_next (h : Histogram_t) (rem p q last : Nat) (hs : ¬ otsuSkips h p)
    (hb : ¬ otsuScore h p q < last) :
    OtsuLoop h.sumBins h.meanBins h.numberCounts
      (h.meanBins (h.numberBins - 1) / h.numberCounts) (rem + 1) p q last
      = OtsuLoop h.sumBins h.meanBins h.numberCounts
          (h.meanBins (h.numberBins - 1) / h.numberCounts) rem (p + 1) (q + 1)
          (otsuScore h p q) := by
  unfold otsuSkips at hs
  unfold otsuScore at hb
  rw [OtsuLoop]
  simp only [hs, if_false]
  rw [if_neg hb]
  rfl

theorem otsuSkipped_le (h : Histogram_t) : ∀ t, otsuSkipped h t ≤ t := by
  intro t
  induction t with
  | zero => exact Nat.le_refl 0
  | succ t ih =>
    show otsuSkipped h t + (if otsuSkips h t then 1 else 0) ≤ t + 1
    split_ifs <;> omega

theorem otsuSkipped_skip (h : Histogram_t) (p : Nat) (hs : otsuSkips h p) :
    p + 1 - otsuSkipped h (p + 1) = p - otsuSkipped h p ∧
    otsuLast h (p + 1) = otsuLast h p := by
  constructor
  · show p + 1 - (otsuSkipped h p + (if otsuSkips h p then 1 else 0)) = _
    rw [if_pos hs]; omega
  · show (if otsuSkips h p then otsuLast h p else otsuCurr h p) = _
    rw [if_pos hs]

theorem otsuSkipped_next (h : Histogram_t) (p : Nat) (hs : ¬ otsuSkips h p) :
    p + 1 - otsuSkipped h (p + 1) = p - otsuSkipped h p + 1 ∧
    otsuLast h (p + 1) = otsuScore h p (p - otsuSkipped h p) := by
  constructor
  · show p + 1 - (otsuSkipped h p + (if otsuSkips h p then 1 else 0)) = _
    have := otsuSkipped_le h p
    rw [if_neg hs]; omega
  · show (if otsuSkips h p then otsuLast h p else otsuCurr h p) = _
    rw [if_neg hs]; rfl

theorem OtsuLoopScores_skip (h : Histogram_t) (mean rem p q last : Nat)
    (hs : otsuSkips h p) :
    OtsuLoopScores h.sumBins h.meanBins h.numberCounts mean (rem + 1) p q last
      = OtsuLoopScores h.sumBins h.meanBins h.numberCounts mean rem (p + 1) q last := by
  unfold otsuSkips at hs
  rw [OtsuLoopScores]
  simp only [hs, if_true]

theorem OtsuLoopScores_cons (h : Histogram_t) (rem p q last : Nat) (hs : ¬ otsuSkips h p) :
    OtsuLoopScores h.sumBins h.meanBins h.numberCounts
      (h.meanBins (h.numberBins - 1) / h.numberCounts) (rem + 1) p q last
      = (p, q, otsuScore h p q) ::
          (if otsuScore h p q < last then []
           else OtsuLoopScores h.sumBins h.meanBins h.numberCounts
              (h.meanBins (h.numberBins - 1) / h.numberCounts) rem (p + 1) (q + 1)
              (otsuScore h p q)) := by
  unfold otsuSkips at hs
  rw [OtsuLoopScores]
  simp only [hs, if_false]
  rfl

/-- Every score the loop records belongs to a bin `t` that is not skipped, was
read with `ptrMeanBins` at `t` minus the number of skipped bins before `t`, and
is the score formula evaluated there. -/
theorem OtsuLoopScores_lag (h : Histogram_t) :
    ∀ rem p last e,
      e ∈ OtsuLoopScores h.sumBins h.meanBins h.numberCounts
        (h.meanBins (h.numberBins - 1) / h.numberCounts) rem p (p - otsuSkipped h p) last →
      p ≤ e.1 ∧ e.1 < p + rem ∧ ¬ otsuSkips h e.1 ∧
      e.2.1 = e.1 - otsuSkipped h e.1 ∧ e.2.2 = otsuCurr h e.1 := by
  intro rem
  induction rem with
  | zero => intro p last e he; exact absurd he (List.not_mem_nil e)
  | succ rem ih =>
    intro p last e he
    by_cases hs : otsuSkips h p
    · rw [OtsuLoopScores_skip h _ rem p _ _ hs, ← (otsuSkipped_skip h p hs).1] at he
      obtain ⟨a, b, c⟩ := ih (p + 1) last e he
      exact ⟨by omega, by omega, c⟩
    · rw [OtsuLoopScores_cons h rem p _ _ hs, List.mem_cons] at he
      rcases he with he | he
      · subst he
        exact ⟨Nat.le_refl _, by omega, hs, rfl, rfl⟩
      · split_ifs at he with hb
        · exact absurd he (List.not_mem_nil e)
        · rw [← (otsuSkipped_next h p hs).1] at he
          obtain ⟨a, b, c⟩ := ih (p + 1) _ e he
          exact ⟨by omega, by omega, c⟩

theorem OtsuScores_lag (h : Histogram_t) (e : Nat × Nat × Nat) (he : e ∈ OtsuScores h) :
    e.1 < h.numberBins ∧ ¬ otsuSkips h e.1 ∧
    e.2.1 = e.1 - otsuSkipped h e.1 ∧ e.2.2 = otsuCurr h e.1 := by
  obtain ⟨_, b, c⟩ := OtsuLoopScores_lag h h.numberBins 0 0 e he
  exact ⟨by omega, c⟩

set_option maxRecDepth 1000000 in
/-- C27: in the consistent 256-bin histogram with one count in bin 1 and one in
bin 3, bin 0 is skipped and bin 1 is visited (`0 < sumBins[1] = 1 < 2`); the
loop reads `meanBins[0]` for it and computes the score 4, where the formula
with `meanBins[1]` gives 1.  For bin 2 it reads `meanBins[1]`, computes 1, and
stops, so that `OtsuThreshold` returns 3. -/
theorem OtsuThreshold_meanBins_lag :
    (twoSpike 1 3 1).consistent ∧
    (twoSpike 1 3 1).sumBins 0 = 0 ∧ (twoSpike 1 3 1).sumBins 1 = 1 ∧
    (twoSpike 1 3 1).numberCounts = 2 ∧
    OtsuScores (twoSpike 1 3 1) = [(1, 0, 4), (2, 1, 1)] ∧
    otsuScore (twoSpike 1 3 1) 1 1 = 1 ∧ otsuScore (twoSpike 1 3 1) 2 2 = 1 ∧
    OtsuThreshold (twoSpike 1 3 1) = 3 := by
  refine ⟨⟨rfl, fun i _ => ⟨rfl, rfl⟩⟩, by decide, by decide, by decide, by decide,
    by decide, by decide, by decide⟩

theorem OtsuLoopChecked_skip (h : Histogram_t) (mean rem p q last : Nat)
    (hs : otsuSkips h p) :
    OtsuLoopChecked h.sumBins h.meanBins h.numberCounts mean (rem + 1) p q last
      = OtsuLoopChecked h.sumBins h.meanBins h.numberCounts mean rem (p + 1) q last := by
  unfold otsuSkips at hs
  rw [OtsuLoopChecked]
  simp only [hs, if_true]

theorem OtsuLoopChecked_score (h : Histogram_t) (rem p q last : Nat)
    (hs : ¬ otsuSkips h p) (hdiv : umul (h.sumBins p) (usub h.numberCounts (h.sumBins p)) ≠ 0) :
    OtsuLoopChecked h.sumBins h.meanBins h.numberCounts
      (h.meanBins (h.numberBins - 1) / h.numberCounts) (rem + 1) p q last
      = if otsuScore h p q < last then some (p + 1)
        else OtsuLoopChecked h.sumBins h.meanBins h.numberCounts
          (h.meanBins (h.numberBins - 1) / h.numberCounts) rem (p + 1) (q + 1)
          (otsuScore h p q) := by
  unfold otsuSkips at hs
  rw [OtsuLoopChecked]
  simp only [hs, if_false, hdiv]
  rfl

theorem otsu_divisor_ne_zero (p n : Nat) (h0 : p ≠ 0) (h1 : p ≠ n) (hle : p ≤ n)
    (hn : n < 8589934592) : umul p (usub n p) ≠ 0 := by
  have hu : usub n p = n - p := usub_eq n p (by unfold SIZE_MOD; omega) hle
  obtain ⟨d, rfl⟩ : ∃ d, n = p + d := ⟨n - p, by omega⟩
  have hd : 1 ≤ d := by omega
  rw [hu, show p + d - p = d by omega]
  have hlt : p * d < SIZE_MOD := by
    unfold SIZE_MOD
    have : (p + d) * (p + d) < 8589934592 * 8589934592 := Nat.mul_lt_mul'' hn hn
    nlinarith [sq_nonneg ((p : Int) - d), this]
  rw [umul_eq _ _ hlt]
  exact Nat.mul_ne_zero h0 (by omega)

theorem OtsuLoopChecked_total (h : Histogram_t) (hn : h.numberCounts < 8589934592) :
    ∀ rem p q last, (∀ i, p ≤ i → i < p + rem → h.sumBins i ≤ h.numberCounts) →
      OtsuLoopChecked h.sumBins h.meanBins h.numberCounts
        (h.meanBins (h.numberBins - 1) / h.numberCounts) rem p q last
        = some (OtsuLoop h.sumBins h.meanBins h.numberCounts
          (h.meanBins (h.numberBins - 1) / h.numberCounts) rem p q last) := by
  intro rem
  induction rem with
  | zero => intro p q last _; rfl
  | succ rem ih =>
    intro p q last hle
    by_cases hs : otsuSkips h p
    · rw [OtsuLoopChecked_skip h _ rem p q last hs, OtsuLoop_skip h _ rem p q last hs]
      exact ih (p + 1) q last (fun i a b => hle i (by omega) (by omega))
    · have hs2 := hs
      unfold otsuSkips at hs2
      have hdiv := otsu_divisor_ne_zero (h.sumBins p) h.numberCounts
        (fun e => hs2 (Or.inl e)) (fun e => hs2 (Or.inr e))
        (hle p (Nat.le_refl p) (by omega)) hn
      rw [OtsuLoopChecked_score h rem p q last hs hdiv]
      by_cases hb : otsuScore h p q < last
      · rw [if_pos hb, OtsuLoop_break h rem p q last hs hb]
      · rw [if_neg hb, OtsuLoop_next h rem p q last hs hb]
        exact ih (p + 1) (q + 1) _ (fun i a b => hle i (by omega) (by omega))

set_option maxRecDepth 100000 in
/-- C28 (as stated, refuted): the consistent 2-bin histogram with `2^32` counts
in each bin has `numberBins >= 1`, `numberCounts = 2^33 > 0` and every
`sumBins[i] <= numberCounts`, yet bin 0 is not skipped and its divisor
`2^32 * (2^33 - 2^32)` wraps to zero in `size_t` arithmetic. -/
theorem OtsuThreshold_division_counterexample :
    1 ≤ hugeHistogram.numberBins ∧ 0 < hugeHistogram.numberCounts ∧
    hugeHistogram.consistent ∧
    (∀ i, i < hugeHistogram.numberBins →
      hugeHistogram.sumBins i ≤ hugeHistogram.numberCounts) ∧
    ¬ otsuSkips hugeHistogram 0 ∧
    umul (hugeHistogram.sumBins 0)
      (usub hugeHistogram.numberCounts (hugeHistogram.sumBins 0)) = 0 ∧
    OtsuThresholdChecked hugeHistogram = none := by
  refine ⟨by decide, by decide, ⟨rfl, fun i _ => ⟨rfl, rfl⟩⟩, by decide, by decide,
    by decide, by decide⟩

/-- C28 (amended): for every histogram with `0 < numberCounts < 2^33` and
`sumBins[i] <= numberCounts` for all `i < numberBins` (also with
`numberBins >= 1`), `OtsuThreshold` never divides by zero (the checked function
returns the value of `OtsuThreshold`), and every score it computes belongs to a
bin whose cumulative count is neither 0 nor `numberCounts` and has a non-zero
divisor. -/
theorem OtsuThreshold_no_division_by_zero (h : Histogram_t)
    (hpos : 0 < h.numberCounts) (hn : h.numberCounts < 8589934592)
    (hle : ∀ i, i < h.numberBins → h.sumBins i ≤ h.numberCounts) :
    OtsuThresholdChecked h = some (OtsuThreshold h) ∧
    ∀ e, e ∈ OtsuScores h →
      h.sumBins e.1 ≠ 0 ∧ h.sumBins e.1 ≠ h.numberCounts ∧
      umul (h.sumBins e.1) (usub h.numberCounts (h.sumBins e.1)) ≠ 0 := by
  constructor
  · unfold OtsuThresholdChecked
    rw [if_neg (by omega)]
    exact OtsuLoopChecked_total h hn h.numberBins 0 0 0 (fun i _ hi => hle i (by omega))
  · intro e he
    obtain ⟨a, b, _⟩ := OtsuScores_lag h e he
    unfold otsuSkips at b
    exact ⟨fun e0 => b (Or.inl e0), fun e1 => b (Or.inr e1),
      otsu_divisor_ne_zero _ _ (fun e0 => b (Or.inl e0)) (fun e1 => b (Or.inr e1))
        (hle _ a) hn⟩

set_option maxRecDepth 100000 in
/-- C28 (amended), witness: the 6-bin histogram with bins 5, 3, 1, 1, 3, 5. -/
theorem OtsuThreshold_no_division_by_zero_witness :
    OtsuThresholdChecked sixBinHistogram = some (OtsuThreshold sixBinHistogram) ∧
    ∀ e, e ∈ OtsuScores sixBinHistogram →
      sixBinHistogram.sumBins e.1 ≠ 0 ∧
      sixBinHistogram.sumBins e.1 ≠ sixBinHistogram.numberCounts ∧
      umul (sixBinHistogram.sumBins e.1)
        (usub sixBinHistogram.numberCounts (sixBinHistogram.sumBins e.1)) ≠ 0 :=
  OtsuThreshold_no_division_by_zero sixBinHistogram (by decide) (by decide) (by decide)
/-! ## OtsuThreshold with checked divisions: the returned index -/

/-- Whenever the checked loop returns, it returns the value of `OtsuLoop`. -/
theorem OtsuLoopChecked_value (h : Histogram_t) :
    ∀ rem p q last r,
      OtsuLoopChecked h.sumBins h.meanBins h.numberCounts
        (h.meanBins (h.numberBins - 1) / h.numberCounts) rem p q last = some r →
      OtsuLoop h.sumBins h.meanBins h.numberCounts
        (h.meanBins (h.numberBins - 1) / h.numberCounts) rem p q last = r := by
  intro rem
  induction rem with
  | zero =>
    intro p q last r hr
    exact Option.some.inj hr
  | succ rem ih =>
    intro p q last r hr
    by_cases hs : otsuSkips h p
    · rw [OtsuLoopChecked_skip h _ rem p q last hs] at hr
      rw [OtsuLoop_skip h _ rem p q last hs]
      exact ih (p + 1) q last r hr
    · by_cases hdiv : umul (h.sumBins p) (usub h.numberCounts (h.sumBins p)) = 0
      · exfalso
        have hs2 := hs
        unfold otsuSkips at hs2
        rw [OtsuLoopChecked] at hr
        simp only [hs2, if_false, hdiv, if_true] at hr
        exact Option.noConfusion hr
      · rw [OtsuLoopChecked_score h rem p q last hs hdiv] at hr
        by_cases hb : otsuScore h p q < last
        · rw [if_pos hb] at hr
          rw [OtsuLoop_break h rem p q last hs hb]
          exact Option.some.inj hr
        · rw [if_neg hb] at hr
          rw [OtsuLoop_next h rem p q last hs hb]
          exact ih (p + 1) (q + 1) _ r hr

/-- Whenever `OtsuThresholdChecked` returns, it returns the value of
`OtsuThreshold`. -/
theorem OtsuThresholdChecked_value (h : Histogram_t) (r : Nat)
    (hr : OtsuThresholdChecked h = some r) : OtsuThreshold h = r := by
  unfold OtsuThresholdChecked at hr
  by_cases h0 : h.numberCounts = 0
  · rw [if_pos h0] at hr
    exact Option.noConfusion hr
  · rw [if_neg h0] at hr
    exact OtsuLoopChecked_value h h.numberBins 0 0 0 r hr

theorem usub_mod_mod (a b : Nat) (h : b ≤ a) :
    usub (a % SIZE_MOD) (b % SIZE_MOD) = (a - b) % SIZE_MOD := by
  unfold usub SIZE_MOD
  omega

theorem shl1_mod (a : Nat) : a % SIZE_MOD * 2 % SIZE_MOD = a * 2 % SIZE_MOD := by
  unfold SIZE_MOD
  omega

/-- The two `size_t` expressions of `IntegralFeatureDiagonal` on nine corner
values that are rectangle sums reduced modulo `2^64`: the white sum is
`TR + BL`, and the difference value is `|(TR + BL) - (TL + BR)|`. -/
theorem diagonal_core (s00 s01 s02 s10 s11 s12 s20 s21 s22 tl tr bl br : Nat)
    (h1 : s11 + s00 = s01 + s10 + tl) (h2 : s12 + s01 = s02 + s11 + tr)
    (h3 : s21 + s10 = s11 + s20 + bl) (h4 : s22 + s11 = s12 + s21 + br)
    (hlt : tl + tr + bl + br < SIZE_MOD) :
    UINTDIFF
      (diagonalWhite (s01 % SIZE_MOD) (s10 % SIZE_MOD) (s12 % SIZE_MOD) (s21 % SIZE_MOD)
        (s02 % SIZE_MOD) (s20 % SIZE_MOD) (s11 % SIZE_MOD))
      (usub (diagonalTotal (s00 % SIZE_MOD) (s22 % SIZE_MOD) (s02 % SIZE_MOD) (s20 % SIZE_MOD))
        (diagonalWhite (s01 % SIZE_MOD) (s10 % SIZE_MOD) (s12 % SIZE_MOD) (s21 % SIZE_MOD)
          (s02 % SIZE_MOD) (s20 % SIZE_MOD) (s11 % SIZE_MOD)))
      = Int.natAbs (((tr : Int) + (bl : Int)) - ((tl : Int) + (br : Int))) := by
  have hw : diagonalWhite (s01 % SIZE_MOD) (s10 % SIZE_MOD) (s12 % SIZE_MOD) (s21 % SIZE_MOD)
      (s02 % SIZE_MOD) (s20 % SIZE_MOD) (s11 % SIZE_MOD) = tr + bl := by
    unfold diagonalWhite
    rw [uadd_mod_mod, uadd_mod_mod, uadd_mod_mod, usub_mod_mod _ _ (by omega),
      usub_mod_mod _ _ (by omega), shl1_mod, usub_mod_mod _ _ (by omega)]
    rw [show s01 + s10 + s12 + s21 - s02 - s20 - s11 * 2 = tr + bl by omega]
    exact Nat.mod_eq_of_lt (by omega)
  have ht : diagonalTotal (s00 % SIZE_MOD) (s22 % SIZE_MOD) (s02 % SIZE_MOD) (s20 % SIZE_MOD)
      = tl + tr + bl + br := by
    unfold diagonalTotal
    rw [uadd_mod_mod, usub_mod_mod _ _ (by omega), usub_mod_mod _ _ (by omega)]
    rw [show s00 + s22 - s02 - s20 = tl + tr + bl + br by omega]
    exact Nat.mod_eq_of_lt hlt
  rw [hw, ht, usub_eq _ _ hlt (by omega), UINTDIFF_natAbs]
  congr 1
  omega

theorem sat_at (outData : Nat → Nat) (img : Image8_t) (q a b : Nat)
    (hq : q = a * img.width + b) (ha : a < img.height) (hb : b < img.width) :
    IntegralImage outData img q = rectSum img.data img.width a b % SIZE_MOD := by
  subst hq
  exact IntegralImage_mod outData img (by omega) a b ha hb

theorem diagonalStep_value (satOut : Nat → Nat) (img : Image8_t) (hwf : img.wf)
    (hsize : 255 * (img.height * img.width) < SIZE_MOD)
    (bw bh cs rs i j : Nat) (p00 : Nat)
    (hi : i * rs + bh + bh < img.height) (hj : j * cs + bw + bw < img.width)
    (h00 : p00 = i * rs * img.width + j * cs) :
    UINTDIFF
      (diagonalWhite (IntegralImage satOut img (p00 + bw))
        (IntegralImage satOut img (p00 + bh * img.width))
        (IntegralImage satOut img (p00 + bh * img.width + bw + bw))
        (IntegralImage satOut img (p00 + bh * img.width + bh * img.width + bw))
        (IntegralImage satOut img (p00 + bw + bw))
        (IntegralImage satOut img (p00 + bh * img.width + bh * img.width))
        (IntegralImage satOut img (p00 + bh * img.width + bw)))
      (usub
        (diagonalTotal (IntegralImage satOut img p00)
          (IntegralImage satOut img (p00 + bh * img.width + bh * img.width + bw + bw))
          (IntegralImage satOut img (p00 + bw + bw))
          (IntegralImage satOut img (p00 + bh * img.width + bh * img.width)))
        (diagonalWhite (IntegralImage satOut img (p00 + bw))
          (IntegralImage satOut img (p00 + bh * img.width))
          (IntegralImage satOut img (p00 + bh * img.width + bw + bw))
          (IntegralImage satOut img (p00 + bh * img.width + bh * img.width + bw))
          (IntegralImage satOut img (p00 + bw + bw))
          (IntegralImage satOut img (p00 + bh * img.width + bh * img.width))
          (IntegralImage satOut img (p00 + bh * img.width + bw))))
      = diagonalValue img.data img.width bw bh cs rs i j := by
  have m1 : (i * rs + bh) * img.width = i * rs * img.width + bh * img.width :=
    Nat.add_mul _ _ _
  have m2 : (i * rs + bh + bh) * img.width
      = i * rs * img.width + bh * img.width + bh * img.width := by
    rw [Nat.add_mul, Nat.add_mul]
  rw [sat_at satOut img p00 (i * rs) (j * cs) h00 (by omega) (by omega),
    sat_at satOut img (p00 + bw) (i * rs) (j * cs + bw) (by omega) (by omega) (by omega),
    sat_at satOut img (p00 + bw + bw) (i * rs) (j * cs + bw + bw) (by omega) (by omega) hj,
    sat_at satOut img (p00 + bh * img.width) (i * rs + bh) (j * cs) (by omega) (by omega)
      (by omega),
    sat_at satOut img (p00 + bh * img.width + bw) (i * rs + bh) (j * cs + bw) (by omega)
      (by omega) (by omega),
    sat_at satOut img (p00 + bh * img.width + bw + bw) (i * rs + bh) (j * cs + bw + bw)
      (by omega) (by omega) hj,
    sat_at satOut img (p00 + bh * img.width + bh * img.width) (i * rs + bh + bh) (j * cs)
      (by omega) hi (by omega),
    sat_at satOut img (p00 + bh * img.width + bh * img.width + bw) (i * rs + bh + bh)
      (j * cs + bw) (by omega) hi (by omega),
    sat_at satOut img (p00 + bh * img.width + bh * img.width + bw + bw) (i * rs + bh + bh)
      (j * cs + bw + bw) (by omega) hi hj]
  have b1 := boxSum_le img.data img.width (i * rs + 1) (j * cs + 1) bw hwf bh
  have b2 := boxSum_le img.data img.width (i * rs + 1) (j * cs + bw + 1) bw hwf bh
  have b3 := boxSum_le img.data img.width (i * rs + bh + 1) (j * cs + 1) bw hwf bh
  have b4 := boxSum_le img.data img.width (i * rs + bh + 1) (j * cs + bw + 1) bw hwf bh
  have hbox : (bh + bh) * (bw + bw) ≤ img.height * img.width :=
    Nat.mul_le_mul (by omega) (by omega)
  have hexp : (bh + bh) * (bw + bw) = bh * bw + bh * bw + (bh * bw + bh * bw) := by
    rw [Nat.add_mul, Nat.mul_add]
  exact diagonal_core _ _ _ _ _ _ _ _ _ _ _ _ _
    (rect_box img.data img.width (i * rs) (j * cs) bw bh)
    (rect_box img.data img.width (i * rs) (j * cs + bw) bw bh)
    (rect_box img.data img.width (i * rs + bh) (j * cs) bw bh)
    (rect_box img.data img.width (i * rs + bh) (j * cs + bw) bw bh)
    (by omega)

theorem diagonalStep_inv (satOut : Nat → Nat) (img : Image8_t) (hwf : img.wf)
    (hsize : 255 * (img.height * img.width) < SIZE_MOD)
    (bw bh cs rs cols i j : Nat) (s : DiagonalState)
    (hi : i * rs + bh + bh < img.height) (hj : j * cs + bw + bw < img.width) (hjc : j < cols)
    (hinv : DiagonalInv img.data img.width bw bh cs rs cols i j s) :
    DiagonalInv img.data img.width bw bh cs rs cols i (j + 1)
      (diagonalStep (IntegralImage satOut img) cs s) := by
  obtain ⟨h1, h2, h3, h4, h5, h6, h7, h8, h9, h10, h11⟩ := hinv
  have hval := diagonalStep_value satOut img hwf hsize bw bh cs rs i j s.ptrIn00 hi hj h2
  rw [← h10, ← h9, ← h8, ← h7, ← h6, ← h5, ← h4, ← h3] at hval
  have hm : (j + 1) * cs = j * cs + cs := Nat.succ_mul j cs
  refine ⟨?_, ?_, ?_, ?_, ?_, ?_, ?_, ?_, ?_, ?_, ?_⟩
  · show s.ptrOut + 1 = i * cols + (j + 1); omega
  · show s.ptrIn00 + cs = i * rs * img.width + (j + 1) * cs; omega
  · show s.ptrIn01 + cs = s.ptrIn00 + cs + bw; omega
  · show s.ptrIn02 + cs = s.ptrIn00 + cs + bw + bw; omega
  · show s.ptrIn10 + cs = s.ptrIn00 + cs + bh * img.width; omega
  · show s.ptrIn11 + cs = s.ptrIn00 + cs + bh * img.width + bw; omega
  · show s.ptrIn12 + cs = s.ptrIn00 + cs + bh * img.width + bw + bw; omega
  · show s.ptrIn20 + cs = s.ptrIn00 + cs + bh * img.width + bh * img.width; omega
  · show s.ptrIn21 + cs = s.ptrIn00 + cs + bh * img.width + bh * img.width + bw; omega
  · show s.ptrIn22 + cs = s.ptrIn00 + cs + bh * img.width + bh * img.width + bw + bw; omega
  · intro i' j' hj' hij
    show store s.out s.ptrOut _ (i' * cols + j') = _
    by_cases hcell : i' = i ∧ j' = j
    · obtain ⟨rfl, rfl⟩ := hcell
      rw [h1, store_eq]
      exact hval
    · have hne : i' * cols + j' ≠ s.ptrOut := by
        rw [h1]
        intro heq
        exact hcell (coords_unique cols i' j' i j hj' hjc heq)
      rw [store_ne _ _ _ _ hne]
      apply h11 i' j' hj'
      rcases hij with h | ⟨h, h'⟩
      · exact Or.inl h
      · right
        refine ⟨h, ?_⟩
        by_contra hlt
        exact hcell ⟨h, by omega⟩

theorem diagonalStep_loop (satOut : Nat → Nat) (img : Image8_t) (hwf : img.wf)
    (hsize : 255 * (img.height * img.width) < SIZE_MOD)
    (bw bh cs rs cols i : Nat) (hi : i * rs + bh + bh < img.height)
    (hcols : cols * cs + bw + bw ≤ img.width) (hcs : 1 ≤ cs) :
    ∀ n s, n ≤ cols → DiagonalInv img.data img.width bw bh cs rs cols i 0 s →
      DiagonalInv img.data img.width bw bh cs rs cols i n
        (loopN n (diagonalStep (IntegralImage satOut img) cs) s) := by
  intro n
  induction n with
  | zero => intro s _ h; exact h
  | succ n ih =>
    intro s hn hinv
    rw [loopN_succ_right]
    have hm : (n + 1) * cs ≤ cols * cs := Nat.mul_le_mul_right cs hn
    rw [Nat.succ_mul] at hm
    exact diagonalStep_inv satOut img hwf hsize bw bh cs rs cols i n _ hi (by omega)
      (by omega) (ih s (by omega) hinv)

theorem diagonalRow_inv (satOut : Nat → Nat) (img : Image8_t) (hwf : img.wf)
    (hsize : 255 * (img.height * img.width) < SIZE_MOD)
    (bw bh cs rs cols i : Nat) (hi : i * rs + bh + bh < img.height)
    (hcols : cols * cs + bw + bw ≤ img.width) (hcs : 1 ≤ cs) (hrs : 1 ≤ rs)
    (s : DiagonalState)
    (hinv : DiagonalInv img.data img.width bw bh cs rs cols i 0 s) :
    DiagonalInv img.data img.width bw bh cs rs cols (i + 1) 0
      (diagonalRow (IntegralImage satOut img) cs cols (img.width * rs - cols * cs) s) := by
  obtain ⟨h1, h2, h3, h4, h5, h6, h7, h8, h9, h10, h11⟩ :=
    diagonalStep_loop satOut img hwf hsize bw bh cs rs cols i hi hcols hcs cols s
      (le_refl cols) hinv
  have hm1 : (i + 1) * cols = i * cols + cols := Nat.succ_mul i cols
  have hm2 : (i + 1) * rs * img.width = i * rs * img.width + img.width * rs := by
    rw [Nat.succ_mul, Nat.add_mul, Nat.mul_comm rs img.width]
  have hm3 : img.width ≤ img.width * rs := Nat.le_mul_of_pos_right _ (by omega)
  unfold diagonalRow
  generalize loopN cols (diagonalStep (IntegralImage satOut img) cs) s = t
    at h1 h2 h3 h4 h5 h6 h7 h8 h9 h10 h11 ⊢
  refine ⟨?_, ?_, ?_, ?_, ?_, ?_, ?_, ?_, ?_, ?_, ?_⟩
  · show t.ptrOut = (i + 1) * cols + 0; omega
  · show t.ptrIn00 + (img.width * rs - cols * cs) = (i + 1) * rs * img.width + 0 * cs
    omega
  · show t.ptrIn01 + (img.width * rs - cols * cs)
      = t.ptrIn00 + (img.width * rs - cols * cs) + bw
    omega
  · show t.ptrIn02 + (img.width * rs - cols * cs)
      = t.ptrIn00 + (img.width * rs - cols * cs) + bw + bw
    omega
  · show t.ptrIn10 + (img.width * rs - cols * cs)
      = t.ptrIn00 + (img.width * rs - cols * cs) + bh * img.width
    omega
  · show t.ptrIn11 + (img.width * rs - cols * cs)
      = t.ptrIn00 + (img.width * rs - cols * cs) + bh * img.width + bw
    omega
  · show t.ptrIn12 + (img.width * rs - cols * cs)
      = t.ptrIn00 + (img.width * rs - cols * cs) + bh * img.width + bw + bw
    omega
  · show t.ptrIn20 + (img.width * rs - cols * cs)
      = t.ptrIn00 + (img.width * rs - cols * cs) + bh * img.width + bh * img.width
    omega
  · show t.ptrIn21 + (img.width * rs - cols * cs)
      = t.ptrIn00 + (img.width * rs - cols * cs) + bh * img.width + bh * img.width + bw
    omega
  · show t.ptrIn22 + (img.width * rs - cols * cs)
      = t.ptrIn00 + (img.width * rs - cols * cs) + bh * img.width + bh * img.width + bw + bw
    omega
  · intro i' j' hj' hij
    show t.out (i' * cols + j') = _
    refine h11 i' j' hj' ?_
    rcases hij with h | ⟨_, h'⟩
    · by_cases hlt : i' < i
      · exact Or.inl hlt
      · exact Or.inr ⟨by omega, hj'⟩
    · omega

theorem diagonalRows_inv (satOut : Nat → Nat) (img : Image8_t) (hwf : img.wf)
    (hsize : 255 * (img.height * img.width) < SIZE_MOD)
    (bw bh cs rs cols rows : Nat) (hrows : rows * rs + bh + bh ≤ img.height)
    (hcols : cols * cs + bw + bw ≤ img.width) (hcs : 1 ≤ cs) (hrs : 1 ≤ rs)
    (s0 : DiagonalState)
    (h0 : DiagonalInv img.data img.width bw bh cs rs cols 0 0 s0) :
    ∀ n, n ≤ rows →
      DiagonalInv img.data img.width bw bh cs rs cols n 0
        (loopN n
          (diagonalRow (IntegralImage satOut img) cs cols (img.width * rs - cols * cs)) s0) := by
  intro n
  induction n with
  | zero => intro _; exact h0
  | succ n ih =>
    intro hn
    rw [loopN_succ_right]
    have hm : (n + 1) * rs ≤ rows * rs := Nat.mul_le_mul_right rs hn
    rw [Nat.succ_mul] at hm
    exact diagonalRow_inv satOut img hwf hsize bw bh cs rs cols n (by omega) hcols hcs
      hrs _ (ih (by omega))

/-- C29: for `sat = IntegralImage(img)` of a `w x h` 8-bit image (with
`255*w*h` within the `size_t` range), box sizes `bw >= 1`, `bh >= 1` with
`2*bw <= w` and `2*bh <= h`, and steps `cs >= 1`, `rs >= 1`,
`IntegralFeatureDiagonal` writes `(h-2*bh)/rs` rows of `(w-2*bw)/cs` values, and
the value at output `(i, j)` is `|(TR + BL) - (TL + BR)|` computed without
wrap-around, where `TL`, `TR`, `BL`, `BR` are the sums of `img` over the four
`bw x bh` quadrants of the window of rows `i*rs+1 .. i*rs+2*bh` and columns
`j*cs+1 .. j*cs+2*bw`, the window whose top-left `sat` corner is
`(i*rs, j*cs)`. -/
theorem IntegralFeatureDiagonal_values (outData satOut : Nat → Nat) (img : Image8_t)
    (hwf : img.wf) (hsize : 255 * (img.height * img.width) < SIZE_MOD)
    (bw bh cs rs : Nat) (hbw : 1 ≤ bw) (hbh : 1 ≤ bh) (hbw2 : 2 * bw ≤ img.width)
    (hbh2 : 2 * bh ≤ img.height) (hcs : 1 ≤ cs) (hrs : 1 ≤ rs) :
    (IntegralFeatureDiagonal outData (integralOf satOut img) bw bh cs rs).ptrOut
      = (img.height - 2 * bh) / rs * ((img.width - 2 * bw) / cs) ∧
    ∀ i j, i < (img.height - 2 * bh) / rs → j < (img.width - 2 * bw) / cs →
      (IntegralFeatureDiagonal outData (integralOf satOut img) bw bh cs rs).out
          (i * ((img.width - 2 * bw) / cs) + j)
        = diagonalValue img.data img.width bw bh cs rs i j := by
  have hhw : img.height * img.width < SIZE_MOD := by omega
  have hw : img.width < SIZE_MOD := by
    have : img.width ≤ img.height * img.width := Nat.le_mul_of_pos_left _ (by omega)
    omega
  have hh : img.height < SIZE_MOD := by
    have : img.height ≤ img.height * img.width := Nat.le_mul_of_pos_right _ (by omega)
    omega
  have hbhw : bh * img.width + bh * img.width ≤ img.height * img.width := by
    have := Nat.mul_le_mul_right img.width hbh2
    rw [Nat.two_mul, Nat.add_mul] at this
    exact this
  have hcolsle : (img.width - 2 * bw) / cs * cs ≤ img.width - 2 * bw :=
    Nat.div_mul_le_self _ _
  have hrowsle : (img.height - 2 * bh) / rs * rs ≤ img.height - 2 * bh :=
    Nat.div_mul_le_self _ _
  have e1 : usub img.width (bw * 2 % SIZE_MOD) / cs = (img.width - 2 * bw) / cs := by
    rw [Nat.mod_eq_of_lt (by omega), usub_eq _ _ hw (by omega), Nat.mul_comm bw 2]
  have e2 : usub img.height (bh * 2 % SIZE_MOD) / rs = (img.height - 2 * bh) / rs := by
    rw [Nat.mod_eq_of_lt (by omega), usub_eq _ _ hh (by omega), Nat.mul_comm bh 2]
  have e3 : umul bh img.width = bh * img.width := umul_eq _ _ (by omega)
  have e5 : umul ((img.width - 2 * bw) / cs) cs = (img.width - 2 * bw) / cs * cs :=
    umul_eq _ _ (by omega)
  have hinit : DiagonalInv img.data img.width bw bh cs rs ((img.width - 2 * bw) / cs) 0 0
      { out := outData, ptrOut := 0, ptrIn00 := 0,
        ptrIn01 := 0 + bw,
        ptrIn02 := 0 + bw + bw,
        ptrIn10 := 0 + bh * img.width,
        ptrIn11 := 0 + bh * img.width + bw,
        ptrIn12 := 0 + bh * img.width + bw + bw,
        ptrIn20 := 0 + bh * img.width + bh * img.width,
        ptrIn21 := 0 + bh * img.width + bh * img.width + bw,
        ptrIn22 := 0 + bh * img.width + bh * img.width + bw + bw,
        diffMax := 0 } := by
    refine ⟨?_, ?_, rfl, rfl, rfl, rfl, rfl, rfl, rfl, rfl, ?_⟩
    · show 0 = 0 * _ + 0; omega
    · show 0 = 0 * rs * img.width + 0 * cs; omega
    · intro i' j' _ hij; omega
  unfold IntegralFeatureDiagonal integralOf
  simp only [e1, e2, e3, e5]
  by_cases hrows0 : (img.height - 2 * bh) / rs = 0
  · rw [hrows0]
    exact ⟨by show 0 = 0 * _; omega, fun i j hi _ => by omega⟩
  · have hrs2 : rs ≤ img.height := by
      have : 1 * rs ≤ (img.height - 2 * bh) / rs * rs :=
        Nat.mul_le_mul_right rs (Nat.pos_of_ne_zero hrows0)
      omega
    have hwrs : img.width * rs ≤ img.height * img.width := by
      rw [Nat.mul_comm img.width rs]
      exact Nat.mul_le_mul_right _ hrs2
    have hm3 : img.width ≤ img.width * rs := Nat.le_mul_of_pos_right _ (by omega)
    have e6 : usub (umul img.width rs) ((img.width - 2 * bw) / cs * cs)
        = img.width * rs - (img.width - 2 * bw) / cs * cs := by
      rw [umul_eq _ _ (by omega), usub_eq _ _ (by omega) (by omega)]
    rw [e6]
    obtain ⟨h1, _, _, _, _, _, _, _, _, _, h11⟩ :=
      diagonalRows_inv satOut img hwf hsize bw bh cs rs ((img.width - 2 * bw) / cs)
        ((img.height - 2 * bh) / rs) (by omega) (by omega) hcs hrs _ hinit
        ((img.height - 2 * bh) / rs) (le_refl _)
    exact ⟨by rw [h1]; omega, fun i j hi hj => h11 i j hj (Or.inl hi)⟩

/-- C29, witness: the 5x6 test image with 1x1 boxes, column step 1 and row step
2; the value at output (1, 2). -/
theorem IntegralFeatureDiagonal_values_witness :
    (IntegralFeatureDiagonal (fun _ => 0) (integralOf (fun _ => 0) featureTestImage)
        1 1 1 2).ptrOut
      = (featureTestImage.height - 2 * 1) / 2 * ((featureTestImage.width - 2 * 1) / 1) ∧
    (IntegralFeatureDiagonal (fun _ => 0) (integralOf (fun _ => 0) featureTestImage)
        1 1 1 2).out (1 * ((featureTestImage.width - 2 * 1) / 1) + 2)
      = diagonalValue featureTestImage.data featureTestImage.width 1 1 1 2 1 2 :=
  ⟨(IntegralFeatureDiagonal_values (fun _ => 0) (fun _ => 0) featureTestImage
      (fun k => Nat.lt_of_lt_of_le (Nat.mod_lt _ (by decide)) (by decide))
      (by decide) 1 1 1 2 (by decide) (by decide) (by decide) (by decide) (by decide)
      (by decide)).1,
   (IntegralFeatureDiagonal_values (fun _ => 0) (fun _ => 0) featureTestImage
      (fun k => Nat.lt_of_lt_of_le (Nat.mod_lt _ (by decide)) (by decide))
      (by decide) 1 1 1 2 (by decide) (by decide) (by decide) (by decide) (by decide)
      (by decide)).2 1 2 (by decide) (by decide)⟩

/-! ## RegionErode33 against the window definition -/

theorem colFull_iff (data : Nat → Nat) (w r c : Nat) :
    colFull data w ((r + 1) * w + c)
      ↔ data (r * w + c) ≠ 0 ∧ data ((r + 1) * w + c) ≠ 0 ∧ data ((r + 2) * w + c) ≠ 0 := by
  unfold colFull
  have m1 : (r + 1) * w = r * w + w := Nat.succ_mul r w
  have m2 : (r + 2) * w = r * w + w + w := by
    rw [show r + 2 = r + 1 + 1 from rfl, Nat.succ_mul, Nat.succ_mul]
  have e1 : (r + 1) * w + c - w = r * w + c := by omega
  have e2 : (r + 1) * w + c + w = (r + 2) * w + c := by omega
  rw [e1, e2]
  constructor
  · rintro ⟨_, a, b, c'⟩; exact ⟨a, b, c'⟩
  · rintro ⟨a, b, c'⟩; exact ⟨by omega, a, b, c'⟩

theorem windowHasZero_iff (data : Nat → Nat) (w r c : Nat) :
    windowHasZero data w (r + 1) (c + 1)
      ↔ ¬ (colFull data w ((r + 1) * w + c) ∧ colFull data w ((r + 1) * w + (c + 1)) ∧
           colFull data w ((r + 1) * w + (c + 2))) := by
  rw [colFull_iff, colFull_iff, colFull_iff]
  unfold windowHasZero
  have f : ∀ dr dc, (r + 1 - 1 + dr) * w + (c + 1 - 1 + dc) = (r + dr) * w + (c + dc) := by
    intro dr dc
    rw [Nat.add_sub_cancel, Nat.add_sub_cancel]
  constructor
  · rintro ⟨dr, hdr, dc, hdc, hz⟩ hall
    rw [f] at hz
    obtain ⟨⟨a1, a2, a3⟩, ⟨b1, b2, b3⟩, ⟨c1, c2, c3⟩⟩ := hall
    have hdr3 : dr = 0 ∨ dr = 1 ∨ dr = 2 := by omega
    have hdc3 : dc = 0 ∨ dc = 1 ∨ dc = 2 := by omega
    rcases hdr3 with rfl | rfl | rfl <;> rcases hdc3 with rfl | rfl | rfl
    · exact a1 hz
    · exact b1 hz
    · exact c1 hz
    · exact a2 hz
    · exact b2 hz
    · exact c2 hz
    · exact a3 hz
    · exact b3 hz
    · exact c3 hz
  · intro hnot
    by_contra hnone
    apply hnot
    have g : ∀ dr dc, dr < 3 → dc < 3 → data ((r + dr) * w + (c + dc)) ≠ 0 := by
      intro dr dc hdr hdc hz
      exact hnone ⟨dr, hdr, dc, hdc, by rw [f]; exact hz⟩
    exact ⟨⟨g 0 0 (by omega) (by omega), g 1 0 (by omega) (by omega),
        g 2 0 (by omega) (by omega)⟩,
      ⟨g 0 1 (by omega) (by omega), g 1 1 (by omega) (by omega),
        g 2 1 (by omega) (by omega)⟩,
      ⟨g 0 2 (by omega) (by omega), g 1 2 (by omega) (by omega),
        g 2 2 (by omega) (by omega)⟩⟩

/-- C31: for every 8-bit image (`w >= 3`; `h >= 3` follows from the bounds on
`r`), every mark and every pixel `(r, c)` with `1 <= r <= h-2` and
`1 <= c <= w-2`, the pixel left by the
in-place `RegionErode33` is the one the window definition gives on the original
image: the mark if the original pixel was non-zero and one of the 9 original
pixels of its 3x3 window was zero, the original pixel otherwise. -/
theorem RegionErode33_naive (img : Image8_t) (mark : Nat) (hw : 3 ≤ img.width)
    (r c : Nat) (hr1 : 1 ≤ r) (hr2 : r + 2 ≤ img.height)
    (hc1 : 1 ≤ c) (hc2 : c + 2 ≤ img.width) :
    (RegionErode33 img mark).data (r * img.width + c) = naiveErode33 img mark r c := by
  have hreg := (inRegion_coords img.width img.height r c (by omega)).2 ⟨hc1, hc2, hr2⟩
  obtain ⟨r1, rfl⟩ : ∃ r1, r = r1 + 1 := ⟨r - 1, by omega⟩
  obtain ⟨c1, rfl⟩ : ∃ c1, c = c1 + 1 := ⟨c - 1, by omega⟩
  have hwz := windowHasZero_iff img.data img.width r1 c1
  rw [RegionErode33_window img mark (by omega)]
  unfold naiveErode33
  have e1 : (r1 + 1) * img.width + (c1 + 1) - 1 = (r1 + 1) * img.width + c1 := by omega
  have e2 : (r1 + 1) * img.width + (c1 + 1) + 1 = (r1 + 1) * img.width + (c1 + 2) := by omega
  rw [e1, e2]
  by_cases hfire : img.data ((r1 + 1) * img.width + (c1 + 1)) ≠ 0 ∧
      windowHasZero img.data img.width (r1 + 1) (c1 + 1)
  · rw [if_pos hfire, if_pos ⟨hreg, hfire.1, hwz.1 hfire.2⟩]
  · rw [if_neg hfire, if_neg]
    rintro ⟨_, a, b⟩
    exact hfire ⟨a, hwz.2 b⟩

/-- C31, witness: the centre pixel of the 5x5 image with a 3x3 block of 255. -/
theorem RegionErode33_naive_witness :
    (RegionErode33 blockImage 0).data (2 * blockImage.width + 2)
      = naiveErode33 blockImage 0 2 2 :=
  RegionErode33_naive blockImage 0 (by decide) 2 2 (by decide) (by decide) (by decide)
    (by decide)
/-! ## HistogramMedian: termination and range of the result -/

theorem HistogramMedianLoop_terminates (sumBins : Nat → Nat) (halfCounts bound : Nat) :
    ∀ fuel lowerBound upperBound ptrSumBins,
      upperBound - lowerBound + 1 ≤ fuel → lowerBound ≤ ptrSumBins →
      ptrSumBins ≤ upperBound → upperBound ≤ bound → ptrSumBins < bound →
      (2 ≤ upperBound - lowerBound → lowerBound < ptrSumBins ∧ ptrSumBins < upperBound) →
      ∃ i, HistogramMedianLoop sumBins halfCounts fuel lowerBound upperBound ptrSumBins
          = some i ∧ i < bound := by
  intro fuel
  induction fuel with
  | zero => intro lo up p h1; omega
  | succ fuel ih =>
    intro lo up p h1 h2 h3 h4 h5 h6
    unfold HistogramMedianLoop
    by_cases hloop : (up - lo) / 2 * 2 ≠ 0
    · rw [if_pos hloop]
      obtain ⟨h7, h8⟩ := h6 (by omega)
      by_cases hlt : sumBins p < halfCounts
      · rw [if_pos hlt]
        exact ih p up (p + (up - p) / 2) (by omega) (by omega) (by omega) h4 (by omega)
          (fun _ => ⟨by omega, by omega⟩)
      · rw [if_neg hlt]
        by_cases hgt : sumBins p > halfCounts
        · rw [if_pos hgt]
          exact ih lo p (p - (p - lo) / 2) (by omega) (by omega) (by omega) (by omega)
            (by omega) (fun _ => ⟨by omega, by omega⟩)
        · rw [if_neg hgt]
          exact ⟨p, rfl, h5⟩
    · rw [if_neg hloop]
      exact ⟨p, rfl, h5⟩

/-- C34: for every histogram with `numberBins >= 1`, whatever `sumBins` and
`numberCounts` hold, the binary search of `HistogramMedian` terminates (the
interval between the bounds shrinks at every step, so the `numberBins + 1`
steps allowed are never used up) and returns an index below `numberBins`. -/
theorem HistogramMedian_terminates (inHistogram : Histogram_t)
    (hbins : 1 ≤ inHistogram.numberBins) :
    ∃ i, HistogramMedian inHistogram = some i ∧ i < inHistogram.numberBins :=
  HistogramMedianLoop_terminates inHistogram.sumBins (inHistogram.numberCounts / 2)
    inHistogram.numberBins (inHistogram.numberBins + 1) 0 inHistogram.numberBins
    (inHistogram.numberBins / 2) (by omega) (by omega) (by omega) (Nat.le_refl _) (by omega)
    (fun _ => ⟨by omega, by omega⟩)

/-- C34, witness: the 6-bin histogram with bins 5, 3, 1, 1, 3, 5. -/
theorem HistogramMedian_terminates_witness :
    ∃ i, HistogramMedian sixBinHistogram = some i ∧ i < sixBinHistogram.numberBins :=
  HistogramMedian_terminates sixBinHistogram (by decide)
/-! ## SobelEdges: the Y edge image two pixels inside the border -/

theorem ringZeroed_scanned (data : Nat → Nat) (w h q r c : Nat) (hq : q = r * w + c)
    (hr1 : 1 ≤ r) (hr2 : r + 2 ≤ h) (hc1 : 1 ≤ c) (hc2 : c + 2 ≤ w) :
    ringZeroed w h data q = data q := by
  subst hq
  unfold ringZeroed
  rw [if_pos ((scanned_coords w h r c (by omega)).2 ⟨hr1, hr2, hc1, hc2⟩)]

/-- C35: for every 8-bit image with `w >= 5` and `h >= 5` whose samples are all
below 128, and every output pixel `(i, j)` with `2 <= i <= h-3` and
`2 <= j <= w-3`, the Y edge image of `SobelEdges` equals
`in(i+1,j-1) + 2*in(i+1,j) + in(i+1,j+1) - in(i-1,j-1) - 2*in(i-1,j) - in(i-1,j+1)`
exactly; the value lies within `[-508, 508]`, so nothing is lost in the 16-bit
cell. -/
theorem SobelEdges_Y_deep_interior (img : Image8_t) (hw : 5 ≤ img.width)
    (hh : 5 ≤ img.height) (hsmall : ∀ k, img.data k < 128) (i j : Nat)
    (hi1 : 2 ≤ i) (hi2 : i + 3 ≤ img.height) (hj1 : 2 ≤ j) (hj2 : j + 3 ≤ img.width) :
    (SobelEdges img).outDataY (i * img.width + j) = sobelDirectY img.data img.width i j ∧
    -508 ≤ sobelDirectY img.data img.width i j ∧
    sobelDirectY img.data img.width i j ≤ 508 := by
  rw [SobelEdges_outDataY img (by omega) (by omega)]
  obtain ⟨i', rfl⟩ : ∃ i', i = i' + 1 := ⟨i - 1, by omega⟩
  obtain ⟨j', rfl⟩ : ∃ j', j = j' + 1 := ⟨j - 1, by omega⟩
  have hz := ringZeroed_lt img.data img.width img.height 128 (by decide) hsmall
  have m1 : (i' + 1) * img.width = i' * img.width + img.width := Nat.succ_mul i' img.width
  have m2 : (i' + 1 + 1) * img.width = i' * img.width + img.width + img.width := by
    rw [Nat.succ_mul, Nat.succ_mul]
  have r1 := ringZeroed_scanned img.data img.width img.height
    (i' * img.width + img.width + img.width + j' + 2) (i' + 1 + 1) (j' + 2) (by omega)
    (by omega) (by omega) (by omega) (by omega)
  have r2 := ringZeroed_scanned img.data img.width img.height
    (i' * img.width + img.width + img.width + j' + 1) (i' + 1 + 1) (j' + 1) (by omega)
    (by omega) (by omega) (by omega) (by omega)
  have r3 := ringZeroed_scanned img.data img.width img.height
    (i' * img.width + img.width + img.width + j') (i' + 1 + 1) j' (by omega)
    (by omega) (by omega) (by omega) (by omega)
  have r4 := ringZeroed_scanned img.data img.width img.height
    (i' * img.width + j' + 2) i' (j' + 2) (by omega) (by omega) (by omega) (by omega)
    (by omega)
  have r5 := ringZeroed_scanned img.data img.width img.height
    (i' * img.width + j' + 1) i' (j' + 1) (by omega) (by omega) (by omega) (by omega)
    (by omega)
  have r6 := ringZeroed_scanned img.data img.width img.height
    (i' * img.width + j') i' j' (by omega) (by omega) (by omega) (by omega) (by omega)
  generalize ringZeroed img.width img.height img.data = d at hz r1 r2 r3 r4 r5 r6 ⊢
  generalize img.width = w at hw hj2 m1 m2 r1 r2 r3 r4 r5 r6 ⊢
  unfold sobelYScatter sobelDirectY pix
  have e1 : (i' + 1) * w + (j' + 1) + w + 1 = i' * w + w + w + j' + 2 := by omega
  have e2 : (i' + 1) * w + (j' + 1) + w = i' * w + w + w + j' + 1 := by omega
  have e3 : (i' + 1) * w + (j' + 1) + w - 1 = i' * w + w + w + j' := by omega
  have e4 : (i' + 1) * w + (j' + 1) + 1 - w = i' * w + j' + 2 := by omega
  have e5 : (i' + 1) * w + (j' + 1) - w = i' * w + j' + 1 := by omega
  have e6 : (i' + 1) * w + (j' + 1) - w - 1 = i' * w + j' := by omega
  have f1 : (i' + 1 + 1) * w + (j' + 1 - 1) = i' * w + w + w + j' := by omega
  have f2 : (i' + 1 + 1) * w + (j' + 1) = i' * w + w + w + j' + 1 := by omega
  have f3 : (i' + 1 + 1) * w + (j' + 1 + 1) = i' * w + w + w + j' + 2 := by omega
  have f4 : (i' + 1 - 1) * w + (j' + 1 - 1) = i' * w + j' := by
    rw [Nat.add_sub_cancel, Nat.add_sub_cancel]
  have f5 : (i' + 1 - 1) * w + (j' + 1) = i' * w + j' + 1 := by
    rw [Nat.add_sub_cancel]; omega
  have f6 : (i' + 1 - 1) * w + (j' + 1 + 1) = i' * w + j' + 2 := by
    rw [Nat.add_sub_cancel]; omega
  rw [e1, e3, e2, e4, e6, e5, f1, f2, f3, f4, f5, f6,
    twiceOf_small d _ (hz _), twiceOf_small d _ (hz _)]
  have b1 := hz (i' * w + w + w + j' + 2)
  have b2 := hz (i' * w + w + w + j' + 1)
  have b3 := hz (i' * w + w + w + j')
  have b4 := hz (i' * w + j' + 2)
  have b5 := hz (i' * w + j' + 1)
  have b6 := hz (i' * w + j')
  unfold sampleOf
  rw [wrap16_of_small _ (by omega) (by omega), r1, r2, r3, r4, r5, r6]
  rw [r1] at b1
  rw [r2] at b2
  rw [r3] at b3
  rw [r4] at b4
  rw [r5] at b5
  rw [r6] at b6
  refine ⟨by ring, by omega, by omega⟩

/-- C35, witness: the 5x5 image with samples `(7 * k + 3) % 100`, whose only
pixel two inside the border is (2,2). -/
theorem SobelEdges_Y_deep_interior_witness :
    (SobelEdges sobelRampImage).outDataY (2 * sobelRampImage.width + 2)
      = sobelDirectY sobelRampImage.data sobelRampImage.width 2 2 ∧
    -508 ≤ sobelDirectY sobelRampImage.data sobelRampImage.width 2 2 ∧
    sobelDirectY sobelRampImage.data sobelRampImage.width 2 2 ≤ 508 :=
  SobelEdges_Y_deep_interior sobelRampImage (by decide) (by decide)
    (fun k => by
      show (7 * k + 3) % 100 < 128
      omega)
    2 2 (by decide) (by decide) (by decide) (by decide)
/-! ## UintSqrt on perfect squares -/

theorem newton_above_square (s : Nat) (hs : 3 ≤ s) :
    (s + 2 + s * s / (s + 2)) / 2 ≤ s := by
  have h : s * s / (s + 2) < s - 1 := by
    apply (Nat.div_lt_iff_lt_mul (by omega)).2
    obtain ⟨t, rfl⟩ : ∃ t, s = t + 3 := ⟨s - 3, by omega⟩
    rw [show t + 3 - 1 = t + 2 by omega]
    nlinarith
  omega

theorem UintSqrtLoop_square (s : Nat) (hs : 3 ≤ s) (hv : s * s < 9223372036854775808) :
    ∀ fuel x, s ≤ x → x < fuel + s → 2 * x ≤ s * s →
      UintSqrtLoop (s * s) fuel x = some s := by
  have h2 : s * s < (s + 1) * (s + 1) := by nlinarith
  intro fuel
  induction fuel with
  | zero => intro x h3 h4 _; omega
  | succ fuel ih =>
    intro x h3 h4 h5
    have hdiv : s * s / x ≤ s * s := Nat.div_le_self _ x
    have hadd : uadd x (s * s / x) = x + s * s / x := by
      unfold uadd SIZE_MOD
      exact Nat.mod_eq_of_lt (by omega)
    have hlow := newton_lower (s * s) s x (by omega) (Nat.le_refl _)
    unfold UintSqrtLoop
    simp only [hadd]
    by_cases hxs : s < x
    · have hvx : s * s < x * x := by
        have : (s + 1) * (s + 1) ≤ x * x := Nat.mul_le_mul hxs hxs
        omega
      have hdec := newton_decrease (s * s) x (by omega) hvx
      by_cases hcont : x ≠ (x + s * s / x) / 2 ∧ UINTDIFF x ((x + s * s / x) / 2) ≠ 1
      · rw [if_pos hcont]
        exact ih _ hlow (by omega) (by omega)
      · rw [if_neg hcont]
        have hone : (x + s * s / x) / 2 + 1 = x := by
          by_contra hne
          apply hcont
          refine ⟨by omega, ?_⟩
          unfold UINTDIFF
          split_ifs <;> omega
        have hx2 := newton_step_one (s * s) s x h2 hone
        have hx : x = s + 1 := by
          by_contra hne
          have hx' : x = s + 2 := by omega
          subst hx'
          have := newton_above_square s hs
          omega
        congr 1
        omega
    · have hx : x = s := by omega
      subst hx
      have hq : x * x / x = x := Nat.mul_div_cancel x (by omega)
      rw [hq, show (x + x) / 2 = x by omega, if_neg (fun h => h.1 rfl)]

/-- C36: for every `n` with `n*n < 2^63`, `UintSqrt(n*n)` returns `n`: the
Newton branch never ends one above the root of a perfect square. -/
theorem UintSqrt_square (n : Nat) (h : n * n < 9223372036854775808) :
    UintSqrt (n * n) = some n := by
  by_cases hsmall : n * n < 1024
  · obtain ⟨h1, h2⟩ := sqrtLut_exact (n * n) hsmall
    have hlt : n * n < (n + 1) * (n + 1) := by nlinarith
    have e := floor_sqrt_unique (n * n) _ n h1 h2 (Nat.le_refl _) hlt
    unfold UintSqrt
    rw [if_pos hsmall, e]
  · have hn : 32 ≤ n := by
      by_contra hlt
      have : n * n ≤ 31 * 31 := Nat.mul_le_mul (by omega) (by omega)
      omega
    have hhalf : n ≤ n * n / 2 := by
      have : n * 32 ≤ n * n := Nat.mul_le_mul_left _ hn
      omega
    unfold UintSqrt
    rw [if_neg hsmall]
    exact UintSqrtLoop_square n (by omega) h (n * n) (n * n / 2) hhalf (by omega) (by omega)

/-- C36, witness: `n = 1000`. -/
theorem UintSqrt_square_witness : UintSqrt (1000 * 1000) = some 1000 :=
  UintSqrt_square 1000 (by decide)
/-! ## OtsuThreshold on a histogram with a single occupied bin -/

theorem cumSum_single (bins : Nat → Nat) (a : Nat) (hbins : ∀ i, i ≠ a → bins i = 0) :
    ∀ i, cumSum bins i = if i < a then 0 else bins a := by
  intro i
  induction i with
  | zero =>
    show bins 0 = _
    by_cases h : 0 < a
    · rw [if_pos h]; exact hbins 0 (by omega)
    · rw [if_neg h, show a = 0 by omega]
  | succ i ih =>
    show cumSum bins i + bins (i + 1) = _
    rw [ih]
    by_cases h1 : i + 1 < a
    · rw [if_pos h1, if_pos (by omega), hbins (i + 1) (by omega)]
    · rw [if_neg h1]
      by_cases h2 : i < a
      · rw [if_pos h2, show a = i + 1 by omega]; omega
      · rw [if_neg h2, hbins (i + 1) (by omega)]; omega

theorem OtsuLoop_all_skipped (h : Histogram_t) (mean : Nat) :
    ∀ rem p q last, (∀ i, p ≤ i → i < p + rem → otsuSkips h i) →
      OtsuLoop h.sumBins h.meanBins h.numberCounts mean rem p q last = p + rem := by
  intro rem
  induction rem with
  | zero => intro p q last _; rfl
  | succ rem ih =>
    intro p q last hs
    rw [OtsuLoop_skip h mean rem p q last (hs p (Nat.le_refl p) (by omega)),
      ih (p + 1) q last (fun i a b => hs i (by omega) (by omega))]
    omega

theorem OtsuLoopChecked_all_skipped (h : Histogram_t) (mean : Nat) :
    ∀ rem p q last, (∀ i, p ≤ i → i < p + rem → otsuSkips h i) →
      OtsuLoopChecked h.sumBins h.meanBins h.numberCounts mean rem p q last
        = some (p + rem) := by
  intro rem
  induction rem with
  | zero => intro p q last _; rfl
  | succ rem ih =>
    intro p q last hs
    rw [OtsuLoopChecked_skip h mean rem p q last (hs p (Nat.le_refl p) (by omega)),
      ih (p + 1) q last (fun i a b => hs i (by omega) (by omega))]
    congr 1
    omega

/-- C38: for every consistent histogram whose counts all lie in a single bin
`a < numberBins` (`numberCounts > 0`), every bin is skipped as a degenerate
split, no division by zero occurs, and `OtsuThreshold` returns `numberBins`,
which is not a valid bin index. -/
theorem OtsuThreshold_single_bin (h : Histogram_t) (a : Nat) (hcons : h.consistent)
    (ha : a < h.numberBins) (hbins : ∀ i, i ≠ a → h.bins i = 0) (hpos : 0 < h.numberCounts) :
    (∀ t, t < h.numberBins → h.sumBins t = 0 ∨ h.sumBins t = h.numberCounts) ∧
    OtsuThresholdChecked h = some h.numberBins ∧
    OtsuThreshold h = h.numberBins ∧ ¬ OtsuThreshold h < h.numberBins := by
  obtain ⟨hcount, harr⟩ := hcons
  have hcum := cumSum_single h.bins a hbins
  have hN : h.numberCounts = h.bins a := by
    rw [hcount, hcum, if_neg (by omega)]
  have hskip : ∀ t, t < h.numberBins → h.sumBins t = 0 ∨ h.sumBins t = h.numberCounts := by
    intro t ht
    rw [(harr t ht).1, hcum, hN]
    by_cases hta : t < a
    · left; rw [if_pos hta]
    · right; rw [if_neg hta]
  have hres : OtsuThreshold h = h.numberBins := by
    unfold OtsuThreshold
    rw [OtsuLoop_all_skipped h _ h.numberBins 0 0 0 (fun i _ hi => hskip i (by omega))]
    omega
  refine ⟨hskip, ?_, hres, by omega⟩
  unfold OtsuThresholdChecked
  rw [if_neg (by omega),
    OtsuLoopChecked_all_skipped h _ h.numberBins 0 0 0 (fun i _ hi => hskip i (by omega))]
  congr 1
  omega

set_option maxRecDepth 100000 in
/-- C38, witness: the consistent 6-bin histogram with 7 counts in bin 2. -/
theorem OtsuThreshold_single_bin_witness :
    (∀ t, t < (histogramOf 6 (fun i => if i = 2 then 7 else 0)).numberBins →
      (histogramOf 6 (fun i => if i = 2 then 7 else 0)).sumBins t = 0 ∨
      (histogramOf 6 (fun i => if i = 2 then 7 else 0)).sumBins t
        = (histogramOf 6 (fun i => if i = 2 then 7 else 0)).numberCounts) ∧
    OtsuThresholdChecked (histogramOf 6 (fun i => if i = 2 then 7 else 0))
      = some (histogramOf 6 (fun i => if i = 2 then 7 else 0)).numberBins ∧
    OtsuThreshold (histogramOf 6 (fun i => if i = 2 then 7 else 0))
      = (histogramOf 6 (fun i => if i = 2 then 7 else 0)).numberBins ∧
    ¬ OtsuThreshold (histogramOf 6 (fun i => if i = 2 then 7 else 0))
      < (histogramOf 6 (fun i => if i = 2 then 7 else 0)).numberBins :=
  OtsuThreshold_single_bin (histogramOf 6 (fun i => if i = 2 then 7 else 0)) 2
    ⟨rfl, fun _ _ => ⟨rfl, rfl⟩⟩ (by decide)
    (fun i hi => if_neg hi) (by decide)
/-! ## HoughRadius under a half turn -/

set_option maxRecDepth 100000 in
theorem cosLut_half_turn : ∀ i, i < 128 →
    cosLut.getD ((i + 64) % 128) 0 = - cosLut.getD i 0 := by decide

set_option maxRecDepth 100000 in
theorem sinLut_half_turn : ∀ i, i < 128 →
    sinLut.getD ((i + 64) % 128) 0 = - sinLut.getD i 0 := by decide

theorem UintCos_half_turn (theta : Nat) : UintCos (theta + 64) = - UintCos theta := by
  unfold UintCos
  rw [Nat.add_mod, Nat.mod_eq_of_lt (show 64 < 128 by decide)]
  exact cosLut_half_turn (theta % 128) (Nat.mod_lt _ (by decide))

theorem UintSin_half_turn (theta : Nat) : UintSin (theta + 64) = - UintSin theta := by
  unfold UintSin
  rw [Nat.add_mod, Nat.mod_eq_of_lt (show 64 < 128 by decide)]
  exact sinLut_half_turn (theta % 128) (Nat.mod_lt _ (by decide))

/-- C39: for every `x`, `y` (in particular with `|x|, |y| <= 16383`) and every
angle bin `theta`, `HoughRadius(-x, -y, theta) = HoughRadius(x, y, theta + 64)`:
the cosine and sine tables change sign exactly under a half turn, so the two
calls shift the same 32-bit value. -/
theorem HoughRadius_half_turn (x y : Int) (theta : Nat) :
    HoughRadius (-x) (-y) theta = HoughRadius x y (theta + 64) := by
  unfold HoughRadius
  rw [UintCos_half_turn, UintSin_half_turn]
  congr 3
  ring
/-! ## ApproxAtan2 under a reversal of the vector -/

theorem neg16_neg_pos (v : Int) (h1 : 0 < v) (h2 : v ≤ 32767) : neg16 (-v) = v := by
  rw [neg16_of_neg (-v) (by omega) (by omega)]
  omega

theorem toSize_shift (q : Int) (h0 : 0 ≤ q) (h1 : q ≤ 16) :
    toSize (64 + q) = (toSize q + 64) % 128 ∧
    toSize q = (toSize (64 + q) + 64) % 128 ∧
    toSize (64 - q) = (toSize (Int.tmod (128 - q) 128) + 64) % 128 ∧
    toSize (Int.tmod (128 - q) 128) = (toSize (64 - q) + 64) % 128 := by
  rw [Int.tmod_eq_emod (by omega) (by omega)]
  unfold toSize
  omega

theorem toSize_shift2 (q : Int) (h0 : 0 ≤ q) (h1 : q ≤ 16) :
    toSize (96 - q) = (toSize (32 - q) + 64) % 128 ∧
    toSize (32 - q) = (toSize (96 - q) + 64) % 128 ∧
    toSize (96 + q) = (toSize (32 + q) + 64) % 128 ∧
    toSize (32 + q) = (toSize (96 + q) + 64) % 128 := by
  unfold toSize
  omega

/-- C40: for every `dy`, `dx` in `[-32767, 32767]` that are not both zero,
`ApproxAtan2(-dy, -dx) = (ApproxAtan2(dy, dx) + 64) mod 128`. -/
theorem ApproxAtan2_half_turn (dy dx : Int) (hy1 : -32767 ≤ dy) (hy2 : dy ≤ 32767)
    (hx1 : -32767 ≤ dx) (hx2 : dx ≤ 32767) (hne : dy ≠ 0 ∨ dx ≠ 0) :
    ApproxAtan2 (-dy) (-dx) = (ApproxAtan2 dy dx + 64) % 128 := by
  rcases lt_trichotomy dx 0 with hx | hx | hx
  · -- dx < 0
    have nx : neg16 dx = -dx := neg16_of_neg dx hx1 hx
    rcases lt_trichotomy dy 0 with hy | hy | hy
    · have ny : neg16 dy = -dy := neg16_of_neg dy hy1 hy
      by_cases hle : -dy ≤ -dx
      · have hq := tdiv16_range (-dy) (-dx) (by omega) (by omega) hle
        have l : ApproxAtan2 dy dx = toSize (64 + Int.tdiv (-dy * 16) (-dx)) := by
          unfold ApproxAtan2
          simp only [nx, ny]
          rw [if_neg (by omega), if_pos hx, if_neg (by omega), if_pos hy, if_pos hle]
        have r : ApproxAtan2 (-dy) (-dx) = toSize (Int.tdiv (-dy * 16) (-dx)) := by
          unfold ApproxAtan2
          rw [if_pos (by omega), if_pos (by omega), if_pos hle]
        rw [l, r]
        exact (toSize_shift _ hq.1 hq.2).2.1
      · have hq := tdiv16_range (-dx) (-dy) (by omega) (by omega) (by omega)
        have l : ApproxAtan2 dy dx = toSize (96 - Int.tdiv (-dx * 16) (-dy)) := by
          unfold ApproxAtan2
          simp only [nx, ny]
          rw [if_neg (by omega), if_pos hx, if_neg (by omega), if_pos hy, if_neg hle]
        have r : ApproxAtan2 (-dy) (-dx) = toSize (32 - Int.tdiv (-dx * 16) (-dy)) := by
          unfold ApproxAtan2
          rw [if_pos (by omega), if_pos (by omega), if_neg hle]
        rw [l, r]
        exact (toSize_shift2 _ hq.1 hq.2).2.1
    · subst hy
      have l : ApproxAtan2 0 dx = 64 := by
        unfold ApproxAtan2
        rw [if_neg (by omega), if_pos hx]
        simp
      have r : ApproxAtan2 (-0) (-dx) = 0 := by
        unfold ApproxAtan2
        rw [if_pos (by omega)]
        simp
      rw [l, r]
    · by_cases hle : dy ≤ -dx
      · have hq := tdiv16_range dy (-dx) (by omega) (by omega) hle
        have l : ApproxAtan2 dy dx = toSize (64 - Int.tdiv (dy * 16) (-dx)) := by
          unfold ApproxAtan2
          simp only [nx]
          rw [if_neg (by omega), if_pos hx, if_pos hy, if_pos hle]
        have r : ApproxAtan2 (-dy) (-dx)
            = toSize (Int.tmod (128 - Int.tdiv (dy * 16) (-dx)) 128) := by
          unfold ApproxAtan2
          simp only [neg16_neg_pos dy hy hy2]
          rw [if_pos (by omega), if_neg (by omega), if_pos (by omega), if_pos hle]
        rw [l, r]
        exact (toSize_shift _ hq.1 hq.2).2.2.2
      · have hq := tdiv16_range (-dx) dy (by omega) (by omega) (by omega)
        have l : ApproxAtan2 dy dx = toSize (32 + Int.tdiv (-dx * 16) dy) := by
          unfold ApproxAtan2
          simp only [nx]
          rw [if_neg (by omega), if_pos hx, if_pos hy, if_neg hle]
        have r : ApproxAtan2 (-dy) (-dx) = toSize (96 + Int.tdiv (-dx * 16) dy) := by
          unfold ApproxAtan2
          simp only [neg16_neg_pos dy hy hy2]
          rw [if_pos (by omega), if_neg (by omega), if_pos (by omega), if_neg hle]
        rw [l, r]
        exact (toSize_shift2 _ hq.1 hq.2).2.2.1
  · -- dx = 0
    subst hx
    rcases lt_trichotomy dy 0 with hy | hy | hy
    · have l : ApproxAtan2 dy 0 = 96 := by
        unfold ApproxAtan2
        rw [if_neg (by omega), if_neg (by omega), if_neg (by omega), if_pos hy]
      have r : ApproxAtan2 (-dy) (-0) = 32 := by
        unfold ApproxAtan2
        rw [if_neg (by omega), if_neg (by omega), if_pos (by omega)]
      rw [l, r]
    · omega
    · have l : ApproxAtan2 dy 0 = 32 := by
        unfold ApproxAtan2
        rw [if_neg (by omega), if_neg (by omega), if_pos hy]
      have r : ApproxAtan2 (-dy) (-0) = 96 := by
        unfold ApproxAtan2
        rw [if_neg (by omega), if_neg (by omega), if_neg (by omega), if_pos (by omega)]
      rw [l, r]
  · -- dx > 0
    have nx : neg16 (-dx) = dx := neg16_neg_pos dx hx hx2
    rcases lt_trichotomy dy 0 with hy | hy | hy
    · have ny : neg16 dy = -dy := neg16_of_neg dy hy1 hy
      by_cases hle : -dy ≤ dx
      · have hq := tdiv16_range (-dy) dx (by omega) (by omega) hle
        have l : ApproxAtan2 dy dx
            = toSize (Int.tmod (128 - Int.tdiv (-dy * 16) dx) 128) := by
          unfold ApproxAtan2
          simp only [ny]
          rw [if_pos hx, if_neg (by omega), if_pos hy, if_pos hle]
        have r : ApproxAtan2 (-dy) (-dx) = toSize (64 - Int.tdiv (-dy * 16) dx) := by
          unfold ApproxAtan2
          simp only [nx]
          rw [if_neg (by omega), if_pos (by omega), if_pos (by omega), if_pos hle]
        rw [l, r]
        exact (toSize_shift _ hq.1 hq.2).2.2.1
      · have hq := tdiv16_range dx (-dy) (by omega) (by omega) (by omega)
        have l : ApproxAtan2 dy dx = toSize (96 + Int.tdiv (dx * 16) (-dy)) := by
          unfold ApproxAtan2
          simp only [ny]
          rw [if_pos hx, if_neg (by omega), if_pos hy, if_neg hle]
        have r : ApproxAtan2 (-dy) (-dx) = toSize (32 + Int.tdiv (dx * 16) (-dy)) := by
          unfold ApproxAtan2
          simp only [nx]
          rw [if_neg (by omega), if_pos (by omega), if_pos (by omega), if_neg hle]
        rw [l, r]
        exact (toSize_shift2 _ hq.1 hq.2).2.2.2
    · subst hy
      have l : ApproxAtan2 0 dx = 0 := by
        unfold ApproxAtan2
        rw [if_pos hx]
        simp
      have r : ApproxAtan2 (-0) (-dx) = 64 := by
        unfold ApproxAtan2
        rw [if_neg (by omega), if_pos (by omega)]
        simp
      rw [l, r]
    · by_cases hle : dy ≤ dx
      · have hq := tdiv16_range dy dx (by omega) (by omega) hle
        have l : ApproxAtan2 dy dx = toSize (Int.tdiv (dy * 16) dx) := by
          unfold ApproxAtan2
          rw [if_pos hx, if_pos hy, if_pos hle]
        have r : ApproxAtan2 (-dy) (-dx) = toSize (64 + Int.tdiv (dy * 16) dx) := by
          unfold ApproxAtan2
          simp only [nx, neg16_neg_pos dy hy hy2]
          rw [if_neg (by omega), if_pos (by omega), if_neg (by omega), if_pos (by omega),
            if_pos hle]
        rw [l, r]
        exact (toSize_shift _ hq.1 hq.2).1
      · have hq := tdiv16_range dx dy (by omega) (by omega) (by omega)
        have l : ApproxAtan2 dy dx = toSize (32 - Int.tdiv (dx * 16) dy) := by
          unfold ApproxAtan2
          rw [if_pos hx, if_pos hy, if_neg hle]
        have r : ApproxAtan2 (-dy) (-dx) = toSize (96 - Int.tdiv (dx * 16) dy) := by
          unfold ApproxAtan2
          simp only [nx, neg16_neg_pos dy hy hy2]
          rw [if_neg (by omega), if_pos (by omega), if_neg (by omega), if_pos (by omega),
            if_neg hle]
        rw [l, r]
        exact (toSize_shift2 _ hq.1 hq.2).1

/-- C40, witness: the vector `(dy, dx) = (3, -7)`. -/
theorem ApproxAtan2_half_turn_witness :
    ApproxAtan2 (-3) (-(-7)) = (ApproxAtan2 3 (-7) + 64) % 128 :=
  ApproxAtan2_half_turn 3 (-7) (by decide) (by decide) (by decide) (by decide)
    (Or.inl (by decide))

/-! ## RegionDilate31 -/

set_option maxRecDepth 100000 in
/-- C32: on the 3x2 image whose only non-zero pixel is the first pixel of row 1,
`RegionDilate31` with mark 255 sets the last pixel of row 0, although that pixel
and its left neighbour (the whole of row 0) are zero in the input: the write at
the head of row 1 lands on the last pixel of the row before. -/
theorem RegionDilate31_reaches_previous_row :
    2 ≤ rowHeadImage.width ∧
    rowHeadImage.data (0 * 3 + 0) = 0 ∧ rowHeadImage.data (0 * 3 + 1) = 0 ∧
    rowHeadImage.data (0 * 3 + 2) = 0 ∧ rowHeadImage.data (1 * 3 + 0) = 255 ∧
    (RegionDilate31 rowHeadImage 255).data (0 * 3 + 2) = 255 ∧
    (List.range 6).map (RegionDilate31 rowHeadImage 255).data = [0, 0, 255, 255, 255, 0] := by
  refine ⟨by decide, by decide, by decide, by decide, by decide, by decide, by decide⟩

/-! ## HistogramStats -/

theorem statsStep_loop (bins : Nat → Nat) (s0 : StatsState) (h0 : s0.ptrBins = 1)
    (h1 : s0.i = 1) (h2 : s0.varianceAccum = 0) :
    ∀ k, (loopN k (statsStep bins) s0).ptrBins = k + 1 ∧
      (loopN k (statsStep bins) s0).i = k + 1 ∧
      (loopN k (statsStep bins) s0).varianceAccum = cumSq bins k % SIZE_MOD := by
  intro k
  induction k with
  | zero =>
    refine ⟨h0, h1, ?_⟩
    show s0.varianceAccum = bins 0 * 0 * 0 % SIZE_MOD
    rw [h2]
    rfl
  | succ k ih =>
    rw [loopN_succ_right]
    obtain ⟨a, b, c⟩ := ih
    generalize loopN k (statsStep bins) s0 = s at a b c
    refine ⟨by show s.ptrBins + 1 = k + 1 + 1; omega, by show s.i + 1 = k + 1 + 1; omega, ?_⟩
    show uadd s.varianceAccum (umul (umul (bins s.ptrBins) s.i) s.i)
      = (cumSq bins k + bins (k + 1) * (k + 1) * (k + 1)) % SIZE_MOD
    rw [a, b, c]
    unfold umul
    rw [Nat.mod_mul_mod, uadd_mod_mod]

/-- Termwise `2*m*k <= k*k + m*m`, summed over the bins: twice `m` times the
first moment is at most the second moment plus `m*m` times the total. -/
theorem moments_bound (bins : Nat → Nat) (m : Nat) :
    ∀ i, 2 * m * cumMean bins i ≤ cumSq bins i + m * m * cumSum bins i := by
  intro i
  induction i with
  | zero =>
    show 2 * m * (0 * bins 0) ≤ bins 0 * 0 * 0 + m * m * bins 0
    rw [Nat.zero_mul, Nat.mul_zero]
    exact Nat.zero_le _
  | succ i ih =>
    show 2 * m * (cumMean bins i + (i + 1) * bins (i + 1))
      ≤ cumSq bins i + bins (i + 1) * (i + 1) * (i + 1) + m * m * (cumSum bins i + bins (i + 1))
    have hterm : 2 * m * ((i + 1) * bins (i + 1))
        ≤ bins (i + 1) * (i + 1) * (i + 1) + m * m * bins (i + 1) := by
      have hk : 2 * m * (i + 1) ≤ (i + 1) * (i + 1) + m * m := by
        zify
        nlinarith [sq_nonneg ((i : Int) + 1 - m)]
      calc 2 * m * ((i + 1) * bins (i + 1))
          = (2 * m * (i + 1)) * bins (i + 1) := by ring
        _ ≤ ((i + 1) * (i + 1) + m * m) * bins (i + 1) := Nat.mul_le_mul_right _ hk
        _ = bins (i + 1) * (i + 1) * (i + 1) + m * m * bins (i + 1) := by ring
    calc 2 * m * (cumMean bins i + (i + 1) * bins (i + 1))
        = 2 * m * cumMean bins i + 2 * m * ((i + 1) * bins (i + 1)) := Nat.mul_add _ _ _
      _ ≤ (cumSq bins i + m * m * cumSum bins i)
          + (bins (i + 1) * (i + 1) * (i + 1) + m * m * bins (i + 1)) :=
        Nat.add_le_add ih hterm
      _ = cumSq bins i + bins (i + 1) * (i + 1) * (i + 1)
          + m * m * (cumSum bins i + bins (i + 1)) := by ring

set_option maxRecDepth 100000 in
/-- C37 (as stated, refuted): the consistent 3-bin histogram with `2^62` counts
in bin 2 has `numberCounts = 2^62 > 0` and `meanBins[2] = 2^63`; the loop's
`varianceAccum` is `2^62 * 2 * 2 = 2^64`, which wraps to 0, so
`varianceAccum / numberCounts = 0` is below `meanIdx * meanIdx = 4` and the
variance wraps to `2^64 - 4`. -/
theorem HistogramStats_variance_counterexample :
    wideHistogram.consistent ∧ 0 < wideHistogram.numberCounts ∧
    (HistogramStatsLoop wideHistogram).varianceAccum / wideHistogram.numberCounts = 0 ∧
    (HistogramStats wideHistogram).map (fun r => r.meanIdx) = some 2 ∧
    (HistogramStats wideHistogram).map (fun r => r.variance) = some 18446744073709551612 := by
  refine ⟨⟨rfl, fun i _ => ⟨rfl, rfl⟩⟩, by decide, by decide, by decide, by decide⟩

/-- C37 (amended): for every histogram with `numberBins >= 1`, `numberCounts > 0`
equal to the sum of its bins, `meanBins[numberBins-1]` equal to the sum of
`i*bins[i]`, and the sum of `bins[i]*i*i` below `2^64`, `HistogramStats` returns,
its `varianceAccum` is that sum, `varianceAccum / numberCounts` is at least
`meanIdx*meanIdx` with `meanIdx = meanBins[numberBins-1] / numberCounts`, and
the variance is their difference without wrap-around. -/
theorem HistogramStats_variance (h : Histogram_t) (_hbins : 1 ≤ h.numberBins)
    (hpos : 0 < h.numberCounts)
    (hcount : h.numberCounts = cumSum h.bins (h.numberBins - 1))
    (hmean : h.meanBins (h.numberBins - 1) = cumMean h.bins (h.numberBins - 1))
    (hsq : cumSq h.bins (h.numberBins - 1) < SIZE_MOD) :
    (HistogramStatsLoop h).varianceAccum = cumSq h.bins (h.numberBins - 1) ∧
    h.meanBins (h.numberBins - 1) / h.numberCounts
        * (h.meanBins (h.numberBins - 1) / h.numberCounts)
      ≤ (HistogramStatsLoop h).varianceAccum / h.numberCounts ∧
    ∃ r, HistogramStats h = some r ∧
      r.meanIdx = h.meanBins (h.numberBins - 1) / h.numberCounts ∧
      r.variance = cumSq h.bins (h.numberBins - 1) / h.numberCounts - r.meanIdx * r.meanIdx := by
  have hacc : (HistogramStatsLoop h).varianceAccum = cumSq h.bins (h.numberBins - 1) := by
    unfold HistogramStatsLoop
    rw [(statsStep_loop h.bins _ rfl rfl rfl (h.numberBins - 1)).2.2]
    exact Nat.mod_eq_of_lt hsq
  generalize hm : h.meanBins (h.numberBins - 1) / h.numberCounts = m
  have hmM : m * h.numberCounts ≤ cumMean h.bins (h.numberBins - 1) := by
    rw [← hm, ← hmean]
    exact Nat.div_mul_le_self _ _
  have hb := moments_bound h.bins m (h.numberBins - 1)
  rw [← hcount] at hb
  have hkey : m * m * h.numberCounts ≤ cumSq h.bins (h.numberBins - 1) := by
    have h2 : 2 * m * (m * h.numberCounts) ≤ 2 * m * cumMean h.bins (h.numberBins - 1) :=
      Nat.mul_le_mul_left _ hmM
    have e : 2 * m * (m * h.numberCounts) = m * m * h.numberCounts + m * m * h.numberCounts := by
      ring
    omega
  have hge : m * m ≤ cumSq h.bins (h.numberBins - 1) / h.numberCounts :=
    (Nat.le_div_iff_mul_le hpos).2 hkey
  have hle : cumSq h.bins (h.numberBins - 1) / h.numberCounts
      ≤ cumSq h.bins (h.numberBins - 1) := Nat.div_le_self _ _
  refine ⟨hacc, by rw [hacc]; exact hge, ?_⟩
  unfold HistogramStats
  rw [if_neg (by omega), hacc, hm]
  refine ⟨_, rfl, rfl, ?_⟩
  show usub (cumSq h.bins (h.numberBins - 1) / h.numberCounts) (umul m m) = _
  rw [umul_eq _ _ (by omega), usub_eq _ _ (by omega) hge]

set_option maxRecDepth 100000 in
/-- C37 (amended), witness: the 6-bin histogram with bins 5, 3, 1, 1, 3, 5. -/
theorem HistogramStats_variance_witness :
    (HistogramStatsLoop sixBinHistogram).varianceAccum
      = cumSq sixBinHistogram.bins (sixBinHistogram.numberBins - 1) ∧
    sixBinHistogram.meanBins (sixBinHistogram.numberBins - 1) / sixBinHistogram.numberCounts
        * (sixBinHistogram.meanBins (sixBinHistogram.numberBins - 1)
          / sixBinHistogram.numberCounts)
      ≤ (HistogramStatsLoop sixBinHistogram).varianceAccum / sixBinHistogram.numberCounts ∧
    ∃ r, HistogramStats sixBinHistogram = some r ∧
      r.meanIdx = sixBinHistogram.meanBins (sixBinHistogram.numberBins - 1)
        / sixBinHistogram.numberCounts ∧
      r.variance = cumSq sixBinHistogram.bins (sixBinHistogram.numberBins - 1)
        / sixBinHistogram.numberCounts - r.meanIdx * r.meanIdx :=
  HistogramStats_variance sixBinHistogram (by decide) (by decide) rfl rfl (by decide)
/-! ## DrawHoughLine: the divisors of the quadrant cases -/

set_option maxRecDepth 100000 in
theorem trig_first_quadrant : ∀ k, k < 32 → 1 ≤ k →
    0 < cosLut.getD k 0 ∧ cosLut.getD k 0 ≤ 65536 ∧
    0 < tanLut.getD k 0 ∧ tanLut.getD k 0 ≤ 1334015 := by decide

theorem UintCos_UintTan_pos (k : Nat) (h1 : 1 ≤ k) (h2 : k ≤ 31) :
    0 < UintCos k ∧ UintCos k ≤ 65536 ∧ 0 < UintTan k ∧ UintTan k ≤ 1334015 := by
  unfold UintCos UintTan
  rw [Nat.mod_eq_of_lt (by omega)]
  exact trig_first_quadrant k (by omega) h1

theorem toSize_ne_zero (v : Int) (h1 : 0 < v) (h2 : v ≤ 1334015) : toSize v ≠ 0 := by
  unfold toSize
  omega

theorem houghEndTopRight_some (width : Nat) (inttop tanval : Int) (ht : toSize tanval ≠ 0) :
    ∃ e, houghEndTopRight width inttop tanval = some e := by
  unfold houghEndTopRight udivChecked
  rw [if_neg ht]
  split_ifs
  · exact ⟨_, rfl⟩
  · exact ⟨_, rfl⟩

theorem houghBeginBottomLeft_some (height : Nat) (intbottom tanval : Int) (ht : tanval ≠ 0) :
    ∃ b, houghBeginBottomLeft height intbottom tanval = some b := by
  unfold houghBeginBottomLeft idivChecked
  rw [if_neg ht]
  split_ifs
  · exact ⟨_, rfl⟩
  · exact ⟨_, rfl⟩

theorem houghEndTopLeft_some (inttop tanval : Int) (ht : tanval ≠ 0) :
    ∃ e, houghEndTopLeft inttop tanval = some e := by
  unfold houghEndTopLeft idivChecked
  rw [if_neg ht]
  split_ifs
  · exact ⟨_, rfl⟩
  · exact ⟨_, rfl⟩

theorem houghBeginBottomRight_some (width height : Nat) (intbottom tanval : Int)
    (ht : toSize tanval ≠ 0) :
    ∃ b, houghBeginBottomRight width height intbottom tanval = some b := by
  unfold houghBeginBottomRight udivChecked
  rw [if_neg ht]
  split_ifs
  · exact ⟨_, rfl⟩
  · exact ⟨_, rfl⟩

theorem houghQuadrant1_some (width height originX originY r : Nat) (cosval tanval : Int)
    (hc : toSize cosval ≠ 0) (ht : tanval ≠ 0) (hts : toSize tanval ≠ 0) :
    ∃ ends, houghQuadrant1 width height originX originY r cosval tanval = some ends := by
  unfold houghQuadrant1 udivChecked
  rw [if_neg hc, Option.some_bind]
  obtain ⟨e, he⟩ := houghEndTopRight_some width
    (wrap32 ((uadd (toSize (wrap32 ((uadd originX (shl16 r / toSize cosval) : Nat) : Int)))
      (umul originY (toSize tanval) / 65536) : Nat) : Int)) tanval hts
  obtain ⟨b, hb⟩ := houghBeginBottomLeft_some height
    (wrap32 ((usub (toSize (wrap32 ((uadd originX (shl16 r / toSize cosval) : Nat) : Int)))
      (umul (usub height originY) (toSize tanval) / 65536) : Nat) : Int)) tanval ht
  simp only [he, hb, Option.some_bind]
  exact ⟨_, rfl⟩

theorem houghQuadrant2_some (width height originX originY r : Nat) (cosval tanval : Int)
    (hc : toSize cosval ≠ 0) (ht : tanval ≠ 0) (hts : toSize tanval ≠ 0) :
    ∃ ends, houghQuadrant2 width height originX originY r cosval tanval = some ends := by
  unfold houghQuadrant2 udivChecked
  rw [if_neg hc, Option.some_bind]
  obtain ⟨e, he⟩ := houghEndTopLeft_some
    (wrap32 ((usub (toSize (wrap32 ((usub originX (shl16 r / toSize cosval) : Nat) : Int)))
      (umul originY (toSize tanval) / 65536) : Nat) : Int)) tanval ht
  obtain ⟨b, hb⟩ := houghBeginBottomRight_some width height
    (wrap32 ((uadd (toSize (wrap32 ((usub originX (shl16 r / toSize cosval) : Nat) : Int)))
      (umul (usub height originY) (toSize tanval) / 65536) : Nat) : Int)) tanval hts
  simp only [he, hb, Option.some_bind]
  exact ⟨_, rfl⟩

theorem houghQuadrant3_some (width height originX originY r : Nat) (cosval tanval : Int)
    (hc : toSize cosval ≠ 0) (ht : tanval ≠ 0) (hts : toSize tanval ≠ 0) :
    ∃ ends, houghQuadrant3 width height originX originY r cosval tanval = some ends := by
  unfold houghQuadrant3 udivChecked
  rw [if_neg hc, Option.some_bind]
  obtain ⟨e, he⟩ := houghEndTopRight_some width
    (wrap32 ((uadd (toSize (wrap32 ((usub originX (shl16 r / toSize cosval) : Nat) : Int)))
      (umul originY (toSize tanval) / 65536) : Nat) : Int)) tanval hts
  obtain ⟨b, hb⟩ := houghBeginBottomLeft_some height
    (wrap32 ((usub (toSize (wrap32 ((usub originX (shl16 r / toSize cosval) : Nat) : Int)))
      (umul (usub height originY) (toSize tanval) / 65536) : Nat) : Int)) tanval ht
  simp only [he, hb, Option.some_bind]
  exact ⟨_, rfl⟩

theorem houghQuadrant4_some (width height originX originY r : Nat) (cosval tanval : Int)
    (hc : toSize cosval ≠ 0) (ht : tanval ≠ 0) (hts : toSize tanval ≠ 0) :
    ∃ ends, houghQuadrant4 width height originX originY r cosval tanval = some ends := by
  unfold houghQuadrant4 udivChecked
  rw [if_neg hc, Option.some_bind]
  obtain ⟨e, he⟩ := houghEndTopLeft_some
    (wrap32 ((usub (toSize (wrap32 ((uadd originX (shl16 r / toSize cosval) : Nat) : Int)))
      (umul originY (toSize tanval) / 65536) : Nat) : Int)) tanval ht
  obtain ⟨b, hb⟩ := houghBeginBottomRight_some width height
    (wrap32 ((uadd (toSize (wrap32 ((uadd originX (shl16 r / toSize cosval) : Nat) : Int)))
      (umul (usub height originY) (toSize tanval) / 65536) : Nat) : Int)) tanval hts
  simp only [he, hb, Option.some_bind]
  exact ⟨_, rfl⟩

theorem houghFold_range (theta : Nat) (h1 : 1 ≤ theta) (h2 : theta ≤ 127)
    (h32 : theta ≠ 32) (h64 : theta ≠ 64) (h96 : theta ≠ 96) :
    1 ≤ houghFold theta ∧ houghFold theta ≤ 31 := by
  unfold houghFold usub SIZE_MOD
  split_ifs <;> omega

/-- C33: for every `theta` in `[1,127]` other than 32, 64 and 96, the index
that the quadrant case selected by `DrawHoughLine` passes to `UintCos` and
`UintTan` lies in `[1,31]`, both table values are strictly positive there, and
the computation of the end points executes no division by zero, whatever the
image size, origin and radius. -/
theorem DrawHoughLine_no_division_by_zero (width height originX originY theta radius : Nat)
    (h1 : 1 ≤ theta) (h2 : theta ≤ 127) (h32 : theta ≠ 32) (h64 : theta ≠ 64)
    (h96 : theta ≠ 96) :
    1 ≤ houghFold theta ∧ houghFold theta ≤ 31 ∧
    0 < UintCos (houghFold theta) ∧ 0 < UintTan (houghFold theta) ∧
    ∃ ends, DrawHoughLineEnds width height originX originY theta radius = some ends := by
  obtain ⟨f1, f2⟩ := houghFold_range theta h1 h2 h32 h64 h96
  obtain ⟨c1, c2, t1, t2⟩ := UintCos_UintTan_pos (houghFold theta) f1 f2
  have hc := toSize_ne_zero _ c1 (by omega)
  have hts := toSize_ne_zero _ t1 t2
  have ht : UintTan (houghFold theta) ≠ 0 := by omega
  refine ⟨f1, f2, c1, t1, ?_⟩
  unfold DrawHoughLineEnds
  rw [if_neg (by omega), if_neg h32, if_neg h64, if_neg h96]
  unfold houghFold at hc hts ht
  by_cases q1 : theta < 32
  · rw [if_pos q1] at hc hts ht
    rw [if_pos q1]
    exact houghQuadrant1_some _ _ _ _ _ _ _ hc ht hts
  · rw [if_neg q1] at hc hts ht
    rw [if_neg q1]
    by_cases q2 : theta < 64
    · rw [if_pos q2] at hc hts ht
      rw [if_pos q2]
      exact houghQuadrant2_some _ _ _ _ _ _ _ hc ht hts
    · rw [if_neg q2] at hc hts ht
      rw [if_neg q2]
      by_cases q3 : theta < 96
      · rw [if_pos q3] at hc hts ht
        rw [if_pos q3]
        exact houghQuadrant3_some _ _ _ _ _ _ _ hc ht hts
      · rw [if_neg q3] at hc hts ht
        rw [if_neg q3]
        exact houghQuadrant4_some _ _ _ _ _ _ _ hc ht hts

/-- C33, witness: `theta = 100` (fourth quadrant case, folded to 28) for a
64x48 image with the origin at its centre and radius bin 3. -/
theorem DrawHoughLine_no_division_by_zero_witness :
    1 ≤ houghFold 100 ∧ houghFold 100 ≤ 31 ∧
    0 < UintCos (houghFold 100) ∧ 0 < UintTan (houghFold 100) ∧
    ∃ ends, DrawHoughLineEnds 64 48 32 24 100 3 = some ends :=
  DrawHoughLine_no_division_by_zero 64 48 32 24 100 3 (by decide) (by decide) (by decide)
    (by decide) (by decide)

end EmbedCV
